import Mathlib

/-!
Verification of the dailynotes-panel task engine.

This file shallowly embeds the task-metadata normalization, parsing,
grouping and rollover logic of the repository (src/extension.ts and
src/taskParser.ts) as executable Lean definitions over lists of
characters, and proves or refutes the specified properties.

Strings are modelled as List Char.  The JavaScript regular-expression
character classes are modelled over their ASCII ranges: the word class
is letters, digits and underscore, and the whitespace class is the six
ASCII whitespace characters.
-/

namespace DailyNotes

/-- JS regex word character (the class backing a word boundary):
ASCII letter, digit, or underscore. -/
def isWordChar (c : Char) : Bool := c.isAlphanum || c = '_'

/-- JS regex whitespace character, restricted to the ASCII range:
space, tab, newline, carriage return, vertical tab, form feed. -/
def isSpaceChar (c : Char) : Bool :=
  c = ' ' || c = '\t' || c = '\n' || c = '\r' || c = '\x0b' || c = '\x0c'

/-- Lower-case fold of a character, used where the source lower-cases
captured values. -/
def lc (c : Char) : Char := c.toLower

/-- Case-insensitive test of one character against an ASCII letter (the
i flag of the source regexes, which for ASCII letters accepts exactly
the two cases). -/
def ci (c lo up : Char) : Bool := c = lo || c = up

/-- The four recognized metadata keys of META_TOKEN_REGEX:
the alternation (id|cd|dd|due). -/
inductive MetaKey where
  | id
  | cd
  | due
  | dd
deriving DecidableEq, Repr

/-- The two-or-three letter key spelling used when a token is rendered
(always lower case, as in the source literals). -/
def keyChars : MetaKey → List Char
  | MetaKey.id => ['i', 'd']
  | MetaKey.cd => ['c', 'd']
  | MetaKey.due => ['d', 'u', 'e']
  | MetaKey.dd => ['d', 'd']

/-- Matches the case-insensitive key-plus-colon head of a metadata token
at the start of the character list: the (id|cd|dd|due): part of
META_TOKEN_REGEX.  Returns the key and the remainder after the colon. -/
def keyHead (s : List Char) : Option (MetaKey × List Char) :=
  match s with
  | c1 :: c2 :: c3 :: rest =>
    if c3 = ':' then
      if ci c1 'i' 'I' && ci c2 'd' 'D' then some (MetaKey.id, rest)
      else if ci c1 'c' 'C' && ci c2 'd' 'D' then some (MetaKey.cd, rest)
      else if ci c1 'd' 'D' && ci c2 'd' 'D' then some (MetaKey.dd, rest)
      else none
    else
      if rest.headD ' ' = ':' && (ci c1 'd' 'D' && ci c2 'u' 'U' && ci c3 'e' 'E') then
        some (MetaKey.due, rest.tail)
      else none
  | _ => none

/-- The value matched by the greedy `[^\s]+` of META_TOKEN_REGEX followed
by a word boundary: the backtracking engine settles on the longest
prefix of the maximal non-whitespace run that ends in a word character.
Returns the value and the leftover non-word tail of the run, or none
when the run contains no word character at all (the boundary can never
be satisfied and the whole match attempt fails). -/
def lastWordSplit (run : List Char) : Option (List Char × List Char) :=
  if (run.reverse.dropWhile (fun c => !isWordChar c)).isEmpty then none
  else some ((run.reverse.dropWhile (fun c => !isWordChar c)).reverse,
             (run.reverse.takeWhile (fun c => !isWordChar c)).reverse)

/-- One attempted match of META_TOKEN_REGEX at the head of the list
(the leading word boundary is checked by the caller, which tracks the
wordness of the preceding character).  On success returns the key, the
matched value, and the remainder of the input after the match. -/
def matchToken (s : List Char) : Option (MetaKey × List Char × List Char) :=
  match keyHead s with
  | none => none
  | some (k, r) =>
    let run := r.takeWhile (fun c => !isSpaceChar c)
    match lastWordSplit run with
    | none => none
    | some (v, _) => some (k, v, r.drop v.length)

theorem lastWordSplit_value_nonempty {run v lf : List Char}
    (h : lastWordSplit run = some (v, lf)) : v ≠ [] := by
  unfold lastWordSplit at h
  split at h
  · simp at h
  · rename_i hne
    simp only [Option.some.injEq, Prod.mk.injEq] at h
    intro hcon
    rw [hcon] at h
    have h1 := h.1
    rw [List.reverse_eq_nil_iff] at h1
    simp [h1] at hne

theorem keyHead_length {s : List Char} {k : MetaKey} {r : List Char}
    (h : keyHead s = some (k, r)) : r.length + 3 ≤ s.length := by
  unfold keyHead at h
  repeat' split at h
  all_goals simp_all
  all_goals (try (obtain ⟨h1, h2⟩ := h; subst h2; simp [List.length_tail]))
  all_goals (try omega)

theorem matchToken_rest_length {s : List Char} {k : MetaKey} {v rest : List Char}
    (h : matchToken s = some (k, v, rest)) : rest.length < s.length := by
  unfold matchToken at h
  match hk : keyHead s with
  | none => rw [hk] at h; simp at h
  | some (k2, r) =>
    rw [hk] at h
    simp only at h
    match hs : lastWordSplit (r.takeWhile (fun c => !isSpaceChar c)) with
    | none => rw [hs] at h; simp at h
    | some (v2, lf) =>
      rw [hs] at h
      simp at h
      have hv : v2 ≠ [] := lastWordSplit_value_nonempty hs
      have hlen : r.length + 3 ≤ s.length := keyHead_length hk
      rcases h with ⟨_, hv2, hrest⟩
      have : rest.length ≤ r.length := by
        rw [← hrest]; simp
      have : 0 < v2.length := List.length_pos.mpr hv
      have hdrop : rest.length = r.length - v2.length := by
        rw [← hrest]; simp
      omega

/-- The sequential left-to-right scan performed by a global replace with
META_TOKEN_REGEX: at every position whose preceding character is not a
word character (prevW false; the leading word boundary of the pattern),
a match is attempted; a successful match is deleted from the text and
collected, and scanning resumes after it (the last character of a
matched value is always a word character, so prevW becomes true).
Returns the tokens in match order and the kept (unmatched) characters. -/
def scanMeta (prevW : Bool) (s : List Char) : List (MetaKey × List Char) × List Char :=
  match s with
  | [] => ([], [])
  | c :: rest =>
    if prevW then
      let r := scanMeta (isWordChar c) rest
      (r.1, c :: r.2)
    else
      match h : matchToken (c :: rest) with
      | some (k, v, rest2) =>
        let r := scanMeta true rest2
        ((k, v) :: r.1, r.2)
      | none =>
        let r := scanMeta (isWordChar c) rest
        (r.1, c :: r.2)
termination_by s.length
decreasing_by
  · simp
  · exact matchToken_rest_length h
  · simp

/-- The whitespace collapse of the normalizer: every maximal run of
whitespace characters is replaced by a single space
(the replace of `\s+` with a space). -/
def collapseWs (s : List Char) : List Char :=
  match s with
  | [] => []
  | c :: rest =>
    if isSpaceChar c then ' ' :: collapseWs (rest.dropWhile isSpaceChar)
    else c :: collapseWs rest
termination_by s.length
decreasing_by
  · have := (List.dropWhile_sublist (l := rest) isSpaceChar).length_le
    simp
    omega
  · simp

/-- Leading-whitespace trim. -/
def trimLeftWs (s : List Char) : List Char := s.dropWhile isSpaceChar

/-- Trailing-whitespace trim. -/
def trimRightWs (s : List Char) : List Char := (s.reverse.dropWhile isSpaceChar).reverse

/-- Both-ends trim, as JS String.trim over the ASCII whitespace range. -/
def trimWs (s : List Char) : List Char := trimRightWs (trimLeftWs s)

/-- The whitespace-separated words of a text, in order: the maximal
nonempty runs of non-whitespace characters.  This is the canonical
decomposition under which collapse-and-trim is analysed. -/
def wordsOf (s : List Char) : List (List Char) :=
  match s with
  | [] => []
  | c :: rest =>
    if isSpaceChar c then wordsOf rest
    else (c :: rest.takeWhile (fun d => !isSpaceChar d)) ::
      wordsOf (rest.dropWhile (fun d => !isSpaceChar d))
termination_by s.length
decreasing_by
  · simp
  · have := (List.dropWhile_sublist (l := rest) (fun d => !isSpaceChar d)).length_le
    simp
    omega

/-- The metadata record collected from a task body: the four optional
fields of the TaskMeta type of extension.ts. -/
structure TaskMeta where
  id : Option (List Char) := none
  cd : Option (List Char) := none
  due : Option (List Char) := none
  dd : Option (List Char) := none
deriving DecidableEq, Repr

/-- One assignment step of the replace callback of stripAndCollectMeta:
each matched token stores its value into the field named by its key,
so a later occurrence of the same key overwrites an earlier one. -/
def applyToken (m : TaskMeta) (t : MetaKey × List Char) : TaskMeta :=
  match t.1 with
  | MetaKey.id => { m with id := some t.2 }
  | MetaKey.cd => { m with cd := some t.2 }
  | MetaKey.due => { m with due := some t.2 }
  | MetaKey.dd => { m with dd := some t.2 }

/-- stripAndCollectMeta of extension.ts (identical to
parseAndStripMetadata of taskParser.ts): removes every metadata token
from the text, collapses whitespace runs to single spaces, trims the
ends, and collects the token values (last occurrence of a key wins). -/
def stripAndCollectMeta (text : List Char) : List Char × TaskMeta :=
  let r := scanMeta false text
  (trimWs (collapseWs r.2), r.1.foldl applyToken {})

/-- JS truthiness of an optional string field: undefined and the empty
string are falsy (the `if (meta.id)` checks of the source). -/
def truthy : Option (List Char) → Bool
  | none => false
  | some v => !v.isEmpty

/-- Rendering of a single metadata token, key:value. -/
def renderTok (k : MetaKey) (v : List Char) : List Char := keyChars k ++ ':' :: v

/-- The truthy fields of a metadata record in the fixed render order
id, cd, due, dd (the parts array of buildMetaSuffix). -/
def metaParts (m : TaskMeta) : List (MetaKey × List Char) :=
  (match m.id with
   | some v => if v.isEmpty then [] else [(MetaKey.id, v)]
   | none => []) ++
  (match m.cd with
   | some v => if v.isEmpty then [] else [(MetaKey.cd, v)]
   | none => []) ++
  (match m.due with
   | some v => if v.isEmpty then [] else [(MetaKey.due, v)]
   | none => []) ++
  (match m.dd with
   | some v => if v.isEmpty then [] else [(MetaKey.dd, v)]
   | none => [])

/-- Array.prototype.join with a one-character separator. -/
def joinWith (sep : Char) : List (List Char) → List Char
  | [] => []
  | [x] => x
  | x :: y :: xs => x ++ sep :: joinWith sep (y :: xs)

/-- buildMetaSuffix of extension.ts: renders the truthy fields in order
id, cd, due, dd, joined by single spaces, preceded by one space; empty
when no field is present. -/
def buildMetaSuffix (m : TaskMeta) : List Char :=
  let parts := (metaParts m).map (fun t => renderTok t.1 t.2)
  if parts.isEmpty then [] else ' ' :: joinWith ' ' parts

/-! ## The task line grammar of the normalizer

TASK_LINE_REGEX of extension.ts.  The lazy body group followed by an
optional-whitespace anchor is resolved by the backtracking engine as:
the body is the remainder with its maximal trailing whitespace run
removed, except that when that leaves nothing the body keeps one
whitespace character (the lazy group must consume at least one). -/

/-- The body text matched by the trailing lazy group of TASK_LINE_REGEX
on a nonempty remainder. -/
def rtrimBody (u : List Char) : List Char :=
  if (trimRightWs u).isEmpty then u.take 1 else trimRightWs u

/-- The optional priority group of TASK_LINE_REGEX: an upper-case letter
in parentheses followed by required whitespace and a nonempty body.
When the remainder after the required whitespace is empty, the greedy
whitespace run gives one character back to the body if it can;
otherwise the whole group fails to participate in the match. -/
def tryPriority (t : List Char) : Option (Char × List Char) :=
  match t with
  | c1 :: p :: c3 :: r5 =>
    if c1 = '(' && c3 = ')' && ('A' ≤ p && p ≤ 'Z') then
      let ws4 := r5.takeWhile isSpaceChar
      if ws4.isEmpty then none
      else
        let u := r5.drop ws4.length
        if u.isEmpty then
          if 2 ≤ ws4.length then some (p, [' ']) else none
        else some (p, rtrimBody u)
    else none
  | _ => none

/-- A successful match of TASK_LINE_REGEX: group 1 (the prefix through
the checkbox and its trailing whitespace), group 2 (the checkbox
character), group 3 (the optional priority letter) and group 4 (the
body). -/
structure LineMatch where
  pfx : List Char
  box : Char
  priority : Option Char
  body : List Char
deriving DecidableEq, Repr

/-- TASK_LINE_REGEX of extension.ts applied to one line: optional
leading whitespace, a dash, required whitespace, a checkbox, greedy
optional whitespace, an optional priority marker, and a nonempty body
with trailing whitespace trimmed out of the capture.  When everything
after the checkbox is whitespace, the greedy whitespace run of the
prefix gives one character back so the body can match it. -/
def taskLineMatch (line : List Char) : Option LineMatch :=
  match line.drop (line.takeWhile isSpaceChar).length with
  | d :: r2 =>
    if d = '-' then
      if (r2.takeWhile isSpaceChar).isEmpty then none
      else
        match r2.drop (r2.takeWhile isSpaceChar).length with
        | lb :: bx :: rb :: r3 =>
          if lb = '[' && rb = ']' then
            if bx = ' ' || bx = 'x' || bx = 'X' then
              let ws1 := line.takeWhile isSpaceChar
              let ws2 := r2.takeWhile isSpaceChar
              let ws3 := r3.takeWhile isSpaceChar
              let r4 := r3.drop ws3.length
              if r4.isEmpty then
                if ws3.isEmpty then none
                else some { pfx := ws1 ++ '-' :: ws2 ++ '[' :: bx :: ']' :: ws3.dropLast,
                            box := bx, priority := none, body := [' '] }
              else
                match tryPriority r4 with
                | some pr => some { pfx := ws1 ++ '-' :: ws2 ++ '[' :: bx :: ']' :: ws3,
                                    box := bx, priority := some pr.1, body := pr.2 }
                | none => some { pfx := ws1 ++ '-' :: ws2 ++ '[' :: bx :: ']' :: ws3,
                                 box := bx, priority := none, body := rtrimBody r4 }
            else none
          else none
        | _ => none
    else none
  | _ => none

/-! ## The identifier allocator (generateShortId of extension.ts)

The cryptographic random source is modelled as two oracle streams: a
stream of 32-bit numbers (one per crypto.randomBytes(4) read, consumed
in order through a counter) and a stream of raw UUID strings (one per
crypto.randomUUID call on the fallback path). -/

/-- The digit alphabet of Number.prototype.toString(36):
0-9 then lower-case a-z. -/
def base36Digits : List Char := "0123456789abcdefghijklmnopqrstuvwxyz".data

/-- One base-36 digit, as produced by Number.prototype.toString(36). -/
def base36Char (n : Nat) : Char := base36Digits.getD n '0'

/-- Base-36 rendering of a natural number, most significant digit
first, as Number.prototype.toString(36). -/
def toBase36 (n : Nat) : List Char :=
  if h : n < 36 then [base36Char n]
  else toBase36 (n / 36) ++ [base36Char (n % 36)]
termination_by n
decreasing_by
  exact Nat.div_lt_self (by omega) (by omega)

theorem toBase36_ne_nil (n : Nat) : toBase36 n ≠ [] := by
  unfold toBase36
  split
  · simp
  · simp

/-- One chunk of randomness:
crypto.randomBytes(4).readUInt32BE(0).toString(36). -/
def chunk36 (rand : Nat → Nat) (k : Nat) : List Char := toBase36 (rand k % 2 ^ 32)

/-- The candidate-building loop of generateShortId: concatenate chunks
until the accumulator reaches the requested length, then slice to the
length and lower-case.  Returns the candidate and the next unused
chunk index. -/
def buildCandidate (rand : Nat → Nat) (k : Nat) (acc : List Char) (len : Nat) :
    List Char × Nat :=
  if len ≤ acc.length then ((acc.take len).map lc, k)
  else buildCandidate rand (k + 1) (acc ++ chunk36 rand k) len
termination_by len - acc.length
decreasing_by
  have : chunk36 rand k ≠ [] := toBase36_ne_nil _
  have : 0 < (chunk36 rand k).length := List.length_pos.mpr this
  simp
  omega

/-- The retry loop of generateShortId: lengths 3 through 10, 25 attempts
per length, returning the first candidate not already in use (with the
chunk counter threaded through), or none when every attempt collided. -/
def genGo (rand : Nat → Nat) (existing : List (List Char)) (len attempt k : Nat) :
    Option (List Char × Nat) :=
  if 10 < len then none
  else if 25 ≤ attempt then genGo rand existing (len + 1) 0 k
  else
    let bc := buildCandidate rand k [] len
    if existing.contains bc.1 then genGo rand existing len (attempt + 1) bc.2
    else some bc
termination_by (11 - len, 25 - attempt)
decreasing_by
  · apply Prod.Lex.left
    omega
  · apply Prod.Lex.right
    omega

/-- The fallback identifier derived from one crypto.randomUUID() value:
hyphens removed, sliced to six characters, lower-cased.  The membership
check of the retry loop is not applied to it. -/
def processFallback (u : List Char) : List Char :=
  ((u.filter (fun c => c ≠ '-')).take 6).map lc

/-- generateShortId of extension.ts.  Returns the identifier, the
updated set of identifiers in use, the next unused chunk index, and
whether the fallback path was taken (which consumes one UUID). -/
def generateShortId (rand : Nat → Nat) (fb : List Char) (existing : List (List Char))
    (k : Nat) : List Char × List (List Char) × Nat × Bool :=
  match genGo rand existing 3 0 k with
  | some (cand, k2) => (cand, cand :: existing, k2, false)
  | none =>
    let f := processFallback fb
    (f, f :: existing, k, true)

/-! ## The pre-scan for existing identifiers

Per line, the first match of the non-global regex
`\bid:([a-z0-9]{3,})\b` with the i flag: a case-insensitive id: key at
a word boundary followed by at least three alphanumeric characters; the
greedy run must end at a word boundary, so the character after the
maximal alphanumeric run must not be an underscore.  The captured run
is lower-cased before being added to the set. -/

/-- One attempted pre-scan match at the head of the list (the leading
word boundary is checked by the caller). -/
def idHeadMatch (s : List Char) : Option (List Char) :=
  match s with
  | c1 :: c2 :: c3 :: r =>
    if c3 = ':' && (ci c1 'i' 'I' && ci c2 'd' 'D') then
      let run := r.takeWhile Char.isAlphanum
      if 3 ≤ run.length && !isWordChar ((r.drop run.length).headD ' ') then
        some (run.map lc)
      else none
    else none
  | _ => none

/-- The left-to-right first-match scan of the pre-scan regex over one
line. -/
def prescanLine (prevW : Bool) (s : List Char) : Option (List Char) :=
  match s with
  | [] => none
  | c :: rest =>
    if prevW then prescanLine (isWordChar c) rest
    else
      match idHeadMatch (c :: rest) with
      | some v => some v
      | none => prescanLine (isWordChar c) rest

/-- The pre-scan loop of computeTaskNormalizationEdits: every
identifier found anywhere in the document, lower-cased. -/
def prescanDoc (doc : List (List Char)) : List (List Char) :=
  doc.foldl
    (fun acc line =>
      match prescanLine false line with
      | some v => v :: acc
      | none => acc) []

/-! ## The per-line normalization -/

/-- The inputs of one normalization pass that come from outside the
document: the two random oracle streams, the date taken from the
document file name (sourceDateFromFilename), and the formatted current
date (ddToday). -/
structure NormCtx where
  rand : Nat → Nat
  fbs : Nat → List Char
  sourceDate : List Char
  today : List Char

/-- The mutable state threaded through one pass: the set of identifiers
known to be in use and the two random-stream counters. -/
structure NormState where
  existing : List (List Char)
  chunkIdx : Nat
  fbIdx : Nat
deriving Repr

/-- The body of the per-line loop of computeTaskNormalizationEdits:
parse the line, strip and collect metadata, skip blank bodies, assign a
missing id (reserving it) and a missing cd, stamp or remove dd from the
checkbox state, rebuild the line, and emit a replacement only when the
rebuilt line differs from the original. -/
def assignId (ctx : NormCtx) (st : NormState) (m : TaskMeta) : TaskMeta × NormState :=
  if truthy m.id then (m, st)
  else
    let g := generateShortId ctx.rand (ctx.fbs st.fbIdx) st.existing st.chunkIdx
    ({ m with id := some g.1 },
     { existing := g.2.1, chunkIdx := g.2.2.1,
       fbIdx := if g.2.2.2 then st.fbIdx + 1 else st.fbIdx })

/-- The creation-date assignment of the per-line loop. -/
def assignCd (sourceDate : List Char) (m : TaskMeta) : TaskMeta :=
  if truthy m.cd then m else { m with cd := some sourceDate }

/-- The done-date law of the per-line loop: a completed task receives a
dd stamp when it has none, an uncompleted task loses any dd stamp. -/
def assignDd (today : List Char) (completed : Bool) (m : TaskMeta) : TaskMeta :=
  if completed then
    (if truthy m.dd then m else { m with dd := some today })
  else
    (if truthy m.dd then { m with dd := none } else m)

def normAssign (ctx : NormCtx) (st : NormState) (m : TaskMeta) (completed : Bool) :
    TaskMeta × NormState :=
  let idStep := assignId ctx st m
  (assignDd ctx.today completed (assignCd ctx.sourceDate idStep.1), idStep.2)

/-- The rendering of the optional priority marker in a rebuilt line. -/
def prioRender : Option Char → List Char
  | some p => ['(', p, ')', ' ']
  | none => []

def normLine (ctx : NormCtx) (st : NormState) (line : List Char) :
    Option (List Char) × NormState :=
  match taskLineMatch line with
  | none => (none, st)
  | some lm =>
    let sm := stripAndCollectMeta lm.body
    if sm.1.isEmpty then (none, st)
    else
      let a := normAssign ctx st sm.2 (lc lm.box = 'x')
      let normalized := lm.pfx ++ prioRender lm.priority ++ sm.1 ++ buildMetaSuffix a.1
      (if normalized = line then none else some normalized, a.2)

/-- The per-line loop over a whole document, threading the state. -/
def normLinesGo (ctx : NormCtx) (st : NormState) :
    List (List Char) → List (Option (List Char)) × NormState
  | [] => ([], st)
  | l :: ls =>
    let r := normLine ctx st l
    let rest := normLinesGo ctx r.2 ls
    (r.1 :: rest.1, rest.2)

/-- The state at the start of a pass: the pre-scanned identifiers and
fresh random-stream counters. -/
def initState (doc : List (List Char)) : NormState :=
  { existing := prescanDoc doc, chunkIdx := 0, fbIdx := 0 }

/-- Numbering of the emitted replacements with their line indices. -/
def collectEdits (i : Nat) : List (Option (List Char)) → List (Nat × List Char)
  | [] => []
  | none :: rest => collectEdits (i + 1) rest
  | some t :: rest => (i, t) :: collectEdits (i + 1) rest

/-- computeTaskNormalizationEdits of extension.ts: the minimal list of
line replacements for one document. -/
def computeTaskNormalizationEdits (ctx : NormCtx) (doc : List (List Char)) :
    List (Nat × List Char) :=
  collectEdits 0 (normLinesGo ctx (initState doc) doc).1

/-- The document after the pass: every line replaced by its rebuilt
form when a replacement was emitted. -/
def applyNormalize (ctx : NormCtx) (doc : List (List Char)) : List (List Char) :=
  List.zipWith (fun l o => o.getD l) doc (normLinesGo ctx (initState doc) doc).1

/-! ## taskParser.ts -/

/-- The Task record of taskParser.ts.  The priority is a single
upper-case letter when present (the regex captures exactly one). -/
structure Task where
  completed : Bool
  priority : Option Char
  text : List Char
  id : Option (List Char) := none
  cd : Option (List Char) := none
  due : Option (List Char) := none
  dd : Option (List Char) := none
  projects : List (List Char) := []
  contexts : List (List Char) := []
  sourceDate : List Char := []
  sourceFile : List Char := []
  rawLine : List Char := []
deriving DecidableEq, Repr

/-- The tag scan of extractTags with PROJECT_TAG or CONTEXT_TAG: each
match of the marker followed by a maximal nonempty run of
non-whitespace characters, matches taken left to right without
overlap. -/
def extractTags (mark : Char) (s : List Char) : List (List Char) :=
  match s with
  | [] => []
  | c :: rest =>
    if c = mark then
      let run := rest.takeWhile (fun d => !isSpaceChar d)
      if run.isEmpty then extractTags mark rest
      else run :: extractTags mark (rest.drop run.length)
    else extractTags mark rest
termination_by s.length
decreasing_by
  · simp
  · have : (rest.drop (rest.takeWhile (fun d => !isSpaceChar d)).length).length ≤ rest.length := by
      simp
    simp
    omega
  · simp

/-- parseTaskLine of taskParser.ts: TASK_REGEX applied to the trimmed
line.  The trimmed input never ends in whitespace, so the greedy body
group is simply the whole remainder after the checkbox, optional
priority and required whitespace. -/
def parseTaskLine (line sourceDate sourceFile : List Char) : Option Task :=
  let tl := trimWs line
  match tl with
  | '-' :: r2 =>
    let ws2 := r2.takeWhile isSpaceChar
    if ws2.isEmpty then none
    else
      match r2.drop ws2.length with
      | '[' :: b :: ']' :: r3 =>
        if b = ' ' || b = 'x' || b = 'X' then
          let ws3 := r3.takeWhile isSpaceChar
          let r4 := r3.drop ws3.length
          if r4.isEmpty then none
          else
            let pb : Option Char × List Char :=
              match tryPriority r4 with
              | some pr => (some pr.1, pr.2)
              | none => (none, rtrimBody r4)
            let originalText := trimWs pb.2
            let sm := stripAndCollectMeta originalText
            some { completed := lc b = 'x'
                   priority := pb.1
                   text := sm.1
                   id := sm.2.id
                   cd := sm.2.cd
                   due := sm.2.due
                   dd := sm.2.dd
                   projects := extractTags '+' sm.1
                   contexts := extractTags '@' sm.1
                   sourceDate := sourceDate
                   sourceFile := sourceFile
                   rawLine := tl }
        else none
      | _ => none
  | _ => none

/-- The lines of a content string, split on newline characters. -/
def splitLines (content : List Char) : List (List Char) :=
  match content with
  | [] => [[]]
  | '\n' :: rest => [] :: splitLines rest
  | c :: rest =>
    match splitLines rest with
    | [] => [[c]]
    | l :: ls => (c :: l) :: ls

/-- parseTasksFromContent of taskParser.ts. -/
def parseTasksFromContent (content sourceDate sourceFile : List Char) : List Task :=
  (splitLines content).filterMap (fun l => parseTaskLine l sourceDate sourceFile)

/-- getUncompletedTasks of taskParser.ts. -/
def getUncompletedTasks (ts : List Task) : List Task := ts.filter (fun t => !t.completed)

/-- Case fold of one character to its comparison weight: upper-case
ASCII letters fold onto the lower-case range.  This models the default
collator used by String.prototype.localeCompare on the ASCII
alphanumeric inputs that occur here (priority letters, the string ZZZ,
and project names). -/
def charFold (c : Char) : Nat := if 'A' ≤ c && c ≤ 'Z' then c.toNat + 32 else c.toNat

/-- Model of String.prototype.localeCompare restricted to the inputs
used by the source comparators: lexicographic on case-folded
characters, a proper prefix ordering first. -/
def lexCmp : List Char → List Char → Int
  | [], [] => 0
  | [], _ :: _ => -1
  | _ :: _, [] => 1
  | a :: as, b :: bs =>
    if charFold a < charFold b then -1
    else if charFold b < charFold a then 1
    else lexCmp as bs

/-- The sort key of sortTasksByPriority: the priority letter, or the
string ZZZ when the task has none. -/
def prioKey (t : Task) : List Char :=
  match t.priority with
  | some p => [p]
  | none => ['Z', 'Z', 'Z']

/-- The comparator of sortTasksByPriority. -/
def cmpTasks (a b : Task) : Int := lexCmp (prioKey a) (prioKey b)

/-- Insertion of an element into a sorted list, before the first
element it compares less-or-equal to: combined with insertion from the
right this realizes a stable sort. -/
def orderedInsert {α : Type} (le : α → α → Bool) (x : α) : List α → List α
  | [] => [x]
  | y :: ys => if le x y then x :: y :: ys else y :: orderedInsert le x ys

/-- Stable sort by a boolean less-or-equal relation.  Array.prototype
.sort is specified to be stable, and with a consistent comparator every
stable sort produces the same list, so insertion sort is a faithful
model. -/
def stableSort {α : Type} (le : α → α → Bool) : List α → List α
  | [] => []
  | x :: xs => orderedInsert le x (stableSort le xs)

/-- sortTasksByPriority of taskParser.ts. -/
def sortTasksByPriority (ts : List Task) : List Task :=
  stableSort (fun a b => cmpTasks a b ≤ 0) ts

/-- The reserved group name for tasks without a project tag. -/
def ungroupedKey : List Char := "Ungrouped".data

/-- Lookup in an insertion-ordered association list (the Map of
groupTasksByProject). -/
def getGroup (gs : List (List Char × List Task)) (key : List Char) : Option (List Task) :=
  match gs with
  | [] => none
  | g :: rest => if g.1 = key then some g.2 else getGroup rest key

/-- Update in an insertion-ordered association list: an existing key
keeps its position, a new key is appended at the end (JS Map insertion
order). -/
def setGroup (gs : List (List Char × List Task)) (key : List Char) (v : List Task) :
    List (List Char × List Task) :=
  match gs with
  | [] => [(key, v)]
  | g :: rest => if g.1 = key then (key, v) :: rest else g :: setGroup rest key v

/-- groupTasksByProject of taskParser.ts: each task is pushed into the
group of every project it lists (once per occurrence), and a task with
no project goes into the Ungrouped bucket. -/
def groupTasksByProject (ts : List Task) : List (List Char × List Task) :=
  ts.foldl
    (fun gs t =>
      let keys := if t.projects.isEmpty then [ungroupedKey] else t.projects
      keys.foldl (fun gs2 key => setGroup gs2 key ((getGroup gs2 key).getD [] ++ [t])) gs)
    []

/-- The metadata record carried by a Task. -/
def taskMetaOf (t : Task) : TaskMeta :=
  { id := t.id, cd := t.cd, due := t.due, dd := t.dd }

/-- formatTaskLine of taskParser.ts.  The inline meta-parts
construction of the source (push id, cd, due, dd when truthy, joined
by spaces with a leading space) coincides with buildMetaSuffix. -/
def formatTaskLine (t : Task) (includeDate : Bool) : List Char :=
  let checkbox : List Char := if t.completed then "[x]".data else "[ ]".data
  let pr : List Char :=
    match t.priority with
    | some p => ['(', p, ')', ' ']
    | none => []
  let date : List Char :=
    if includeDate then ' ' :: '—' :: ' ' :: '[' :: '[' :: (t.sourceDate ++ "]]".data)
    else []
  '-' :: ' ' :: (checkbox ++ ' ' :: (pr ++ t.text ++ buildMetaSuffix (taskMetaOf t) ++ date))

/-- The comparator of the project-key sort of formatTodoMd: Ungrouped
sorts after everything, the rest by localeCompare. -/
def cmpProject (a b : List Char) : Int :=
  if a = ungroupedKey then 1 else if b = ungroupedKey then -1 else lexCmp a b

/-- The sorted project keys of formatTodoMd. -/
def sortKeys (ks : List (List Char)) : List (List Char) :=
  stableSort (fun a b => cmpProject a b ≤ 0) ks

/-- The lines of the generated todo.md document (formatTodoMd before
the final join): the header, then one section per project in sorted
order, each a heading, a blank line, the priority-sorted task lines
with source links, and a closing blank line. -/
def formatTodoMdLines (ts : List Task) : List (List Char) :=
  let grouped := groupTasksByProject ts
  let keys := sortKeys (grouped.map Prod.fst)
  ["<!-- GENERATED FILE: Do not edit by hand. Run \"dailyNotes: Generate todo.md from All Notes\". -->".data,
   [], "# Tasks".data, []] ++
  keys.flatMap
    (fun k =>
      let gts := sortTasksByPriority ((getGroup grouped k).getD [])
      ("## ".data ++ (if k = ungroupedKey then k else '+' :: k)) :: [] ::
        (gts.map (fun t => formatTaskLine t true) ++ [[]]))

/-- formatTodoMd of taskParser.ts. -/
def formatTodoMd (ts : List Task) : List Char :=
  joinWith '\n' (formatTodoMdLines ts)

/-- buildRolloverSection of taskParser.ts: the priority-sorted
uncompleted tasks, one formatted line each (without the source link),
joined by newlines with one trailing newline; empty for no tasks. -/
def buildRolloverSection (uncompletedTasks : List Task) : List Char :=
  if uncompletedTasks.isEmpty then []
  else
    joinWith '\n'
      ((sortTasksByPriority uncompletedTasks).map (fun t => formatTaskLine t false)) ++ ['\n']

/-- A priority field within the range the task regex can capture: the
single letters A through Z. -/
def prioOk (t : Task) : Bool :=
  match t.priority with
  | some p => 'A' ≤ p && p ≤ 'Z'
  | none => true

/-- The numeric sort key realised by the priority comparator: the
case-folded letter for a lettered priority, and a value above every
letter for the absent priority. -/
def prioRank (t : Task) : Nat :=
  match t.priority with
  | some p => charFold p
  | none => 123

/-- A task as the parser produces it for the line (A) Ship id:ab12. -/
def rolloverTaskEx : Task :=
  { completed := false, priority := some 'A', text := "Ship".data,
    id := some ("ab12".data) }

/-- A task carrying the same project tag twice, as the tag scan
produces for a body mentioning +Alpha two times. -/
def dupTagTask : Task :=
  { completed := false, priority := none, text := "x +Alpha +Alpha +Beta".data,
    projects := ["Alpha".data, "Alpha".data, "Beta".data] }

/-- Tasks with priorities A, B, C and none for the ordering example. -/
def taskA : Task := { completed := false, priority := some 'A', text := ['a'] }

def taskB : Task := { completed := false, priority := some 'B', text := ['b'] }

def taskC : Task := { completed := false, priority := some 'C', text := ['c'] }

def taskN : Task := { completed := false, priority := none, text := ['n'] }

/-! ## The copy-on-create engine -/

/-- The persistent synchronization state of the copy-on-create engine:
the non-period documents whose first save has been processed, and the
task identifiers already known (baseline or mirrored). -/
structure SyncState where
  initializedFiles : List (List Char)
  copiedTaskIds : List (List Char)
deriving DecidableEq, Repr

/-- Modelled from the spec: the copy-on-create engine of specification
section 4.6 (copyNewTasksToTodayNote and the workspaceState helpers
described by the repository documentation) is not among the provided
sources.  On the first save of a non-period document the identifiers
present are captured into the persistent state as the baseline and
nothing is mirrored; on every later save each identifier not
previously known is mirrored into the current period document and
recorded so it is never copied again. -/
def copyOnCreateSave (st : SyncState) (docPath : List Char)
    (currentIds : List (List Char)) : List (List Char) × SyncState :=
  if st.initializedFiles.contains docPath then
    let newIds := currentIds.filter (fun i => !st.copiedTaskIds.contains i)
    (newIds, { st with copiedTaskIds := st.copiedTaskIds ++ newIds })
  else
    ([], { initializedFiles := docPath :: st.initializedFiles,
           copiedTaskIds := st.copiedTaskIds ++ currentIds })

/-! ## Lemmas: characters and the token scan -/

theorem not_word_of_space {c : Char} (h : isSpaceChar c = true) : isWordChar c = false := by
  unfold isSpaceChar at h
  simp only [Bool.or_eq_true, decide_eq_true_eq, or_assoc] at h
  rcases h with h | h | h | h | h | h <;> subst h <;> decide

/-- Whether the final character of a list is a word character. -/
def lastIsWord (v : List Char) : Bool :=
  match v.getLast? with
  | some w => isWordChar w
  | none => false

/-- A well-formed token value: nonempty, whitespace-free, ending in a
word character.  Every value produced by the token scan has this shape,
and every value of this shape is parsed back whole. -/
def ValueGood (v : List Char) : Prop :=
  v ≠ [] ∧ (∀ c ∈ v, isSpaceChar c = false) ∧ lastIsWord v = true

instance : DecidablePred ValueGood := by
  unfold ValueGood
  infer_instance

theorem scanMeta_nil (prevW : Bool) : scanMeta prevW [] = ([], []) := by
  simp [scanMeta]

theorem scanMeta_cons_true (c : Char) (rest : List Char) :
    scanMeta true (c :: rest) =
      ((scanMeta (isWordChar c) rest).1, c :: (scanMeta (isWordChar c) rest).2) := by
  rw [scanMeta]
  simp

theorem scanMeta_cons_some {c : Char} {rest : List Char} {k : MetaKey} {v rest2 : List Char}
    (h : matchToken (c :: rest) = some (k, v, rest2)) :
    scanMeta false (c :: rest) =
      ((k, v) :: (scanMeta true rest2).1, (scanMeta true rest2).2) := by
  rw [scanMeta]
  simp only [Bool.false_eq_true, if_false]
  split
  · rename_i k2 v2 rest2' heq
    rw [h] at heq
    simp at heq
    obtain ⟨rfl, rfl, rfl⟩ := heq
    rfl
  · rename_i heq
    rw [h] at heq
    simp at heq

theorem scanMeta_cons_none {c : Char} {rest : List Char}
    (h : matchToken (c :: rest) = none) :
    scanMeta false (c :: rest) =
      ((scanMeta (isWordChar c) rest).1, c :: (scanMeta (isWordChar c) rest).2) := by
  rw [scanMeta]
  simp only [Bool.false_eq_true, if_false]
  split
  · rename_i k2 v2 rest2' heq
    rw [h] at heq
    simp at heq
  · rfl

theorem ci_word {c lo up : Char} (hlo : isWordChar lo = true) (hup : isWordChar up = true)
    (h : ci c lo up = true) : isWordChar c = true := by
  unfold ci at h
  simp at h
  rcases h with h | h <;> subst h <;> assumption

theorem keyHead_some_head_word {c : Char} {t : List Char} {k : MetaKey} {r : List Char}
    (h : keyHead (c :: t) = some (k, r)) : isWordChar c = true := by
  rcases t with _ | ⟨c2, t2⟩
  · simp [keyHead] at h
  rcases t2 with _ | ⟨c3, t3⟩
  · simp [keyHead] at h
  simp only [keyHead] at h
  split at h
  · split at h
    · rename_i hc
      rw [Bool.and_eq_true] at hc
      exact ci_word (by decide) (by decide) hc.1
    · split at h
      · rename_i hc
        rw [Bool.and_eq_true] at hc
        exact ci_word (by decide) (by decide) hc.1
      · split at h
        · rename_i hc
          rw [Bool.and_eq_true] at hc
          exact ci_word (by decide) (by decide) hc.1
        · simp at h
  · split at h
    · rename_i hc
      simp only [Bool.and_eq_true] at hc
      exact ci_word (by decide) (by decide) hc.2.1.1
    · simp at h

theorem matchToken_some_head_word {c : Char} {t : List Char} {k : MetaKey} {v r : List Char}
    (h : matchToken (c :: t) = some (k, v, r)) : isWordChar c = true := by
  unfold matchToken at h
  match hk : keyHead (c :: t) with
  | none => rw [hk] at h; simp at h
  | some (k2, r2) => exact keyHead_some_head_word hk

theorem matchToken_none_of_head_not_word {c : Char} {t : List Char}
    (h : isWordChar c = false) : matchToken (c :: t) = none := by
  unfold matchToken
  match hk : keyHead (c :: t) with
  | none => simp
  | some (k2, r2) =>
    have := keyHead_some_head_word hk
    rw [this] at h
    exact absurd h (by simp)

/-- Scanning with a word character on the left is the same as scanning
with a non-word character when no match is possible at the head. -/
theorem scanMeta_false_eq_true_of_none {s : List Char}
    (h : s = [] ∨ matchToken s = none) : scanMeta false s = scanMeta true s := by
  rcases h with h | h
  · subst h; simp [scanMeta]
  · rcases s with _ | ⟨c, rest⟩
    · rw [scanMeta_nil, scanMeta_nil]
    · rw [scanMeta_cons_none h, scanMeta_cons_true]

theorem head?_dropWhile_false {α : Type} {p : α → Bool} {l : List α} {x : α}
    (h : (l.dropWhile p).head? = some x) : p x = false := by
  induction l with
  | nil => simp [List.dropWhile] at h
  | cons a as ih =>
    by_cases hp : p a
    · rw [List.dropWhile_cons_of_pos hp] at h
      exact ih h
    · rw [List.dropWhile_cons_of_neg hp] at h
      simp at h
      subst h
      simpa using hp

theorem takeWhile_all_append {α : Type} {p : α → Bool} {l : List α}
    (h : ∀ c ∈ l, p c = true) (w : List α) :
    (l ++ w).takeWhile p = l ++ w.takeWhile p := by
  rw [List.takeWhile_append]
  rw [if_pos]
  rw [List.takeWhile_eq_self_iff.mpr h]

theorem dropWhile_all_append {α : Type} {p : α → Bool} {l : List α}
    (h : ∀ c ∈ l, p c = true) (w : List α) :
    (l ++ w).dropWhile p = w.dropWhile p := by
  rw [List.dropWhile_append]
  rw [if_pos]
  simp [List.dropWhile_eq_nil_iff]
  exact h

theorem takeWhile_append_cons_false {α : Type} {p : α → Bool} {a : α}
    (ha : p a = false) (l w : List α) :
    (l ++ a :: w).takeWhile p = l.takeWhile p := by
  rw [List.takeWhile_append]
  split
  · rename_i hlen
    have : l.takeWhile p = l := (List.takeWhile_prefix p).eq_of_length hlen
    rw [List.takeWhile_cons_of_neg (by simp [ha])]
    simp [this]
  · rfl

theorem dropWhile_append_cons_false {α : Type} {p : α → Bool} {a : α}
    (ha : p a = false) (l w : List α) :
    (l ++ a :: w).dropWhile p = l.dropWhile p ++ a :: w := by
  rw [List.dropWhile_append]
  split
  · rename_i hemp
    rw [List.isEmpty_iff] at hemp
    rw [hemp]
    rw [List.dropWhile_cons_of_neg (by simp [ha])]
    simp
  · rfl

/-- A successful token match yields a well-formed value. -/
theorem matchToken_value_good {s : List Char} {k : MetaKey} {v rest : List Char}
    (h : matchToken s = some (k, v, rest)) : ValueGood v := by
  unfold matchToken at h
  match hk : keyHead s with
  | none => rw [hk] at h; simp at h
  | some (k2, r) =>
    rw [hk] at h
    simp only at h
    match hs : lastWordSplit (r.takeWhile (fun c => !isSpaceChar c)) with
    | none => rw [hs] at h; simp at h
    | some (v2, lf) =>
      rw [hs] at h
      simp at h
      obtain ⟨_, hv, _⟩ := h
      subst hv
      have hne : v2 ≠ [] := lastWordSplit_value_nonempty hs
      unfold lastWordSplit at hs
      split at hs
      · simp at hs
      · simp only [Option.some.injEq, Prod.mk.injEq] at hs
        obtain ⟨hv2, _⟩ := hs
        refine ⟨hne, ?_, ?_⟩
        · intro c hc
          rw [← hv2] at hc
          rw [List.mem_reverse] at hc
          have hc2 := (List.dropWhile_sublist (l := (r.takeWhile (fun c => !isSpaceChar c)).reverse)
            (fun c => !isWordChar c)).mem hc
          rw [List.mem_reverse] at hc2
          have := List.mem_takeWhile_imp hc2
          simpa using this
        · unfold lastIsWord
          rw [← List.head?_reverse]
          rw [← hv2]
          simp only [List.reverse_reverse]
          match hh : ((r.takeWhile (fun c => !isSpaceChar c)).reverse.dropWhile
              (fun c => !isWordChar c)).head? with
          | none =>
            rw [List.head?_eq_none_iff] at hh
            rw [← hv2] at hne
            simp [hh] at hne
          | some w =>
            have := head?_dropWhile_false hh
            simpa using this

/-- After a successful token match the remainder never starts with a
word character (it starts with the non-word leftover of the value run
or with whitespace). -/
theorem matchToken_rest_head {s : List Char} {k : MetaKey} {v rest : List Char}
    (h : matchToken s = some (k, v, rest)) {x : Char}
    (hx : rest.head? = some x) : isWordChar x = false := by
  unfold matchToken at h
  match hk : keyHead s with
  | none => rw [hk] at h; simp at h
  | some (k2, r) =>
    rw [hk] at h
    simp only at h
    match hs : lastWordSplit (r.takeWhile (fun c => !isSpaceChar c)) with
    | none => rw [hs] at h; simp at h
    | some (v2, lf) =>
      rw [hs] at h
      simp at h
      obtain ⟨_, hv, hr⟩ := h
      subst hv
      subst hr
      unfold lastWordSplit at hs
      split at hs
      · simp at hs
      · simp only [Option.some.injEq, Prod.mk.injEq] at hs
        obtain ⟨hv2, hlf⟩ := hs
        -- r = v2 ++ lf ++ dropWhile part, so the drop is lf ++ trailing whitespace part
        set run := r.takeWhile (fun c => !isSpaceChar c) with hrun
        have hsplit : run = v2 ++ lf := by
          rw [← hv2, ← hlf]
          rw [← List.reverse_append]
          rw [List.takeWhile_append_dropWhile]
          simp
        have hrr : r = run ++ r.dropWhile (fun c => !isSpaceChar c) := by
          rw [hrun]
          rw [List.takeWhile_append_dropWhile]
        have hdrop : r.drop v2.length = lf ++ r.dropWhile (fun c => !isSpaceChar c) := by
          conv_lhs => rw [hrr, hsplit]
          rw [List.append_assoc]
          rw [List.drop_left]
        rw [hdrop] at hx
        rcases hlfc : lf with _ | ⟨y, lf2⟩
        · subst hlfc
          simp at hx
          have := head?_dropWhile_false hx
          simp at this
          exact not_word_of_space this
        · rw [hlfc] at hx
          simp at hx
          have hxy : y = x := by simpa using hx
          subst hxy
          have hymem : y ∈ (run.reverse.takeWhile (fun c => !isWordChar c)) := by
            have h1 : y ∈ ((run.reverse.takeWhile (fun c => !isWordChar c)).reverse) := by
              rw [hlf, hlfc]
              simp
            rwa [List.mem_reverse] at h1
          have := List.mem_takeWhile_imp hymem
          simpa using this

/-- Reduction of keyHead at a three-or-longer list. -/
theorem keyHead_cons3 (c1 c2 c3 : Char) (rest : List Char) :
    keyHead (c1 :: c2 :: c3 :: rest) =
      (if c3 = ':' then
        if ci c1 'i' 'I' && ci c2 'd' 'D' then some (MetaKey.id, rest)
        else if ci c1 'c' 'C' && ci c2 'd' 'D' then some (MetaKey.cd, rest)
        else if ci c1 'd' 'D' && ci c2 'd' 'D' then some (MetaKey.dd, rest)
        else none
      else
        if rest.headD ' ' = ':' && (ci c1 'd' 'D' && ci c2 'u' 'U' && ci c3 'e' 'E') then
          some (MetaKey.due, rest.tail)
        else none) := rfl

/-- A successful key match is preserved by appending to the input. -/
theorem keyHead_append {s r : List Char} {k : MetaKey}
    (h : keyHead s = some (k, r)) (w : List Char) :
    keyHead (s ++ w) = some (k, r ++ w) := by
  match s with
  | [] => simp [keyHead] at h
  | [c1] => simp [keyHead] at h
  | [c1, c2] => simp [keyHead] at h
  | c1 :: c2 :: c3 :: rest =>
    rw [keyHead_cons3] at h
    have hgoal : (c1 :: c2 :: c3 :: rest) ++ w = c1 :: c2 :: c3 :: (rest ++ w) := by simp
    rw [hgoal, keyHead_cons3]
    split at h
    · rename_i h3
      rw [if_pos h3]
      split at h
      · rename_i hc
        rw [if_pos hc]
        simp at h
        simp [h]
      · split at h
        · rename_i hc hc2
          rw [if_neg hc, if_pos hc2]
          simp at h
          simp [h]
        · split at h
          · rename_i hc hc2 hc3
            rw [if_neg hc, if_neg hc2, if_pos hc3]
            simp at h
            simp [h]
          · simp at h
    · rename_i h3
      rw [if_neg h3]
      split at h
      · rename_i hc
        rcases rest with _ | ⟨c4, rest2⟩
        · simp [ci] at hc
        · simp only [List.headD_cons, Bool.and_eq_true, decide_eq_true_eq] at hc
          simp only [List.cons_append]
          rw [if_pos (by simp [List.headD_cons, hc.1, hc.2.1, hc.2.2])]
          simp at h
          simp [h]
      · simp at h

/-- A failed key match stays failed when the appended text begins with
a space (no key letter and no colon is a space). -/
theorem keyHead_none_append_space {s : List Char} (h : keyHead s = none) (w : List Char) :
    keyHead (s ++ ' ' :: w) = none := by
  match s with
  | [] =>
    rcases w with _ | ⟨d1, w1⟩
    · rfl
    rcases w1 with _ | ⟨d2, w2⟩
    · rfl
    show keyHead (' ' :: d1 :: d2 :: w2) = none
    rw [keyHead_cons3]
    split
    · simp [ci]
    · simp [ci]
  | [c1] =>
    rcases w with _ | ⟨d1, w1⟩
    · rfl
    show keyHead (c1 :: ' ' :: d1 :: w1) = none
    rw [keyHead_cons3]
    split
    · simp [ci]
    · simp [ci]
  | [c1, c2] =>
    show keyHead (c1 :: c2 :: ' ' :: w) = none
    rw [keyHead_cons3]
    split
    · rename_i h3
      exact absurd h3 (by decide)
    · simp [ci]
  | c1 :: c2 :: c3 :: rest =>
    rw [keyHead_cons3] at h
    have hgoal : (c1 :: c2 :: c3 :: rest) ++ ' ' :: w = c1 :: c2 :: c3 :: (rest ++ ' ' :: w) := by
      simp
    rw [hgoal, keyHead_cons3]
    split at h
    · rename_i h3
      rw [if_pos h3]
      split at h
      · simp at h
      · split at h
        · simp at h
        · split at h
          · simp at h
          · rename_i hc hc2 hc3
            rw [if_neg hc, if_neg hc2, if_neg hc3]
    · rename_i h3
      rw [if_neg h3]
      split at h
      · simp at h
      · rename_i hc
        rw [if_neg]
        intro hcon
        apply hc
        rcases rest with _ | ⟨c4, rest2⟩
        · simp at hcon
        · simpa using hcon

/-- A failed token match stays failed when the appended text begins
with a space: neither the key part nor the greedy value run can reach
past the space. -/
theorem matchToken_none_append_space {u : List Char} (h : matchToken u = none)
    (w : List Char) : matchToken (u ++ ' ' :: w) = none := by
  unfold matchToken at h ⊢
  match hk : keyHead u with
  | none =>
    rw [keyHead_none_append_space hk]
  | some (k2, r) =>
    rw [hk] at h
    simp only at h
    rw [keyHead_append hk]
    simp only
    match hs : lastWordSplit (r.takeWhile (fun c => !isSpaceChar c)) with
    | none =>
      rw [takeWhile_append_cons_false (by decide) r w]
      rw [hs]
    | some p =>
      rw [hs] at h
      simp at h

/-- A well-formed value is matched whole by the greedy run with its
trailing boundary. -/
theorem lastWordSplit_full {v : List Char} (hv : ValueGood v) :
    lastWordSplit v = some (v, []) := by
  obtain ⟨hne, _, hlw⟩ := hv
  rcases hrev : v.reverse with _ | ⟨w, t⟩
  · rw [List.reverse_eq_nil_iff] at hrev
    exact absurd hrev hne
  · have hw : isWordChar w = true := by
      unfold lastIsWord at hlw
      have hl : v.getLast? = some w := by
        rw [← List.head?_reverse, hrev]
        rfl
      rw [hl] at hlw
      exact hlw
    unfold lastWordSplit
    rw [hrev]
    rw [List.dropWhile_cons_of_neg (by simp [hw])]
    rw [List.takeWhile_cons_of_neg (by simp [hw])]
    simp only [List.isEmpty_cons, List.reverse_nil]
    rw [if_neg (by simp)]
    rw [← hrev]
    simp

/-- A rendered token in front of nothing or of a space is matched
exactly: its key, its whole value, and the untouched tail. -/
theorem matchToken_renderTok {k : MetaKey} {v : List Char} (hv : ValueGood v)
    {tail : List Char} (htail : tail = [] ∨ ∃ t2, tail = ' ' :: t2) :
    matchToken (renderTok k v ++ tail) = some (k, v, tail) := by
  have hkh : keyHead (renderTok k v ++ tail) = some (k, v ++ tail) := by
    cases k
    · show keyHead ('i' :: 'd' :: ':' :: (v ++ tail)) = some (MetaKey.id, v ++ tail)
      rw [keyHead_cons3]
      simp [ci]
    · show keyHead ('c' :: 'd' :: ':' :: (v ++ tail)) = some (MetaKey.cd, v ++ tail)
      rw [keyHead_cons3]
      simp [ci]
    · show keyHead ('d' :: 'u' :: 'e' :: (':' :: (v ++ tail))) = some (MetaKey.due, v ++ tail)
      rw [keyHead_cons3]
      rw [if_neg (by decide)]
      rw [if_pos (by simp [ci])]
      simp
    · show keyHead ('d' :: 'd' :: ':' :: (v ++ tail)) = some (MetaKey.dd, v ++ tail)
      rw [keyHead_cons3]
      rw [if_pos rfl]
      rw [if_neg (by simp [ci]), if_neg (by simp [ci]), if_pos (by simp [ci])]
  unfold matchToken
  rw [hkh]
  simp only
  have hrun : (v ++ tail).takeWhile (fun c => !isSpaceChar c) = v := by
    rw [takeWhile_all_append (by intro c hc; simp [hv.2.1 c hc]) tail]
    rcases htail with rfl | ⟨t2, rfl⟩
    · simp
    · rw [List.takeWhile_cons_of_neg (by decide)]
      simp
  rw [hrun]
  rw [lastWordSplit_full hv]
  simp [List.drop_left]

/-- Scanning a block of non-word characters emits it unchanged; the
scan continues after it with a non-word character on the left. -/
theorem scanMeta_nonword_pre {pre : List Char} (hp : ∀ x ∈ pre, isWordChar x = false)
    (hne : pre ≠ []) (b : Bool) (tail : List Char) :
    scanMeta b (pre ++ tail) = ((scanMeta false tail).1, pre ++ (scanMeta false tail).2) := by
  induction pre generalizing b with
  | nil => exact absurd rfl hne
  | cons x pre2 ih =>
    have hx : isWordChar x = false := hp x (by simp)
    have hstep : scanMeta b (x :: (pre2 ++ tail)) =
        ((scanMeta (isWordChar x) (pre2 ++ tail)).1,
          x :: (scanMeta (isWordChar x) (pre2 ++ tail)).2) := by
      cases b
      · rw [scanMeta_cons_none (matchToken_none_of_head_not_word hx)]
      · rw [scanMeta_cons_true]
    rcases pre2 with _ | ⟨y, pre3⟩
    · simp only [List.nil_append] at hstep
      simp only [List.cons_append, List.nil_append]
      rw [hstep, hx]
    · have ih2 := ih (fun z hz => hp z (by simp [hz])) (by simp) (isWordChar x)
      simp only [List.cons_append] at hstep ih2 ⊢
      rw [hstep, ih2]

/-- Scanning that keeps a text unchanged extends over a space boundary:
the appended part is scanned independently with a fresh non-word left
context. -/
theorem scanMeta_append_space_of_clean {u : List Char} {prev : Bool}
    (h : scanMeta prev u = ([], u)) (w : List Char) :
    scanMeta prev (u ++ ' ' :: w) =
      ((scanMeta false w).1, u ++ ' ' :: (scanMeta false w).2) := by
  induction u generalizing prev with
  | nil =>
    have hstep : scanMeta prev (' ' :: w) =
        ((scanMeta (isWordChar ' ') w).1, ' ' :: (scanMeta (isWordChar ' ') w).2) := by
      cases prev
      · rw [scanMeta_cons_none (matchToken_none_of_head_not_word (by decide))]
      · rw [scanMeta_cons_true]
    simpa using hstep
  | cons c u2 ih =>
    cases prev with
    | true =>
      rw [scanMeta_cons_true] at h
      have h1 : (scanMeta (isWordChar c) u2).1 = [] := by
        have := congrArg Prod.fst h
        simpa using this
      have h2 : (scanMeta (isWordChar c) u2).2 = u2 := by
        have := congrArg Prod.snd h
        simpa using this
      have ih2 := @ih (isWordChar c) (by
        rw [Prod.ext_iff]
        exact ⟨h1, h2⟩)
      simp only [List.cons_append]
      rw [scanMeta_cons_true, ih2]
    | false =>
      cases hmt : matchToken (c :: u2) with
      | some val =>
        rcases val with ⟨k, v, rest2⟩
        rw [scanMeta_cons_some hmt] at h
        simp at h
      | none =>
        rw [scanMeta_cons_none hmt] at h
        have h1 : (scanMeta (isWordChar c) u2).1 = [] := by
          have := congrArg Prod.fst h
          simpa using this
        have h2 : (scanMeta (isWordChar c) u2).2 = u2 := by
          have := congrArg Prod.snd h
          simpa using this
        have ih2 := @ih (isWordChar c) (by
          rw [Prod.ext_iff]
          exact ⟨h1, h2⟩)
        have hmt2 : matchToken (c :: (u2 ++ ' ' :: w)) = none := by
          have := matchToken_none_append_space hmt w
          simpa using this
        simp only [List.cons_append]
        rw [scanMeta_cons_none hmt2, ih2]

theorem renderTok_ne_nil (k : MetaKey) (v : List Char) : renderTok k v ≠ [] := by
  cases k <;> simp [renderTok, keyChars]

/-- Scanning a joined list of rendered tokens consumes exactly those
tokens and keeps only the separating spaces. -/
theorem scanMeta_parts {parts : List (MetaKey × List Char)}
    (hv : ∀ p ∈ parts, ValueGood p.2) :
    scanMeta false (joinWith ' ' (parts.map (fun t => renderTok t.1 t.2))) =
      (parts, List.replicate (parts.length - 1) ' ') := by
  induction parts with
  | nil => simp [joinWith, scanMeta_nil]
  | cons p ps ih =>
    rcases ps with _ | ⟨q, ps2⟩
    · rw [List.map_cons, List.map_nil]
      have hJ : joinWith ' ' [renderTok p.1 p.2] = renderTok p.1 p.2 := rfl
      rw [hJ]
      have hmt : matchToken (renderTok p.1 p.2) = some (p.1, p.2, []) := by
        have h0 := matchToken_renderTok (k := p.1) (hv p (by simp)) (Or.inl rfl)
        simpa using h0
      obtain ⟨c, rest, hrt⟩ : ∃ c rest, renderTok p.1 p.2 = c :: rest := by
        rcases hrn : renderTok p.1 p.2 with _ | ⟨c2, rest2⟩
        · exact absurd hrn (renderTok_ne_nil p.1 p.2)
        · exact ⟨c2, rest2, rfl⟩
      rw [hrt] at hmt ⊢
      rw [scanMeta_cons_some hmt]
      simp [scanMeta_nil]
    · rw [List.map_cons]
      have hJ : joinWith ' ' (renderTok p.1 p.2 :: (q :: ps2).map (fun t => renderTok t.1 t.2)) =
          renderTok p.1 p.2 ++ ' ' :: joinWith ' ' ((q :: ps2).map (fun t => renderTok t.1 t.2)) := by
        rw [List.map_cons]
        rfl
      rw [hJ]
      have hmt := matchToken_renderTok (k := p.1) (hv p (by simp))
        (Or.inr ⟨joinWith ' ' ((q :: ps2).map (fun t => renderTok t.1 t.2)), rfl⟩)
      obtain ⟨c, rest, hrt⟩ : ∃ c rest, renderTok p.1 p.2 = c :: rest := by
        rcases hrn : renderTok p.1 p.2 with _ | ⟨c2, rest2⟩
        · exact absurd hrn (renderTok_ne_nil p.1 p.2)
        · exact ⟨c2, rest2, rfl⟩
      rw [hrt] at hmt ⊢
      simp only [List.cons_append] at hmt ⊢
      rw [scanMeta_cons_some hmt]
      rw [scanMeta_cons_true]
      have ih2 := ih (fun r hr => hv r (by simp [hr]))
      rw [show isWordChar ' ' = false from rfl]
      rw [ih2]
      simp [List.replicate_succ]

theorem ci_false_of_not_word {x lo up : Char} (hx : isWordChar x = false)
    (hlo : isWordChar lo = true) (hup : isWordChar up = true) : ci x lo up = false := by
  cases hci : ci x lo up
  · rfl
  · exact absurd (ci_word hlo hup hci) (by simp [hx])

/-- No key can start where the second character is not a word
character. -/
theorem keyHead_none_second_nonword {c c2 : Char} (h2 : isWordChar c2 = false)
    (t : List Char) : keyHead (c :: c2 :: t) = none := by
  rcases t with _ | ⟨e, k4⟩
  · rfl
  · rw [keyHead_cons3]
    have hd : ci c2 'd' 'D' = false := ci_false_of_not_word h2 (by decide) (by decide)
    have hu : ci c2 'u' 'U' = false := ci_false_of_not_word h2 (by decide) (by decide)
    split
    · rw [if_neg (by simp [hd]), if_neg (by simp [hd]), if_neg (by simp [hd])]
    · rw [if_neg (by simp [hu])]

theorem dropWhile_shape {α : Type} (p : α → Bool) (l : List α) :
    l.dropWhile p = [] ∨ ∃ a t, l.dropWhile p = a :: t ∧ p a = false := by
  rcases hh : l.dropWhile p with _ | ⟨a, t⟩
  · exact Or.inl rfl
  · right
    refine ⟨a, t, rfl, ?_⟩
    apply head?_dropWhile_false (l := l)
    rw [hh]
    rfl

theorem scanMeta_kept_head_space {t : List Char}
    (ht : t = [] ∨ ∃ sp r3, t = sp :: r3 ∧ isSpaceChar sp = true) :
    (scanMeta false t).2 = [] ∨
      ∃ sp t2, (scanMeta false t).2 = sp :: t2 ∧ isSpaceChar sp = true := by
  rcases ht with rfl | ⟨sp, r3, rfl, hsp⟩
  · left
    rw [scanMeta_nil]
  · right
    rw [scanMeta_cons_none (matchToken_none_of_head_not_word (not_word_of_space hsp))]
    exact ⟨sp, _, rfl, hsp⟩

/-- When the non-whitespace run after a key is word-free, scanning the
remainder keeps a text whose non-whitespace run is that same run. -/
theorem scanMeta_kept_run_of_wordless {r : List Char}
    (hw : ∀ x ∈ r.takeWhile (fun c => !isSpaceChar c), isWordChar x = false) :
    ((scanMeta false r).2).takeWhile (fun c => !isSpaceChar c) =
      r.takeWhile (fun c => !isSpaceChar c) := by
  have hspace : ∀ y ∈ r.takeWhile (fun c => !isSpaceChar c), (fun c => !isSpaceChar c) y = true := by
    intro y hy
    have h1 := List.mem_takeWhile_imp (p := fun c => !isSpaceChar c) hy
    simpa using h1
  have hd2 : r.dropWhile (fun c => !isSpaceChar c) = [] ∨
      ∃ sp r3, r.dropWhile (fun c => !isSpaceChar c) = sp :: r3 ∧ isSpaceChar sp = true := by
    rcases dropWhile_shape (fun c => !isSpaceChar c) r with h | ⟨a, t, hcons, hpa⟩
    · exact Or.inl h
    · exact Or.inr ⟨a, t, hcons, by simpa using hpa⟩
  have hkept := scanMeta_kept_head_space hd2
  rcases hrunE : r.takeWhile (fun c => !isSpaceChar c) with _ | ⟨x, runt⟩
  · have hre : r = r.dropWhile (fun c => !isSpaceChar c) := by
      have h0 := List.takeWhile_append_dropWhile (p := fun c => !isSpaceChar c) (l := r)
      rw [hrunE] at h0
      simpa using h0.symm
    rw [hre]
    rcases hkept with h0 | ⟨sp, t2, hcons, hsp⟩
    · rw [h0]
      rfl
    · rw [hcons]
      rw [List.takeWhile_cons_of_neg (by simp [hsp])]
  · rw [hrunE] at hw hspace
    have hsplit : r = (x :: runt) ++ r.dropWhile (fun c => !isSpaceChar c) := by
      have h0 := List.takeWhile_append_dropWhile (p := fun c => !isSpaceChar c) (l := r)
      rw [hrunE] at h0
      exact h0.symm
    conv_lhs => rw [hsplit]
    rw [scanMeta_nonword_pre hw (by simp) false (r.dropWhile (fun c => !isSpaceChar c))]
    simp only
    rw [takeWhile_all_append hspace]
    rcases hkept with h0 | ⟨sp, t2, hcons, hsp⟩
    · rw [h0]
      simp
    · rw [hcons]
      rw [List.takeWhile_cons_of_neg (by simp [hsp])]
      simp

/-- The two shapes of a successful key match. -/
theorem keyHead_shape {c : Char} {rest r : List Char} {k : MetaKey}
    (h : keyHead (c :: rest) = some (k, r)) :
    (∃ c2, rest = c2 :: ':' :: r ∧ isWordChar c2 = true ∧
      ∀ w, keyHead (c :: c2 :: ':' :: w) = some (k, w)) ∨
    (∃ c2 c3, rest = c2 :: c3 :: ':' :: r ∧ isWordChar c2 = true ∧ isWordChar c3 = true ∧
      ∀ w, keyHead (c :: c2 :: c3 :: ':' :: w) = some (k, w)) := by
  rcases rest with _ | ⟨c2, t2⟩
  · simp [keyHead] at h
  rcases t2 with _ | ⟨c3, t3⟩
  · simp [keyHead] at h
  rw [keyHead_cons3] at h
  split at h
  · rename_i h3
    subst h3
    left
    split at h
    · rename_i hc
      simp only [Option.some.injEq, Prod.mk.injEq] at h
      refine ⟨c2, by rw [h.2], @ci_word _ 'd' 'D' (by decide) (by decide) (by
        rw [Bool.and_eq_true] at hc
        exact hc.2), ?_⟩
      intro w
      rw [keyHead_cons3, if_pos rfl, if_pos hc]
      rw [← h.1]
    · split at h
      · rename_i hc hc2
        simp only [Option.some.injEq, Prod.mk.injEq] at h
        refine ⟨c2, by rw [h.2], @ci_word _ 'd' 'D' (by decide) (by decide) (by
          rw [Bool.and_eq_true] at hc2
          exact hc2.2), ?_⟩
        intro w
        rw [keyHead_cons3, if_pos rfl, if_neg hc, if_pos hc2]
        rw [← h.1]
      · split at h
        · rename_i hc hc2 hc3
          simp only [Option.some.injEq, Prod.mk.injEq] at h
          refine ⟨c2, by rw [h.2], @ci_word _ 'd' 'D' (by decide) (by decide) (by
            rw [Bool.and_eq_true] at hc3
            exact hc3.2), ?_⟩
          intro w
          rw [keyHead_cons3, if_pos rfl, if_neg hc, if_neg hc2, if_pos hc3]
          rw [← h.1]
        · simp at h
  · rename_i h3
    split at h
    · rename_i hc
      right
      simp only [Option.some.injEq, Prod.mk.injEq] at h
      simp only [Bool.and_eq_true, decide_eq_true_eq] at hc
      rcases t3 with _ | ⟨c4, t4⟩
      · simp at hc
      · simp only [List.headD_cons] at hc
        obtain ⟨hc4, hcc⟩ := hc
        subst hc4
        refine ⟨c2, c3, ?_, ?_, ?_, ?_⟩
        · simp only [List.tail_cons] at h
          rw [h.2]
        · exact @ci_word _ 'u' 'U' (by decide) (by decide) hcc.1.2
        · exact @ci_word _ 'e' 'E' (by decide) (by decide) hcc.2
        · intro w
          rw [keyHead_cons3, if_neg h3]
          rw [if_pos (by simp [hcc.1.1, hcc.1.2, hcc.2])]
          simp only [List.tail_cons]
          rw [← h.1]
    · simp at h

/-- A word-free run has no word-boundary position for the value, so
the whole match fails. -/
theorem lastWordSplit_none_of_wordless {run : List Char}
    (hw : ∀ x ∈ run, isWordChar x = false) : lastWordSplit run = none := by
  unfold lastWordSplit
  rw [if_pos]
  rw [List.isEmpty_iff, List.dropWhile_eq_nil_iff]
  intro x hx
  simp [hw x (by simpa using hx)]

/-- Head stability: a position where no token matched still matches no
token after the later text has had its tokens removed by the scan. -/
theorem matchToken_none_kept {c : Char} {rest : List Char}
    (hmt : matchToken (c :: rest) = none) :
    matchToken (c :: (scanMeta (isWordChar c) rest).2) = none := by
  by_cases hcw : isWordChar c = true
  case neg => exact matchToken_none_of_head_not_word (by simpa using hcw)
  rw [hcw]
  cases hk : keyHead (c :: rest) with
  | some kr =>
    rcases kr with ⟨k, r⟩
    have hws : lastWordSplit (r.takeWhile (fun c => !isSpaceChar c)) = none := by
      unfold matchToken at hmt
      rw [hk] at hmt
      simp only at hmt
      match hs : lastWordSplit (r.takeWhile (fun c => !isSpaceChar c)) with
      | none => rfl
      | some p =>
        rw [hs] at hmt
        simp at hmt
    have hwordless : ∀ x ∈ r.takeWhile (fun c => !isSpaceChar c), isWordChar x = false := by
      unfold lastWordSplit at hws
      split at hws
      · rename_i hcond
        intro x hx
        rw [List.isEmpty_iff, List.dropWhile_eq_nil_iff] at hcond
        have := hcond x (by simpa using hx)
        simpa using this
      · simp at hws
    rcases keyHead_shape hk with ⟨c2, hrest, hc2w, hkw⟩ | ⟨c2, c3, hrest, hc2w, hc3w, hkw⟩
    · subst hrest
      rw [scanMeta_cons_true, hc2w, scanMeta_cons_true]
      rw [show isWordChar ':' = false from rfl]
      unfold matchToken
      rw [hkw]
      simp only
      rw [scanMeta_kept_run_of_wordless hwordless]
      rw [hws]
    · subst hrest
      rw [scanMeta_cons_true, hc2w, scanMeta_cons_true, hc3w, scanMeta_cons_true]
      rw [show isWordChar ':' = false from rfl]
      unfold matchToken
      rw [hkw]
      simp only
      rw [scanMeta_kept_run_of_wordless hwordless]
      rw [hws]
  | none =>
    suffices hkh : keyHead (c :: (scanMeta true rest).2) = none by
      unfold matchToken
      rw [hkh]
    rcases rest with _ | ⟨c2, rest3⟩
    · rw [scanMeta_nil]
      rfl
    · rw [scanMeta_cons_true]
      simp only
      by_cases h2w : isWordChar c2 = true
      case neg =>
        exact keyHead_none_second_nonword (by simpa using h2w) _
      rw [h2w]
      rcases rest3 with _ | ⟨e3, rest4⟩
      · rw [scanMeta_nil]
        rfl
      rw [scanMeta_cons_true]
      simp only
      by_cases h3 : e3 = ':'
      · subst h3
        have hA : (ci c 'i' 'I' && ci c2 'd' 'D') = false := by
          by_contra hcon
          rw [Bool.not_eq_false] at hcon
          rw [keyHead_cons3, if_pos rfl, if_pos hcon] at hk
          simp at hk
        have hB : (ci c 'c' 'C' && ci c2 'd' 'D') = false := by
          by_contra hcon
          rw [Bool.not_eq_false] at hcon
          rw [keyHead_cons3, if_pos rfl] at hk
          rw [if_neg (by simp [hA]), if_pos hcon] at hk
          simp at hk
        have hC : (ci c 'd' 'D' && ci c2 'd' 'D') = false := by
          by_contra hcon
          rw [Bool.not_eq_false] at hcon
          rw [keyHead_cons3, if_pos rfl] at hk
          rw [if_neg (by simp [hA]), if_neg (by simp [hB]), if_pos hcon] at hk
          simp at hk
        rw [show isWordChar ':' = false from rfl]
        rw [keyHead_cons3, if_pos rfl]
        rw [if_neg (by simp [hA]), if_neg (by simp [hB]), if_neg (by simp [hC])]
      · by_cases h3w : isWordChar e3 = true
        · rw [h3w]
          rcases rest4 with _ | ⟨f, rest5⟩
          · rw [scanMeta_nil]
            rw [keyHead_cons3, if_neg h3]
            rw [if_neg (by simp)]
          rw [scanMeta_cons_true]
          simp only
          by_cases hf : f = ':'
          · subst hf
            have hD : (ci c 'd' 'D' && ci c2 'u' 'U' && ci e3 'e' 'E') = false := by
              by_contra hcon
              rw [Bool.not_eq_false] at hcon
              rw [keyHead_cons3, if_neg h3] at hk
              rw [if_pos (by simp only [List.headD_cons]; simp [hcon])] at hk
              simp at hk
            rw [show isWordChar ':' = false from rfl]
            rw [keyHead_cons3, if_neg h3]
            rw [if_neg (by simp only [List.headD_cons]; simp [hD])]
          · rw [keyHead_cons3, if_neg h3]
            rw [if_neg (by simp only [List.headD_cons]; simp [hf])]
        · rw [keyHead_cons3, if_neg h3]
          have he : ci e3 'e' 'E' = false := ci_false_of_not_word (by simpa using h3w)
            (by decide) (by decide)
          rw [if_neg (by simp [he])]

/-- The kept text of a scan contains no token: scanning it again
removes nothing. -/
theorem scanMeta_kept_clean (prev : Bool) (s : List Char) :
    scanMeta prev ((scanMeta prev s).2) = ([], (scanMeta prev s).2) := by
  induction prev, s using scanMeta.induct with
  | case1 prev =>
    rw [scanMeta_nil]
    rw [scanMeta_nil]
  | case2 c rest ih =>
    rw [scanMeta_cons_true]
    simp only
    rw [scanMeta_cons_true]
    rw [ih]
  | case3 prevW c rest hprev k v rest2 hmt ih =>
    have hfalse : prevW = false := by simpa using hprev
    subst hfalse
    rw [scanMeta_cons_some hmt]
    simp only
    have hbridge : scanMeta false ((scanMeta true rest2).2) =
        scanMeta true ((scanMeta true rest2).2) := by
      apply scanMeta_false_eq_true_of_none
      rcases rest2 with _ | ⟨y, rest3⟩
      · left
        rw [scanMeta_nil]
      · right
        rw [scanMeta_cons_true]
        simp only
        apply matchToken_none_of_head_not_word
        exact matchToken_rest_head hmt (x := y) rfl
    rw [hbridge]
    exact ih
  | case4 prevW c rest hprev hmt ih =>
    have hfalse : prevW = false := by simpa using hprev
    subst hfalse
    rw [scanMeta_cons_none hmt]
    simp only
    have hmt2 := matchToken_none_kept hmt
    rw [scanMeta_cons_none hmt2]
    rw [ih]

/-- A whitespace character is never a colon. -/
theorem space_ne_colon {sp : Char} (hsp : isSpaceChar sp = true) : sp ≠ ':' := by
  intro h
  subst h
  exact absurd hsp (by decide)

/-- A failed key match stays failed when the appended text begins with
any whitespace character. -/
theorem keyHead_none_append_sp {s : List Char} (h : keyHead s = none)
    {sp : Char} (hsp : isSpaceChar sp = true) (w : List Char) :
    keyHead (s ++ sp :: w) = none := by
  have hnw : isWordChar sp = false := not_word_of_space hsp
  have hci : ci sp 'i' 'I' = false := ci_false_of_not_word hnw (by decide) (by decide)
  have hcc : ci sp 'c' 'C' = false := ci_false_of_not_word hnw (by decide) (by decide)
  have hcd : ci sp 'd' 'D' = false := ci_false_of_not_word hnw (by decide) (by decide)
  have hcu : ci sp 'u' 'U' = false := ci_false_of_not_word hnw (by decide) (by decide)
  have hce : ci sp 'e' 'E' = false := ci_false_of_not_word hnw (by decide) (by decide)
  match s with
  | [] =>
    rcases w with _ | ⟨d1, w1⟩
    · rfl
    rcases w1 with _ | ⟨d2, w2⟩
    · rfl
    show keyHead (sp :: d1 :: d2 :: w2) = none
    rw [keyHead_cons3]
    split
    · simp [hci, hcc, hcd]
    · simp [hcd]
  | [c1] =>
    rcases w with _ | ⟨d1, w1⟩
    · rfl
    show keyHead (c1 :: sp :: d1 :: w1) = none
    rw [keyHead_cons3]
    split
    · simp [hcd]
    · simp [hcu]
  | [c1, c2] =>
    show keyHead (c1 :: c2 :: sp :: w) = none
    rw [keyHead_cons3]
    split
    · rename_i h3
      exact absurd h3 (space_ne_colon hsp)
    · simp [hce]
  | c1 :: c2 :: c3 :: rest =>
    rw [keyHead_cons3] at h
    have hgoal : (c1 :: c2 :: c3 :: rest) ++ sp :: w = c1 :: c2 :: c3 :: (rest ++ sp :: w) := by
      simp
    rw [hgoal, keyHead_cons3]
    split at h
    · rename_i h3
      rw [if_pos h3]
      split at h
      · simp at h
      · split at h
        · simp at h
        · split at h
          · simp at h
          · rename_i hca hcb hcf
            rw [if_neg hca, if_neg hcb, if_neg hcf]
    · rename_i h3
      rw [if_neg h3]
      split at h
      · simp at h
      · rename_i hcond
        rw [if_neg]
        intro hcon
        apply hcond
        rcases rest with _ | ⟨c4, rest2⟩
        · exfalso
          simp only [List.nil_append, List.headD_cons, Bool.and_eq_true,
            decide_eq_true_eq] at hcon
          exact space_ne_colon hsp hcon.1
        · simpa using hcon

/-- A failed token match stays failed when the appended text begins with
any whitespace character. -/
theorem matchToken_none_append_sp {u : List Char} (h : matchToken u = none)
    {sp : Char} (hsp : isSpaceChar sp = true) (w : List Char) :
    matchToken (u ++ sp :: w) = none := by
  unfold matchToken at h ⊢
  match hk : keyHead u with
  | none =>
    rw [keyHead_none_append_sp hk hsp]
  | some (k2, r) =>
    rw [hk] at h
    simp only at h
    rw [keyHead_append hk]
    simp only
    match hs : lastWordSplit (r.takeWhile (fun c => !isSpaceChar c)) with
    | none =>
      rw [takeWhile_append_cons_false (by simp [hsp]) r w]
      rw [hs]
    | some p =>
      rw [hs] at h
      simp at h

/-- A successful token match is preserved by appending whitespace-headed
text: the greedy value run cannot reach past the whitespace. -/
theorem matchToken_some_append_sp {u : List Char} {k : MetaKey} {v rest : List Char}
    (h : matchToken u = some (k, v, rest)) {sp : Char} (hsp : isSpaceChar sp = true)
    (w : List Char) : matchToken (u ++ sp :: w) = some (k, v, rest ++ sp :: w) := by
  unfold matchToken at h ⊢
  match hk : keyHead u with
  | none => rw [hk] at h; simp at h
  | some (k2, r) =>
    rw [hk] at h
    simp only at h
    rw [keyHead_append hk]
    simp only
    rw [takeWhile_append_cons_false (p := fun c => !isSpaceChar c) (by simp [hsp]) r w]
    match hs : lastWordSplit (r.takeWhile (fun c => !isSpaceChar c)) with
    | none => rw [hs] at h; simp at h
    | some (v2, lf) =>
      rw [hs] at h
      simp only [Option.some.injEq, Prod.mk.injEq] at h
      obtain ⟨rfl, rfl, hrest⟩ := h
      have hlen : v2.length ≤ r.length := by
        have h1 : v2.length ≤ (r.takeWhile (fun c => !isSpaceChar c)).length := by
          unfold lastWordSplit at hs
          split at hs
          · simp at hs
          · simp only [Option.some.injEq, Prod.mk.injEq] at hs
            have hle := (List.dropWhile_sublist
              (l := (r.takeWhile (fun c => !isSpaceChar c)).reverse)
              (fun c => !isWordChar c)).length_le
            rw [← hs.1]
            simpa using hle
        exact le_trans h1 (List.takeWhile_sublist _).length_le
      have hdrop : (r ++ sp :: w).drop v2.length = r.drop v2.length ++ sp :: w :=
        List.drop_append_of_le_length hlen
      simp [hdrop, hrest]

/-- A scan splits at any whitespace character: the two sides are scanned
independently, the right side with a fresh non-word left context. -/
theorem scanMeta_split_sp {sp : Char} (hsp : isSpaceChar sp = true)
    (b : Bool) (u v : List Char) :
    scanMeta b (u ++ sp :: v) =
      ((scanMeta b u).1 ++ (scanMeta false v).1,
       (scanMeta b u).2 ++ sp :: (scanMeta false v).2) := by
  induction b, u using scanMeta.induct with
  | case1 prev =>
    rw [scanMeta_nil]
    simp only [List.nil_append]
    have hstep : scanMeta prev (sp :: v) =
        ((scanMeta (isWordChar sp) v).1, sp :: (scanMeta (isWordChar sp) v).2) := by
      cases prev
      · rw [scanMeta_cons_none (matchToken_none_of_head_not_word (not_word_of_space hsp))]
      · rw [scanMeta_cons_true]
    rw [hstep, not_word_of_space hsp]
  | case2 c rest ih =>
    simp only [List.cons_append]
    rw [scanMeta_cons_true, ih, scanMeta_cons_true]
    simp
  | case3 prevW c rest hprev k v0 rest2 hmt ih =>
    have hfalse : prevW = false := by simpa using hprev
    subst hfalse
    have hmt2 : matchToken (c :: (rest ++ sp :: v)) = some (k, v0, rest2 ++ sp :: v) := by
      have hstep := matchToken_some_append_sp hmt hsp v
      simpa using hstep
    simp only [List.cons_append]
    rw [scanMeta_cons_some hmt2, ih, scanMeta_cons_some hmt]
    simp
  | case4 prevW c rest hprev hmt ih =>
    have hfalse : prevW = false := by simpa using hprev
    subst hfalse
    have hmt2 : matchToken (c :: (rest ++ sp :: v)) = none := by
      have hstep := matchToken_none_append_sp hmt hsp v
      simpa using hstep
    simp only [List.cons_append]
    rw [scanMeta_cons_none hmt2, ih, scanMeta_cons_none hmt]
    simp

/-- A scan that collects no token keeps the text unchanged. -/
theorem scanMeta_fst_nil_snd {b : Bool} {s : List Char}
    (h : (scanMeta b s).1 = []) : (scanMeta b s).2 = s := by
  induction b, s using scanMeta.induct with
  | case1 prev => rw [scanMeta_nil]
  | case2 c rest ih =>
    rw [scanMeta_cons_true] at h ⊢
    simp only at h ⊢
    rw [ih h]
  | case3 prevW c rest hprev k v0 rest2 hmt ih =>
    have hfalse : prevW = false := by simpa using hprev
    subst hfalse
    rw [scanMeta_cons_some hmt] at h
    simp at h
  | case4 prevW c rest hprev hmt ih =>
    have hfalse : prevW = false := by simpa using hprev
    subst hfalse
    rw [scanMeta_cons_none hmt] at h ⊢
    simp only at h ⊢
    rw [ih h]

theorem wordsOf_nil : wordsOf [] = [] := by rw [wordsOf]

theorem wordsOf_cons_space {c : Char} (hc : isSpaceChar c = true) (rest : List Char) :
    wordsOf (c :: rest) = wordsOf rest := by
  rw [wordsOf, if_pos hc]

theorem wordsOf_cons_word {c : Char} (hc : isSpaceChar c = false) (rest : List Char) :
    wordsOf (c :: rest) =
      (c :: rest.takeWhile (fun d => !isSpaceChar d)) ::
        wordsOf (rest.dropWhile (fun d => !isSpaceChar d)) := by
  rw [wordsOf, if_neg (by simp [hc])]

/-- Every word of a text is nonempty and whitespace-free. -/
theorem wordsOf_wf {s w : List Char} (hw : w ∈ wordsOf s) :
    w ≠ [] ∧ ∀ c ∈ w, isSpaceChar c = false := by
  induction s using wordsOf.induct with
  | case1 => rw [wordsOf_nil] at hw; simp at hw
  | case2 c rest hc ih =>
    rw [wordsOf_cons_space hc] at hw
    exact ih hw
  | case3 c rest hc ih =>
    have hc2 : isSpaceChar c = false := by simpa using hc
    rw [wordsOf_cons_word hc2] at hw
    rcases List.mem_cons.mp hw with rfl | hmem
    · refine ⟨by simp, ?_⟩
      intro d hd
      rcases List.mem_cons.mp hd with rfl | hd2
      · exact hc2
      · have := List.mem_takeWhile_imp hd2
        simpa using this
    · exact ih hmem

/-- Dropping leading whitespace does not change the word decomposition. -/
theorem wordsOf_dropWhile_space (s : List Char) :
    wordsOf (s.dropWhile isSpaceChar) = wordsOf s := by
  induction s with
  | nil => simp
  | cons c rest ih =>
    cases hc : isSpaceChar c with
    | true =>
      rw [List.dropWhile_cons_of_pos (by simp [hc]), ih, wordsOf_cons_space hc]
    | false =>
      rw [List.dropWhile_cons_of_neg (by simp [hc])]

/-- The word decomposition splits at a whitespace character. -/
theorem wordsOf_append_sp {sp : Char} (hsp : isSpaceChar sp = true) (u v : List Char) :
    wordsOf (u ++ sp :: v) = wordsOf u ++ wordsOf v := by
  induction u using wordsOf.induct with
  | case1 =>
    simp only [List.nil_append]
    rw [wordsOf_cons_space hsp, wordsOf_nil, List.nil_append]
  | case2 c rest hc ih =>
    simp only [List.cons_append]
    rw [wordsOf_cons_space hc, ih, wordsOf_cons_space hc]
  | case3 c rest hc ih =>
    have hc2 : isSpaceChar c = false := by simpa using hc
    simp only [List.cons_append]
    rw [wordsOf_cons_word hc2]
    rw [takeWhile_append_cons_false (by simp [hsp]) rest v]
    rw [dropWhile_append_cons_false (by simp [hsp]) rest v]
    rw [ih, wordsOf_cons_word hc2]
    simp

/-- A whitespace-only text has no words. -/
theorem wordsOf_all_space {s : List Char} (h : ∀ c ∈ s, isSpaceChar c = true) :
    wordsOf s = [] := by
  induction s with
  | nil => exact wordsOf_nil
  | cons c rest ih =>
    rw [wordsOf_cons_space (h c (by simp))]
    exact ih (fun d hd => h d (by simp [hd]))

/-- A nonempty whitespace-free text is its own single word. -/
theorem wordsOf_single {w : List Char} (hne : w ≠ [])
    (hns : ∀ c ∈ w, isSpaceChar c = false) : wordsOf w = [w] := by
  rcases w with _ | ⟨c, t⟩
  · exact absurd rfl hne
  · rw [wordsOf_cons_word (hns c (by simp))]
    have hall : ∀ x ∈ t, (fun d => !isSpaceChar d) x = true := by
      intro x hx
      simp [hns x (by simp [hx])]
    have ht : t.takeWhile (fun d => !isSpaceChar d) = t := by
      have := takeWhile_all_append hall []
      simpa using this
    have hd : t.dropWhile (fun d => !isSpaceChar d) = [] := by
      have := dropWhile_all_append hall []
      simpa using this
    rw [ht, hd, wordsOf_nil]

/-- The word decomposition of a space-joined list of well-formed words
recovers the list. -/
theorem wordsOf_joinWith {ws : List (List Char)}
    (h : ∀ w ∈ ws, w ≠ [] ∧ ∀ c ∈ w, isSpaceChar c = false) :
    wordsOf (joinWith ' ' ws) = ws := by
  induction ws with
  | nil => exact wordsOf_nil
  | cons w ws2 ih =>
    rcases ws2 with _ | ⟨w2, ws3⟩
    · show wordsOf w = [w]
      exact wordsOf_single (h w (by simp)).1 (h w (by simp)).2
    · have hj : joinWith ' ' (w :: w2 :: ws3) = w ++ ' ' :: joinWith ' ' (w2 :: ws3) := rfl
      rw [hj, wordsOf_append_sp (by decide) w (joinWith ' ' (w2 :: ws3))]
      rw [wordsOf_single (h w (by simp)).1 (h w (by simp)).2]
      rw [ih (fun x hx => h x (by simp [hx]))]
      rfl

theorem collapseWs_nil : collapseWs [] = [] := by rw [collapseWs]

theorem collapseWs_cons_space {c : Char} (hc : isSpaceChar c = true) (rest : List Char) :
    collapseWs (c :: rest) = ' ' :: collapseWs (rest.dropWhile isSpaceChar) := by
  rw [collapseWs, if_pos hc]

theorem collapseWs_cons_word {c : Char} (hc : isSpaceChar c = false) (rest : List Char) :
    collapseWs (c :: rest) = c :: collapseWs rest := by
  rw [collapseWs, if_neg (by simp [hc])]

/-- Collapse passes a whitespace-free block through unchanged. -/
theorem collapseWs_word_append {w : List Char} (hns : ∀ c ∈ w, isSpaceChar c = false)
    (t : List Char) : collapseWs (w ++ t) = w ++ collapseWs t := by
  induction w with
  | nil => simp
  | cons c w2 ih =>
    simp only [List.cons_append]
    rw [collapseWs_cons_word (hns c (by simp))]
    rw [ih (fun x hx => hns x (by simp [hx]))]

theorem dropWhile_ne_nil_append {α : Type} {p : α → Bool} {a : List α}
    (h : a.dropWhile p ≠ []) (b : List α) :
    (a ++ b).dropWhile p = a.dropWhile p ++ b := by
  induction a with
  | nil => exact absurd rfl h
  | cons x a2 ih =>
    cases hx : p x with
    | true =>
      rw [List.dropWhile_cons_of_pos (by simp [hx])] at h
      simp only [List.cons_append]
      rw [List.dropWhile_cons_of_pos (by simp [hx])]
      rw [List.dropWhile_cons_of_pos (by simp [hx])]
      exact ih h
    | false =>
      simp only [List.cons_append]
      rw [List.dropWhile_cons_of_neg (by simp [hx])]
      rw [List.dropWhile_cons_of_neg (by simp [hx])]
      simp

/-- Trailing trim distributes over an append whose right part does not
trim away completely. -/
theorem trimRightWs_append_ne (u : List Char) {t : List Char} (h : trimRightWs t ≠ []) :
    trimRightWs (u ++ t) = u ++ trimRightWs t := by
  unfold trimRightWs at h ⊢
  rw [List.reverse_append]
  have hne : t.reverse.dropWhile isSpaceChar ≠ [] := by
    intro hc
    apply h
    rw [hc]
    rfl
  rw [dropWhile_ne_nil_append hne u.reverse]
  rw [List.reverse_append]
  simp

/-- Trailing trim erases an appended whitespace-only block. -/
theorem trimRightWs_append_space (u : List Char) {t : List Char}
    (h : ∀ c ∈ t, isSpaceChar c = true) : trimRightWs (u ++ t) = trimRightWs u := by
  unfold trimRightWs
  rw [List.reverse_append]
  rw [dropWhile_all_append (fun x hx => h x (by simpa using hx)) u.reverse]

theorem trimLeftWs_cons_word {c : Char} (hc : isSpaceChar c = false) (t : List Char) :
    trimLeftWs (c :: t) = c :: t := by
  unfold trimLeftWs
  rw [List.dropWhile_cons_of_neg (by simp [hc])]

theorem trimRightWs_nonspace {w : List Char} (hns : ∀ c ∈ w, isSpaceChar c = false) :
    trimRightWs w = w := by
  unfold trimRightWs
  rcases hrev : w.reverse with _ | ⟨c, t⟩
  · simp [List.reverse_eq_nil_iff.mp hrev]
  · have hcw : c ∈ w := by
      rw [← List.mem_reverse, hrev]
      simp
    have hd : List.dropWhile isSpaceChar (c :: t) = c :: t :=
      List.dropWhile_cons_of_neg (by simp [hns c hcw])
    rw [hd, ← hrev, List.reverse_reverse]

/-- A nonempty whitespace-free text trims to itself. -/
theorem trimWs_nonspace {w : List Char} (hne : w ≠ [])
    (hns : ∀ c ∈ w, isSpaceChar c = false) : trimWs w = w := by
  rcases w with _ | ⟨c, t⟩
  · exact absurd rfl hne
  · unfold trimWs
    rw [trimLeftWs_cons_word (hns c (by simp))]
    exact trimRightWs_nonspace hns

theorem trimWs_cons_space {sp : Char} (hsp : isSpaceChar sp = true) (t : List Char) :
    trimWs (sp :: t) = trimWs t := by
  unfold trimWs trimLeftWs
  rw [List.dropWhile_cons_of_pos (by simp [hsp])]

/-- On a text with no leading whitespace the two-sided trim is the
trailing trim. -/
theorem trimWs_eq_trimRight {X : List Char}
    (h : X = [] ∨ ∃ c t, X = c :: t ∧ isSpaceChar c = false) :
    trimWs X = trimRightWs X := by
  rcases h with rfl | ⟨c, t, rfl, hc⟩
  · rfl
  · unfold trimWs
    rw [trimLeftWs_cons_word hc]

/-- A space-joined list of nonempty words is nonempty. -/
theorem joinWith_ne_nil {ws : List (List Char)} (hne : ws ≠ [])
    (h : ∀ w ∈ ws, w ≠ []) : joinWith ' ' ws ≠ [] := by
  rcases ws with _ | ⟨w, ws2⟩
  · exact absurd rfl hne
  rcases ws2 with _ | ⟨w2, ws3⟩
  · exact h w (by simp)
  · show w ++ ' ' :: joinWith ' ' (w2 :: ws3) ≠ []
    simp

/-- Collapse-and-trim produces the single-space join of the words
(length-bounded form for the induction). -/
theorem trimWs_collapseWs_le : ∀ n (s : List Char), s.length ≤ n →
    trimWs (collapseWs s) = joinWith ' ' (wordsOf s) := by
  intro n
  induction n with
  | zero =>
    intro s hs
    have hnil : s = [] := List.eq_nil_of_length_eq_zero (Nat.le_zero.mp hs)
    subst hnil
    rw [collapseWs_nil, wordsOf_nil]
    rfl
  | succ n ih =>
    intro s hs
    rcases s with _ | ⟨c, rest⟩
    · rw [collapseWs_nil, wordsOf_nil]
      rfl
    cases hc : isSpaceChar c with
    | true =>
      rw [collapseWs_cons_space hc, wordsOf_cons_space hc]
      rw [trimWs_cons_space (by decide)]
      rw [← wordsOf_dropWhile_space rest]
      apply ih
      have hle := (List.dropWhile_sublist (l := rest) isSpaceChar).length_le
      simp only [List.length_cons] at hs
      omega
    | false =>
      have hwns : ∀ x ∈ c :: List.takeWhile (fun e => !isSpaceChar e) rest,
          isSpaceChar x = false := by
        intro x hx
        rcases List.mem_cons.mp hx with rfl | hx2
        · exact hc
        · have := List.mem_takeWhile_imp hx2
          simpa using this
      have hsplit : c :: rest =
          (c :: List.takeWhile (fun e => !isSpaceChar e) rest) ++
            List.dropWhile (fun e => !isSpaceChar e) rest := by
        simp [List.takeWhile_append_dropWhile]
      have hcol : collapseWs (c :: rest) =
          (c :: List.takeWhile (fun e => !isSpaceChar e) rest) ++
            collapseWs (List.dropWhile (fun e => !isSpaceChar e) rest) := by
        conv_lhs => rw [hsplit]
        exact collapseWs_word_append hwns _
      rw [hcol, wordsOf_cons_word hc]
      cases hdc : List.dropWhile (fun e => !isSpaceChar e) rest with
      | nil =>
        rw [collapseWs_nil, wordsOf_nil, List.append_nil]
        rw [trimWs_nonspace (by simp) hwns]
        rfl
      | cons sp d2 =>
        have hspsp : isSpaceChar sp = true := by
          have hh : (List.dropWhile (fun e => !isSpaceChar e) rest).head? = some sp := by
            rw [hdc]
            rfl
          have := head?_dropWhile_false hh
          simpa using this
        rw [collapseWs_cons_space hspsp, wordsOf_cons_space hspsp]
        rw [← wordsOf_dropWhile_space d2]
        have hlen : (d2.dropWhile isSpaceChar).length ≤ n := by
          have h1 := (List.dropWhile_sublist (l := d2) isSpaceChar).length_le
          have h2 : (sp :: d2).length ≤ rest.length := by
            rw [← hdc]
            exact (List.dropWhile_sublist _).length_le
          simp only [List.length_cons] at h2 hs
          omega
        have ihd := ih (d2.dropWhile isSpaceChar) hlen
        have hXshape : collapseWs (d2.dropWhile isSpaceChar) = [] ∨
            ∃ c0 t0, collapseWs (d2.dropWhile isSpaceChar) = c0 :: t0 ∧
              isSpaceChar c0 = false := by
          cases hdd : d2.dropWhile isSpaceChar with
          | nil =>
            left
            exact collapseWs_nil
          | cons e0 d3 =>
            have he : isSpaceChar e0 = false := by
              have hh : (List.dropWhile isSpaceChar d2).head? = some e0 := by
                rw [hdd]
                rfl
              exact head?_dropWhile_false hh
            right
            exact ⟨e0, collapseWs d3, collapseWs_cons_word he d3, he⟩
        cases hws : wordsOf (d2.dropWhile isSpaceChar) with
        | nil =>
          have hd'nil : d2.dropWhile isSpaceChar = [] := by
            cases hdd : d2.dropWhile isSpaceChar with
            | nil => rfl
            | cons e0 d3 =>
              exfalso
              have he : isSpaceChar e0 = false := by
                have hh : (List.dropWhile isSpaceChar d2).head? = some e0 := by
                  rw [hdd]
                  rfl
                exact head?_dropWhile_false hh
              rw [hdd, wordsOf_cons_word he] at hws
              simp at hws
          rw [hd'nil, collapseWs_nil]
          have heq : trimWs ((c :: List.takeWhile (fun e => !isSpaceChar e) rest) ++ [' ']) =
              trimRightWs ((c :: List.takeWhile (fun e => !isSpaceChar e) rest) ++ [' ']) :=
            trimWs_eq_trimRight (Or.inr
              ⟨c, List.takeWhile (fun e => !isSpaceChar e) rest ++ [' '], by simp, hc⟩)
          rw [heq]
          rw [trimRightWs_append_space _ (by
            intro x hx
            simp at hx
            rw [hx]
            rfl)]
          rw [trimRightWs_nonspace hwns]
          rfl
        | cons q qs =>
          have hqne : joinWith ' ' (q :: qs) ≠ [] := by
            apply joinWith_ne_nil (by simp)
            intro x hx
            have hx2 : x ∈ wordsOf (d2.dropWhile isSpaceChar) := by
              rw [hws]
              exact hx
            exact (wordsOf_wf hx2).1
          have htrne : trimRightWs (collapseWs (d2.dropWhile isSpaceChar)) ≠ [] := by
            rw [← trimWs_eq_trimRight hXshape, ihd, hws]
            exact hqne
          have hleft : trimWs ((c :: List.takeWhile (fun e => !isSpaceChar e) rest) ++
                ' ' :: collapseWs (d2.dropWhile isSpaceChar)) =
              trimRightWs ((c :: List.takeWhile (fun e => !isSpaceChar e) rest) ++
                ' ' :: collapseWs (d2.dropWhile isSpaceChar)) :=
            trimWs_eq_trimRight (Or.inr ⟨c, List.takeWhile (fun e => !isSpaceChar e) rest ++
              ' ' :: collapseWs (List.dropWhile isSpaceChar d2), by simp, hc⟩)
          rw [hleft]
          have hr1 : trimRightWs (' ' :: collapseWs (d2.dropWhile isSpaceChar)) =
              ' ' :: trimRightWs (collapseWs (d2.dropWhile isSpaceChar)) := by
            have := trimRightWs_append_ne [' '] htrne
            simpa using this
          have hr2 : trimRightWs ((c :: List.takeWhile (fun e => !isSpaceChar e) rest) ++
                ' ' :: collapseWs (d2.dropWhile isSpaceChar)) =
              (c :: List.takeWhile (fun e => !isSpaceChar e) rest) ++
                trimRightWs (' ' :: collapseWs (d2.dropWhile isSpaceChar)) := by
            apply trimRightWs_append_ne
            rw [hr1]
            simp
          rw [hr2, hr1]
          rw [← trimWs_eq_trimRight hXshape, ihd, hws]
          rfl

/-- Collapse-and-trim equals the single-space join of the words. -/
theorem trimWs_collapseWs (s : List Char) :
    trimWs (collapseWs s) = joinWith ' ' (wordsOf s) :=
  trimWs_collapseWs_le s.length s le_rfl

/-- Every word of a scan-stable text is itself scan-stable. -/
theorem scanMeta_clean_words : ∀ (s : List Char), scanMeta false s = ([], s) →
    ∀ w ∈ wordsOf s, scanMeta false w = ([], w) := by
  intro s
  induction s using wordsOf.induct with
  | case1 =>
    intro _ w hw
    rw [wordsOf_nil] at hw
    simp at hw
  | case2 c rest hc ih =>
    intro hcl w hw
    rw [wordsOf_cons_space hc] at hw
    have hnw : isWordChar c = false := not_word_of_space hc
    rw [scanMeta_cons_none (matchToken_none_of_head_not_word hnw), hnw] at hcl
    have hfst : (scanMeta false rest).1 = [] := by
      have := congrArg Prod.fst hcl
      simpa using this
    have hsnd : (scanMeta false rest).2 = rest := by
      have := congrArg Prod.snd hcl
      simpa using this
    refine ih ?_ w hw
    rw [Prod.ext_iff]
    exact ⟨hfst, hsnd⟩
  | case3 c rest hc ih =>
    intro hcl w hw
    have hc2 : isSpaceChar c = false := by simpa using hc
    rw [wordsOf_cons_word hc2] at hw
    cases hdc : List.dropWhile (fun e => !isSpaceChar e) rest with
    | nil =>
      have htake : List.takeWhile (fun e => !isSpaceChar e) rest = rest := by
        have hh := List.takeWhile_append_dropWhile (p := fun e => !isSpaceChar e) (l := rest)
        rw [hdc] at hh
        simpa using hh
      rw [hdc, wordsOf_nil, htake] at hw
      simp at hw
      subst hw
      exact hcl
    | cons sp d3 =>
      have hspsp : isSpaceChar sp = true := by
        have hh : (List.dropWhile (fun e => !isSpaceChar e) rest).head? = some sp := by
          rw [hdc]
          rfl
        have := head?_dropWhile_false hh
        simpa using this
      have hsplit : c :: rest =
          (c :: List.takeWhile (fun e => !isSpaceChar e) rest) ++ sp :: d3 := by
        conv_lhs => rw [show rest = List.takeWhile (fun e => !isSpaceChar e) rest ++
          List.dropWhile (fun e => !isSpaceChar e) rest from
          (List.takeWhile_append_dropWhile (fun e => !isSpaceChar e) rest).symm]
        rw [hdc]
        rfl
      rw [hsplit, scanMeta_split_sp hspsp] at hcl
      have hfst : (scanMeta false (c :: List.takeWhile (fun e => !isSpaceChar e) rest)).1 = []
          ∧ (scanMeta false d3).1 = [] := by
        have := congrArg Prod.fst hcl
        simpa using this
      have hAclean : scanMeta false (c :: List.takeWhile (fun e => !isSpaceChar e) rest) =
          ([], c :: List.takeWhile (fun e => !isSpaceChar e) rest) := by
        rw [Prod.ext_iff]
        exact ⟨hfst.1, scanMeta_fst_nil_snd hfst.1⟩
      have hBclean : scanMeta false d3 = ([], d3) := by
        rw [Prod.ext_iff]
        exact ⟨hfst.2, scanMeta_fst_nil_snd hfst.2⟩
      rcases List.mem_cons.mp hw with rfl | hmem
      · exact hAclean
      · have hdclean : scanMeta false (sp :: d3) = ([], sp :: d3) := by
          have hnw : isWordChar sp = false := not_word_of_space hspsp
          rw [scanMeta_cons_none (matchToken_none_of_head_not_word hnw), hnw, hBclean]
        refine ih ?_ w hmem
        rw [hdc]
        exact hdclean

/-- A space-join of scan-stable whitespace-free words is scan-stable. -/
theorem scanMeta_joinWith_clean {ws : List (List Char)}
    (h : ∀ w ∈ ws, w ≠ [] ∧ (∀ c ∈ w, isSpaceChar c = false) ∧
      scanMeta false w = ([], w)) :
    scanMeta false (joinWith ' ' ws) = ([], joinWith ' ' ws) := by
  induction ws with
  | nil => exact scanMeta_nil false
  | cons w ws2 ih =>
    rcases ws2 with _ | ⟨w2, ws3⟩
    · exact (h w (by simp)).2.2
    · have hj : joinWith ' ' (w :: w2 :: ws3) = w ++ ' ' :: joinWith ' ' (w2 :: ws3) := rfl
      rw [hj, scanMeta_split_sp (show isSpaceChar ' ' = true from by decide)]
      rw [(h w (by simp)).2.2]
      rw [ih (fun x hx => h x (by simp [hx]))]
      simp

/-- The cleaned text of a strip contains no token occurrence: scanning
it again removes nothing. -/
theorem trimWs_collapseWs_clean {s : List Char} (hcl : scanMeta false s = ([], s)) :
    scanMeta false (trimWs (collapseWs s)) = ([], trimWs (collapseWs s)) := by
  rw [trimWs_collapseWs]
  apply scanMeta_joinWith_clean
  intro w hw
  exact ⟨(wordsOf_wf hw).1, (wordsOf_wf hw).2, scanMeta_clean_words s hcl w hw⟩

/-- Appended trailing whitespace adds no word. -/
theorem wordsOf_append_space {X t : List Char} (ht : ∀ c ∈ t, isSpaceChar c = true) :
    wordsOf (X ++ t) = wordsOf X := by
  rcases t with _ | ⟨sp, t2⟩
  · simp
  · rw [wordsOf_append_sp (ht sp (by simp)) X t2]
    rw [show wordsOf t2 = [] from wordsOf_all_space (fun d hd => ht d (by simp [hd]))]
    simp

/-- Collapse-and-trim is stable: re-normalizing a cleaned text with any
trailing whitespace appended returns the cleaned text. -/
theorem trimWs_collapseWs_fix {s t : List Char} (ht : ∀ c ∈ t, isSpaceChar c = true) :
    trimWs (collapseWs (trimWs (collapseWs s) ++ t)) = trimWs (collapseWs s) := by
  rw [trimWs_collapseWs s, trimWs_collapseWs, wordsOf_append_space ht]
  rw [wordsOf_joinWith (fun w hw => wordsOf_wf hw)]

/-- Folding the rendered parts of a record with no empty-string field
recovers the record. -/
theorem metaParts_foldl {m : TaskMeta} (h1 : m.id ≠ some []) (h2 : m.cd ≠ some [])
    (h3 : m.due ≠ some []) (h4 : m.dd ≠ some []) :
    (metaParts m).foldl applyToken {} = m := by
  obtain ⟨f1, f2, f3, f4⟩ := m
  rcases f1 with _ | v1 <;> rcases f2 with _ | v2 <;> rcases f3 with _ | v3 <;>
    rcases f4 with _ | v4 <;>
    simp_all [metaParts, applyToken, List.isEmpty_iff]

theorem tryPriority_cons3 (c1 p c3 : Char) (r5 : List Char) :
    tryPriority (c1 :: p :: c3 :: r5) =
      (if c1 = '(' && c3 = ')' && ('A' ≤ p && p ≤ 'Z') then
        if (r5.takeWhile isSpaceChar).isEmpty then none
        else
          if (r5.drop (r5.takeWhile isSpaceChar).length).isEmpty then
            if 2 ≤ (r5.takeWhile isSpaceChar).length then some (p, [' ']) else none
          else some (p, rtrimBody (r5.drop (r5.takeWhile isSpaceChar).length))
      else none) := rfl

theorem tryPriority_nil : tryPriority [] = none := rfl

theorem tryPriority_one (c : Char) : tryPriority [c] = none := rfl

theorem tryPriority_two (c d : Char) : tryPriority [c, d] = none := rfl

/-- Reparsing a rebuilt task line: with whitespace runs of known
extent and a non-whitespace tail, TASK_LINE_REGEX recovers exactly the
prefix components and hands the tail to the priority-and-body
grammar. -/
theorem taskLineMatch_build {ws1 ws2 ws3 T : List Char} {b : Char}
    (h1 : ∀ c ∈ ws1, isSpaceChar c = true) (h2 : ∀ c ∈ ws2, isSpaceChar c = true)
    (h2n : ws2 ≠ []) (h3 : ∀ c ∈ ws3, isSpaceChar c = true)
    (hb : b = ' ' ∨ b = 'x' ∨ b = 'X')
    {c0 : Char} {T2 : List Char} (hT : T = c0 :: T2) (hc0 : isSpaceChar c0 = false) :
    taskLineMatch (ws1 ++ '-' :: (ws2 ++ '[' :: b :: ']' :: (ws3 ++ T))) =
      (match tryPriority T with
       | some pr => some { pfx := ws1 ++ '-' :: ws2 ++ '[' :: b :: ']' :: ws3,
                           box := b, priority := some pr.1, body := pr.2 }
       | none => some { pfx := ws1 ++ '-' :: ws2 ++ '[' :: b :: ']' :: ws3,
                        box := b, priority := none, body := rtrimBody T }) := by
  have e1 : (ws1 ++ '-' :: (ws2 ++ '[' :: b :: ']' :: (ws3 ++ T))).takeWhile isSpaceChar
      = ws1 := by
    rw [takeWhile_all_append h1]
    rw [List.takeWhile_cons_of_neg (by decide)]
    simp
  have e2 : (ws1 ++ '-' :: (ws2 ++ '[' :: b :: ']' :: (ws3 ++ T))).drop ws1.length
      = '-' :: (ws2 ++ '[' :: b :: ']' :: (ws3 ++ T)) := by
    rw [List.drop_left]
  have e3 : (ws2 ++ '[' :: b :: ']' :: (ws3 ++ T)).takeWhile isSpaceChar = ws2 := by
    rw [takeWhile_all_append h2]
    rw [List.takeWhile_cons_of_neg (by decide)]
    simp
  have e4 : (ws2 ++ '[' :: b :: ']' :: (ws3 ++ T)).drop ws2.length
      = '[' :: b :: ']' :: (ws3 ++ T) := by
    rw [List.drop_left]
  have e5 : (ws3 ++ T).takeWhile isSpaceChar = ws3 := by
    rw [takeWhile_all_append h3, hT]
    rw [List.takeWhile_cons_of_neg (by simp [hc0])]
    simp
  have e6 : (ws3 ++ T).drop ws3.length = T := by
    rw [List.drop_left]
  unfold taskLineMatch
  rw [e1, e2]
  simp only []
  rw [if_true]
  rw [e3]
  rw [if_neg (by simp [h2n])]
  rw [e4]
  simp only []
  rw [if_pos (by decide)]
  have hbc : (b = ' ' || b = 'x' || b = 'X') = true := by
    rcases hb with rfl | rfl | rfl <;> simp
  rw [if_pos hbc]
  rw [e5, e6]
  rw [if_neg (by simp [hT])]

/-- A captured priority letter is always in the upper-case range. -/
theorem tryPriority_shape {t : List Char} {pr : Char × List Char}
    (h : tryPriority t = some pr) : 'A' ≤ pr.1 ∧ pr.1 ≤ 'Z' := by
  match t with
  | [] => simp [tryPriority] at h
  | [c] => simp [tryPriority] at h
  | [c, d] => simp [tryPriority] at h
  | c1 :: p :: c3 :: r5 =>
    rw [tryPriority_cons3] at h
    split at h
    · rename_i hcond
      simp only [Bool.and_eq_true, decide_eq_true_eq] at hcond
      obtain ⟨⟨hc1, hc3⟩, hA, hZ⟩ := hcond
      split at h
      · simp at h
      · split at h
        · split at h
          · simp only [Option.some.injEq] at h
            rw [← h]
            exact ⟨hA, hZ⟩
          · simp at h
        · simp only [Option.some.injEq] at h
          rw [← h]
          exact ⟨hA, hZ⟩
    · simp at h

/-- The components of a successful TASK_LINE_REGEX match: the prefix is
whitespace, a dash, nonempty whitespace, the checkbox, and a whitespace
run; the box is one of the three checkbox characters; a captured
priority is in range. -/
theorem taskLineMatch_shape {line : List Char} {lm : LineMatch}
    (h : taskLineMatch line = some lm) :
    ∃ ws1 ws2 ws3, (∀ c ∈ ws1, isSpaceChar c = true) ∧ (∀ c ∈ ws2, isSpaceChar c = true) ∧
      ws2 ≠ [] ∧ (∀ c ∈ ws3, isSpaceChar c = true) ∧
      (lm.box = ' ' ∨ lm.box = 'x' ∨ lm.box = 'X') ∧
      lm.pfx = ws1 ++ '-' :: ws2 ++ '[' :: lm.box :: ']' :: ws3 ∧
      (∀ p, lm.priority = some p → 'A' ≤ p ∧ p ≤ 'Z') := by
  unfold taskLineMatch at h
  split at h
  case _ d r2 heq =>
    split at h
    case isTrue hd =>
      split at h
      case isTrue => simp at h
      case isFalse hne2 =>
        split at h
        case _ lb bx rb r3 heq3 =>
          split at h
          case isTrue hbr =>
            split at h
            case isTrue hbx =>
              simp only [Bool.and_eq_true, decide_eq_true_eq] at hbr
              simp only [Bool.or_eq_true, decide_eq_true_eq] at hbx
              simp only [] at h
              split at h
              case isTrue hr4e =>
                split at h
                case isTrue => simp at h
                case isFalse hws3e =>
                  simp only [Option.some.injEq] at h
                  subst h
                  refine ⟨line.takeWhile isSpaceChar, r2.takeWhile isSpaceChar,
                    (r3.takeWhile isSpaceChar).dropLast, ?_, ?_, ?_, ?_, ?_, ?_, ?_⟩
                  · intro c hc
                    exact List.mem_takeWhile_imp hc
                  · intro c hc
                    exact List.mem_takeWhile_imp hc
                  · simpa [List.isEmpty_iff] using hne2
                  · intro c hc
                    exact List.mem_takeWhile_imp
                      ((List.dropLast_sublist _).subset hc)
                  · tauto
                  · rfl
                  · intro p hp
                    simp at hp
              case isFalse hr4e =>
                split at h
                case _ pr heqp =>
                  simp only [Option.some.injEq] at h
                  subst h
                  refine ⟨line.takeWhile isSpaceChar, r2.takeWhile isSpaceChar,
                    r3.takeWhile isSpaceChar, ?_, ?_, ?_, ?_, ?_, ?_, ?_⟩
                  · intro c hc
                    exact List.mem_takeWhile_imp hc
                  · intro c hc
                    exact List.mem_takeWhile_imp hc
                  · simpa [List.isEmpty_iff] using hne2
                  · intro c hc
                    exact List.mem_takeWhile_imp hc
                  · tauto
                  · rfl
                  · intro p hp
                    simp only [Option.some.injEq] at hp
                    have := tryPriority_shape heqp
                    rw [hp] at this
                    exact this
                case _ heqp =>
                  simp only [Option.some.injEq] at h
                  subst h
                  refine ⟨line.takeWhile isSpaceChar, r2.takeWhile isSpaceChar,
                    r3.takeWhile isSpaceChar, ?_, ?_, ?_, ?_, ?_, ?_, ?_⟩
                  · intro c hc
                    exact List.mem_takeWhile_imp hc
                  · intro c hc
                    exact List.mem_takeWhile_imp hc
                  · simpa [List.isEmpty_iff] using hne2
                  · intro c hc
                    exact List.mem_takeWhile_imp hc
                  · tauto
                  · rfl
                  · intro p hp
                    simp at hp
            case isFalse => simp at h
          case isFalse => simp at h
        case _ => simp at h
    case isFalse => simp at h
  case _ => simp at h

/-- A join of well-formed words is unchanged by trailing trim. -/
theorem trimRightWs_joinWith {ws : List (List Char)}
    (h : ∀ w ∈ ws, w ≠ [] ∧ ∀ c ∈ w, isSpaceChar c = false) :
    trimRightWs (joinWith ' ' ws) = joinWith ' ' ws := by
  induction ws with
  | nil => rfl
  | cons w ws2 ih =>
    rcases ws2 with _ | ⟨w2, ws3⟩
    · exact trimRightWs_nonspace (h w (by simp)).2
    · have hih : trimRightWs (joinWith ' ' (w2 :: ws3)) = joinWith ' ' (w2 :: ws3) :=
        ih (fun x hx => h x (by simp [hx]))
      have hne : trimRightWs (joinWith ' ' (w2 :: ws3)) ≠ [] := by
        rw [hih]
        exact joinWith_ne_nil (by simp) (fun x hx => (h x (by simp [hx])).1)
      have h1 : trimRightWs (' ' :: joinWith ' ' (w2 :: ws3)) =
          ' ' :: joinWith ' ' (w2 :: ws3) := by
        have hstep := trimRightWs_append_ne [' '] hne
        rw [hih] at hstep
        simpa using hstep
      show trimRightWs (w ++ ' ' :: joinWith ' ' (w2 :: ws3)) = _
      rw [trimRightWs_append_ne w (by rw [h1]; simp), h1]
      rfl

/-- A rendered token is a nonempty whitespace-free word. -/
theorem renderTok_wf {k : MetaKey} {v : List Char} (hv : ValueGood v) :
    renderTok k v ≠ [] ∧ ∀ c ∈ renderTok k v, isSpaceChar c = false := by
  refine ⟨renderTok_ne_nil k v, ?_⟩
  intro c hc
  unfold renderTok at hc
  rcases List.mem_append.mp hc with hk | hv2
  · have hkey : ∀ x ∈ keyChars k, isSpaceChar x = false := by
      cases k <;> decide
    exact hkey c hk
  · rcases List.mem_cons.mp hv2 with rfl | hv3
    · decide
    · exact hv.2.1 c hv3

/-- The head of a join of well-formed words is a non-whitespace
character. -/
theorem joinWith_head_shape {ws : List (List Char)}
    (h : ∀ w ∈ ws, w ≠ [] ∧ ∀ c ∈ w, isSpaceChar c = false) (hne : ws ≠ []) :
    ∃ c t, joinWith ' ' ws = c :: t ∧ isSpaceChar c = false := by
  rcases ws with _ | ⟨w, ws2⟩
  · exact absurd rfl hne
  rcases hw : w with _ | ⟨c0, t0⟩
  · exact absurd hw (h w (by simp)).1
  have hc0 : isSpaceChar c0 = false := (h w (by simp)).2 c0 (by simp [hw])
  rcases ws2 with _ | ⟨w2, ws3⟩
  · exact ⟨c0, t0, by simp [joinWith, hw], hc0⟩
  · exact ⟨c0, t0 ++ ' ' :: joinWith ' ' (w2 :: ws3), rfl, hc0⟩

/-- A body whose trailing trim is itself (and nonempty) passes through
the lazy-body capture unchanged. -/
theorem rtrimBody_eq_self {u : List Char} (hid : trimRightWs u = u) (hne : u ≠ []) :
    rtrimBody u = u := by
  unfold rtrimBody
  rw [hid]
  rw [if_neg (by simpa [List.isEmpty_iff] using hne)]

/-- The rendered parts of a record with well-formed values are
well-formed words. -/
theorem metaParts_map_wf {m : TaskMeta} (hmv : ∀ p ∈ metaParts m, ValueGood p.2) :
    ∀ w ∈ (metaParts m).map (fun t => renderTok t.1 t.2),
      w ≠ [] ∧ ∀ c ∈ w, isSpaceChar c = false := by
  intro w hw
  rw [List.mem_map] at hw
  obtain ⟨p, hpmem, rfl⟩ := hw
  exact renderTok_wf (hmv p hpmem)

/-- Appending a well-formed metadata suffix to a text with no trailing
whitespace leaves the trailing trim a no-op. -/
theorem trimRightWs_append_suffix {X : List Char} {m : TaskMeta}
    (hmv : ∀ p ∈ metaParts m, ValueGood p.2) (hX : trimRightWs X = X) :
    trimRightWs (X ++ buildMetaSuffix m) = X ++ buildMetaSuffix m := by
  unfold buildMetaSuffix
  simp only []
  split
  · simp [hX]
  · rename_i hp
    have hwf := metaParts_map_wf hmv
    have hpne : (metaParts m).map (fun t => renderTok t.1 t.2) ≠ [] := by
      simpa [List.isEmpty_iff] using hp
    have hJne : joinWith ' ' ((metaParts m).map (fun t => renderTok t.1 t.2)) ≠ [] :=
      joinWith_ne_nil hpne (fun w hw => (hwf w hw).1)
    have hJtr := trimRightWs_joinWith hwf
    have h1 : trimRightWs (' ' :: joinWith ' ' ((metaParts m).map (fun t => renderTok t.1 t.2)))
        = ' ' :: joinWith ' ' ((metaParts m).map (fun t => renderTok t.1 t.2)) := by
      have hstep := trimRightWs_append_ne [' '] (by rw [hJtr]; exact hJne)
      rw [hJtr] at hstep
      simpa using hstep
    rw [trimRightWs_append_ne X (by rw [h1]; simp), h1]

/-- The base-36 digit alphabet consists of lower-case word characters. -/
theorem base36_digit_props : ∀ c ∈ base36Digits,
    isWordChar c = true ∧ isSpaceChar c = false ∧ lc c = c := by decide

theorem base36Char_mem (n : Nat) : base36Char n ∈ base36Digits := by
  unfold base36Char
  by_cases hk : n < base36Digits.length
  · rw [List.getD_eq_getElem base36Digits '0' hk]
    exact List.getElem_mem hk
  · rw [List.getD_eq_default]
    · decide
    · omega

theorem toBase36_mem : ∀ (n : Nat), ∀ c ∈ toBase36 n, c ∈ base36Digits := by
  intro n
  induction n using Nat.strong_induction_on with
  | _ n ih =>
    intro c hc
    unfold toBase36 at hc
    split at hc
    · simp at hc
      subst hc
      exact base36Char_mem n
    · rename_i h36
      rcases List.mem_append.mp hc with hone | htwo
      · exact ih (n / 36) (Nat.div_lt_self (by omega) (by omega)) c hone
      · simp at htwo
        subst htwo
        exact base36Char_mem _

/-- A sliced-and-lower-cased accumulator of base-36 digits is a
well-formed value. -/
theorem candidate_slice_good {acc : List Char} {len : Nat} (h1 : 1 ≤ len)
    (hlen : len ≤ acc.length) (hacc : ∀ c ∈ acc, c ∈ base36Digits) :
    ValueGood ((acc.take len).map lc) := by
  have hl : ((acc.take len).map lc).length = len := by
    simp [List.length_take]
    omega
  refine ⟨?_, ?_, ?_⟩
  · intro hcon
    rw [hcon] at hl
    simp at hl
    omega
  · intro c hc
    rw [List.mem_map] at hc
    obtain ⟨a, ha, rfl⟩ := hc
    have hba : a ∈ base36Digits := hacc a (List.mem_of_mem_take ha)
    have props := base36_digit_props a hba
    rw [props.2.2]
    exact props.2.1
  · unfold lastIsWord
    cases hgl : ((acc.take len).map lc).getLast? with
    | none =>
      rw [List.getLast?_eq_none_iff] at hgl
      rw [hgl] at hl
      simp at hl
      omega
    | some w =>
      have hwmem := List.mem_of_mem_getLast? hgl
      rw [List.mem_map] at hwmem
      obtain ⟨a, ha, rfl⟩ := hwmem
      have hba : a ∈ base36Digits := hacc a (List.mem_of_mem_take ha)
      have props := base36_digit_props a hba
      rw [props.2.2]
      exact props.1

/-- Every candidate produced by the chunk loop is a well-formed value. -/
theorem buildCandidate_good (rand : Nat → Nat) :
    ∀ (k : Nat) (acc : List Char) (len : Nat), 1 ≤ len →
      (∀ c ∈ acc, c ∈ base36Digits) → ValueGood (buildCandidate rand k acc len).1 := by
  intro k acc len
  induction k, acc, len using buildCandidate.induct rand with
  | case1 k acc len hle =>
    intro h1 hacc
    unfold buildCandidate
    rw [if_pos hle]
    exact candidate_slice_good h1 hle hacc
  | case2 k acc len hnle ih =>
    intro h1 hacc
    unfold buildCandidate
    rw [if_neg hnle]
    apply ih h1
    intro c hc
    rcases List.mem_append.mp hc with hone | htwo
    · exact hacc c hone
    · exact toBase36_mem _ c htwo

/-- Every identifier returned by the retry loop is a well-formed
value. -/
theorem genGo_good (rand : Nat → Nat) (existing : List (List Char)) :
    ∀ (fuel len attempt k : Nat), (11 - len) * 26 + (25 - attempt) ≤ fuel → 1 ≤ len →
      ∀ {cand : List Char} {k2 : Nat},
      genGo rand existing len attempt k = some (cand, k2) → ValueGood cand := by
  intro fuel
  induction fuel with
  | zero =>
    intro len attempt k hf h1 cand k2 hg
    unfold genGo at hg
    rw [if_pos (by omega)] at hg
    simp at hg
  | succ fuel ih =>
    intro len attempt k hf h1 cand k2 hg
    unfold genGo at hg
    by_cases h10 : 10 < len
    · rw [if_pos h10] at hg
      simp at hg
    · rw [if_neg h10] at hg
      by_cases h25 : 25 ≤ attempt
      · rw [if_pos h25] at hg
        exact ih (len + 1) 0 k (by omega) (by omega) hg
      · rw [if_neg h25] at hg
        simp only [] at hg
        by_cases hcont : existing.contains (buildCandidate rand k [] len).1 = true
        · rw [if_pos hcont] at hg
          exact ih len (attempt + 1) _ (by omega) h1 hg
        · rw [if_neg hcont] at hg
          simp only [Option.some.injEq] at hg
          have hc : (buildCandidate rand k [] len).1 = cand := by
            rw [hg]
          rw [← hc]
          exact buildCandidate_good rand k [] len h1 (by simp)

/-- Every identifier returned by generateShortId is a well-formed value,
provided the processed fallback is. -/
theorem generateShortId_good {rand : Nat → Nat} {fb : List Char}
    {existing : List (List Char)} {k : Nat} (hfb : ValueGood (processFallback fb)) :
    ValueGood (generateShortId rand fb existing k).1 := by
  unfold generateShortId
  cases hg : genGo rand existing 3 0 k with
  | some bc =>
    rcases bc with ⟨cand, k2⟩
    exact genGo_good rand existing 233 3 0 k (by omega) (by omega) hg
  | none =>
    exact hfb

/-- All metadata field values of a record are well formed. -/
def MetaGood (m : TaskMeta) : Prop :=
  (∀ v, m.id = some v → ValueGood v) ∧ (∀ v, m.cd = some v → ValueGood v) ∧
  (∀ v, m.due = some v → ValueGood v) ∧ (∀ v, m.dd = some v → ValueGood v)

theorem MetaGood_empty : MetaGood {} :=
  ⟨fun _ h => Option.noConfusion h, fun _ h => Option.noConfusion h,
   fun _ h => Option.noConfusion h, fun _ h => Option.noConfusion h⟩

theorem applyToken_good {m : TaskMeta} {t : MetaKey × List Char}
    (hm : MetaGood m) (ht : ValueGood t.2) : MetaGood (applyToken m t) := by
  obtain ⟨h1, h2, h3, h4⟩ := hm
  rcases t with ⟨k, v⟩
  have hset : ∀ v2 : List Char, some v = some v2 → ValueGood v2 := by
    intro v2 hv2
    simp only [Option.some.injEq] at hv2
    rw [← hv2]
    exact ht
  cases k
  · exact ⟨hset, h2, h3, h4⟩
  · exact ⟨h1, hset, h3, h4⟩
  · exact ⟨h1, h2, hset, h4⟩
  · exact ⟨h1, h2, h3, hset⟩

theorem foldl_applyToken_good {toks : List (MetaKey × List Char)}
    (ht : ∀ t ∈ toks, ValueGood t.2) :
    ∀ m, MetaGood m → MetaGood (toks.foldl applyToken m) := by
  induction toks with
  | nil =>
    intro m hm
    exact hm
  | cons t ts ih =>
    intro m hm
    rw [List.foldl_cons]
    exact ih (fun x hx => ht x (by simp [hx])) _ (applyToken_good hm (ht t (by simp)))

/-- Every token value collected by the scan is well formed. -/
theorem scanMeta_tokens_good : ∀ (prev : Bool) (s : List Char),
    ∀ t ∈ (scanMeta prev s).1, ValueGood t.2 := by
  intro prev s
  induction prev, s using scanMeta.induct with
  | case1 prev =>
    intro t ht
    rw [scanMeta_nil] at ht
    simp at ht
  | case2 c rest ih =>
    intro t ht
    rw [scanMeta_cons_true] at ht
    exact ih t ht
  | case3 prevW c rest hprev k v rest2 hmt ih =>
    have hfalse : prevW = false := by simpa using hprev
    subst hfalse
    intro t ht
    rw [scanMeta_cons_some hmt] at ht
    simp only [] at ht
    rcases List.mem_cons.mp ht with rfl | hmem
    · exact matchToken_value_good hmt
    · exact ih t hmem
  | case4 prevW c rest hprev hmt ih =>
    have hfalse : prevW = false := by simpa using hprev
    subst hfalse
    intro t ht
    rw [scanMeta_cons_none hmt] at ht
    exact ih t ht

theorem stripAndCollectMeta_good (text : List Char) :
    MetaGood (stripAndCollectMeta text).2 :=
  foldl_applyToken_good (scanMeta_tokens_good false text) {} MetaGood_empty

theorem metaParts_values_good {m : TaskMeta} (hm : MetaGood m) :
    ∀ p ∈ metaParts m, ValueGood p.2 := by
  obtain ⟨h1, h2, h3, h4⟩ := hm
  intro p hp
  unfold metaParts at hp
  rcases List.mem_append.mp hp with hp3 | hdd
  rcases List.mem_append.mp hp3 with hp2 | hdue
  rcases List.mem_append.mp hp2 with hid | hcd
  · rcases hid0 : m.id with _ | v
    · rw [hid0] at hid
      simp at hid
    · rw [hid0] at hid
      split at hid
      · rename_i v2 heq
        simp only [Option.some.injEq] at heq
        subst heq
        simp at hid
        rw [hid.2]
        exact h1 _ hid0
      · rename_i heq
        simp at heq
  · rcases hcd0 : m.cd with _ | v
    · rw [hcd0] at hcd
      simp at hcd
    · rw [hcd0] at hcd
      split at hcd
      · rename_i v2 heq
        simp only [Option.some.injEq] at heq
        subst heq
        simp at hcd
        rw [hcd.2]
        exact h2 _ hcd0
      · rename_i heq
        simp at heq
  · rcases hdue0 : m.due with _ | v
    · rw [hdue0] at hdue
      simp at hdue
    · rw [hdue0] at hdue
      split at hdue
      · rename_i v2 heq
        simp only [Option.some.injEq] at heq
        subst heq
        simp at hdue
        rw [hdue.2]
        exact h3 _ hdue0
      · rename_i heq
        simp at heq
  · rcases hdd0 : m.dd with _ | v
    · rw [hdd0] at hdd
      simp at hdd
    · rw [hdd0] at hdd
      split at hdd
      · rename_i v2 heq
        simp only [Option.some.injEq] at heq
        subst heq
        simp at hdd
        rw [hdd.2]
        exact h4 _ hdd0
      · rename_i heq
        simp at heq

theorem MetaGood_ne_nilval {m : TaskMeta} (hm : MetaGood m) :
    m.id ≠ some [] ∧ m.cd ≠ some [] ∧ m.due ≠ some [] ∧ m.dd ≠ some [] := by
  obtain ⟨h1, h2, h3, h4⟩ := hm
  refine ⟨fun h => ?_, fun h => ?_, fun h => ?_, fun h => ?_⟩
  · exact (h1 [] h).1 rfl
  · exact (h2 [] h).1 rfl
  · exact (h3 [] h).1 rfl
  · exact (h4 [] h).1 rfl

theorem metaParts_nil_empty {m : TaskMeta}
    (hfield : m.id ≠ some [] ∧ m.cd ≠ some [] ∧ m.due ≠ some [] ∧ m.dd ≠ some [])
    (hnil : metaParts m = []) : m = {} := by
  obtain ⟨f1, f2, f3, f4⟩ := m
  obtain ⟨g1, g2, g3, g4⟩ := hfield
  rcases f1 with _ | v1 <;> rcases f2 with _ | v2 <;> rcases f3 with _ | v3 <;>
    rcases f4 with _ | v4 <;>
    simp_all [metaParts, List.isEmpty_iff]

/-- Stripping a token-free normal text followed by its rendered metadata
suffix recovers the text and the record exactly. -/
theorem strip_clean_suffix {X : List Char} {m : TaskMeta}
    (hnorm : trimWs (collapseWs X) = X)
    (hclean : scanMeta false X = ([], X))
    (hm : MetaGood m) :
    stripAndCollectMeta (X ++ buildMetaSuffix m) = (X, m) := by
  have hmv := metaParts_values_good hm
  have hfield := MetaGood_ne_nilval hm
  unfold stripAndCollectMeta buildMetaSuffix
  simp only []
  split
  · rename_i hp
    have hpnil : metaParts m = [] := by
      have hmap := List.isEmpty_iff.mp hp
      simpa using hmap
    have hmempty : m = {} := metaParts_nil_empty hfield hpnil
    rw [List.append_nil, hclean]
    simp only []
    rw [hnorm, hmempty]
    rfl
  · rename_i hp
    rw [scanMeta_append_space_of_clean hclean]
    rw [scanMeta_parts hmv]
    simp only [Prod.mk.injEq]
    constructor
    · conv_lhs => rw [← hnorm]
      rw [trimWs_collapseWs_fix (by
        intro c hc
        rcases List.mem_cons.mp hc with rfl | hrep2
        · decide
        · rw [List.eq_of_mem_replicate hrep2]
          decide)]
      exact hnorm
    · exact metaParts_foldl hfield.1 hfield.2.1 hfield.2.2.1 hfield.2.2.2

theorem truthy_of_good {v : List Char} (hv : ValueGood v) : truthy (some v) = true := by
  unfold truthy
  simp [List.isEmpty_iff, hv.1]

theorem MetaGood_set_id {m : TaskMeta} {v : List Char} (hm : MetaGood m) (hv : ValueGood v) :
    MetaGood { m with id := some v } := by
  obtain ⟨h1, h2, h3, h4⟩ := hm
  refine ⟨?_, h2, h3, h4⟩
  intro v2 hv2
  simp only [Option.some.injEq] at hv2
  rw [← hv2]
  exact hv

theorem MetaGood_set_cd {m : TaskMeta} {v : List Char} (hm : MetaGood m) (hv : ValueGood v) :
    MetaGood { m with cd := some v } := by
  obtain ⟨h1, h2, h3, h4⟩ := hm
  refine ⟨h1, ?_, h3, h4⟩
  intro v2 hv2
  simp only [Option.some.injEq] at hv2
  rw [← hv2]
  exact hv

theorem MetaGood_set_dd {m : TaskMeta} {v : List Char} (hm : MetaGood m) (hv : ValueGood v) :
    MetaGood { m with dd := some v } := by
  obtain ⟨h1, h2, h3, h4⟩ := hm
  refine ⟨h1, h2, h3, ?_⟩
  intro v2 hv2
  simp only [Option.some.injEq] at hv2
  rw [← hv2]
  exact hv

theorem MetaGood_set_dd_none {m : TaskMeta} (hm : MetaGood m) :
    MetaGood { m with dd := none } :=
  ⟨hm.1, hm.2.1, hm.2.2.1, fun _ h => Option.noConfusion h⟩

/-- The id-assignment step yields a good record with a truthy id and
unchanged other fields. -/
theorem assignId_props (ctx : NormCtx) (st : NormState) {m : TaskMeta} (hm : MetaGood m)
    (hfb : ∀ i, ValueGood (processFallback (ctx.fbs i))) :
    MetaGood (assignId ctx st m).1 ∧ truthy (assignId ctx st m).1.id = true ∧
    (assignId ctx st m).1.cd = m.cd ∧ (assignId ctx st m).1.due = m.due ∧
    (assignId ctx st m).1.dd = m.dd := by
  unfold assignId
  by_cases hid : truthy m.id = true
  · rw [if_pos hid]
    exact ⟨hm, hid, rfl, rfl, rfl⟩
  · rw [if_neg hid]
    have hg := @generateShortId_good ctx.rand (ctx.fbs st.fbIdx) st.existing st.chunkIdx
      (hfb st.fbIdx)
    exact ⟨MetaGood_set_id hm hg, truthy_of_good hg, rfl, rfl, rfl⟩

/-- The cd-assignment step yields a good record with a truthy cd and
unchanged other fields. -/
theorem assignCd_props {sourceDate : List Char} (hsd : ValueGood sourceDate)
    {m : TaskMeta} (hm : MetaGood m) :
    MetaGood (assignCd sourceDate m) ∧ truthy (assignCd sourceDate m).cd = true ∧
    (assignCd sourceDate m).id = m.id ∧ (assignCd sourceDate m).due = m.due ∧
    (assignCd sourceDate m).dd = m.dd := by
  unfold assignCd
  by_cases hcd : truthy m.cd = true
  · rw [if_pos hcd]
    exact ⟨hm, hcd, rfl, rfl, rfl⟩
  · rw [if_neg hcd]
    exact ⟨MetaGood_set_cd hm hsd, truthy_of_good hsd, rfl, rfl, rfl⟩

/-- The dd law yields a good record whose dd truthiness equals the
completion flag, other fields unchanged. -/
theorem assignDd_props {today : List Char} (htd : ValueGood today) (completed : Bool)
    {m : TaskMeta} (hm : MetaGood m) :
    MetaGood (assignDd today completed m) ∧
    truthy (assignDd today completed m).dd = completed ∧
    (assignDd today completed m).id = m.id ∧ (assignDd today completed m).cd = m.cd ∧
    (assignDd today completed m).due = m.due := by
  unfold assignDd
  cases completed
  · simp only [Bool.false_eq_true, if_false]
    by_cases hdd : truthy m.dd = true
    · rw [if_pos hdd]
      exact ⟨MetaGood_set_dd_none hm, rfl, rfl, rfl, rfl⟩
    · rw [if_neg hdd]
      exact ⟨hm, by simpa using hdd, rfl, rfl, rfl⟩
  · rw [if_pos rfl]
    by_cases hdd : truthy m.dd = true
    · rw [if_pos hdd]
      exact ⟨hm, hdd, rfl, rfl, rfl⟩
    · rw [if_neg hdd]
      exact ⟨MetaGood_set_dd hm htd, truthy_of_good htd, rfl, rfl, rfl⟩

/-- Output invariants of the metadata-law step. -/
theorem normAssign_props (ctx : NormCtx) (st : NormState) (m : TaskMeta) (completed : Bool)
    (hm : MetaGood m) (hsd : ValueGood ctx.sourceDate) (htd : ValueGood ctx.today)
    (hfb : ∀ i, ValueGood (processFallback (ctx.fbs i))) :
    MetaGood (normAssign ctx st m completed).1 ∧
    truthy (normAssign ctx st m completed).1.id = true ∧
    truthy (normAssign ctx st m completed).1.cd = true ∧
    truthy (normAssign ctx st m completed).1.dd = completed := by
  obtain ⟨hg1, hid1, hcd1, hdue1, hdd1⟩ := assignId_props ctx st hm hfb
  obtain ⟨hg2, hcd2, hid2, hdue2, hdd2⟩ := assignCd_props hsd hg1
  obtain ⟨hg3, hdd3, hid3, hcd3, hdue3⟩ := assignDd_props htd completed hg2
  unfold normAssign
  refine ⟨hg3, ?_, ?_, hdd3⟩
  · rw [hid3, hid2]
    exact hid1
  · rw [hcd3]
    exact hcd2

/-- A record already satisfying the three laws passes through the
metadata-law step unchanged, with the state untouched. -/
theorem normAssign_fixed (ctx : NormCtx) (st : NormState) {m : TaskMeta} {completed : Bool}
    (hid : truthy m.id = true) (hcd : truthy m.cd = true)
    (hdd : truthy m.dd = completed) :
    normAssign ctx st m completed = (m, st) := by
  unfold normAssign assignId assignCd assignDd
  rw [if_pos hid]
  simp only []
  rw [if_pos hcd]
  cases completed
  · simp only [Bool.false_eq_true, if_false]
    rw [if_neg (by simp [hdd])]
  · rw [if_pos rfl, if_pos hdd]

/-- An attempted priority match fails on a word that is not an in-range
parenthesized letter, whatever whitespace-headed text follows. -/
theorem tryPriority_none_word {w1 R : List Char}
    (hne : w1 ≠ []) (hns : ∀ c ∈ w1, isSpaceChar c = false)
    (hshape : ∀ p, w1 = ['(', p, ')'] → ¬('A' ≤ p ∧ p ≤ 'Z'))
    (hR : R = [] ∨ ∃ R2, R = ' ' :: R2) :
    tryPriority (w1 ++ R) = none := by
  rcases w1 with _ | ⟨c1, w1t⟩
  · exact absurd rfl hne
  rcases w1t with _ | ⟨c2, w1t2⟩
  · rcases hR with rfl | ⟨R2, rfl⟩
    · exact tryPriority_one c1
    · rcases R2 with _ | ⟨c, R3⟩
      · exact tryPriority_two c1 ' '
      · rw [show [c1] ++ ' ' :: c :: R3 = c1 :: ' ' :: c :: R3 from rfl]
        rw [tryPriority_cons3]
        rw [if_neg (by
          simp only [Bool.and_eq_true, decide_eq_true_eq]
          rintro ⟨⟨_, _⟩, hA, _⟩
          exact absurd hA (by decide))]
  rcases w1t2 with _ | ⟨c3, w1t3⟩
  · rcases hR with rfl | ⟨R2, rfl⟩
    · exact tryPriority_two c1 c2
    · rw [show [c1, c2] ++ ' ' :: R2 = c1 :: c2 :: ' ' :: R2 from rfl]
      rw [tryPriority_cons3]
      rw [if_neg (by
        simp only [Bool.and_eq_true, decide_eq_true_eq]
        rintro ⟨⟨_, hc3⟩, _⟩
        exact absurd hc3 (by decide))]
  · rw [show (c1 :: c2 :: c3 :: w1t3) ++ R = c1 :: c2 :: c3 :: (w1t3 ++ R) from rfl]
    rw [tryPriority_cons3]
    by_cases hcond : (c1 = '(' && c3 = ')' && ('A' ≤ c2 && c2 ≤ 'Z')) = true
    · rw [if_pos hcond]
      simp only [Bool.and_eq_true, decide_eq_true_eq] at hcond
      obtain ⟨⟨hc1, hc3⟩, hA, hZ⟩ := hcond
      rcases w1t3 with _ | ⟨d, w1t4⟩
      · exact absurd ⟨hA, hZ⟩ (hshape c2 (by rw [hc1, hc3]))
      · have hd : isSpaceChar d = false := hns d (by simp)
        rw [if_pos (by
          rw [show (d :: w1t4) ++ R = d :: (w1t4 ++ R) from rfl]
          rw [List.takeWhile_cons_of_neg (by simp [hd])]
          rfl)]
    · rw [if_neg hcond]

/-- A priority marker followed by one space and a non-whitespace body
is captured with the trailing-trimmed body. -/
theorem tryPriority_paren_more {p : Char} (hA : 'A' ≤ p) (hZ : p ≤ 'Z')
    {rest : List Char} {c : Char} {t : List Char} (hrest : rest = c :: t)
    (hc : isSpaceChar c = false) :
    tryPriority ('(' :: p :: ')' :: ' ' :: rest) = some (p, rtrimBody rest) := by
  subst hrest
  rw [tryPriority_cons3]
  rw [if_pos (by simp [hA, hZ])]
  have htw : (' ' :: c :: t).takeWhile isSpaceChar = [' '] := by
    rw [List.takeWhile_cons_of_pos (by decide)]
    rw [List.takeWhile_cons_of_neg (by simp [hc])]
  rw [htw]
  rw [if_neg (by simp)]
  rw [if_neg (by simp)]
  rfl

/-- A join of well-formed words is already collapse-and-trim normal. -/
theorem trimWs_collapseWs_join {ws : List (List Char)}
    (hwf : ∀ w ∈ ws, w ≠ [] ∧ ∀ c ∈ w, isSpaceChar c = false) :
    trimWs (collapseWs (joinWith ' ' ws)) = joinWith ' ' ws := by
  rw [trimWs_collapseWs, wordsOf_joinWith hwf]

/-- Collapse-and-trim of a whitespace-only text is empty. -/
theorem trimWs_collapseWs_spaces {s : List Char} (h : ∀ c ∈ s, isSpaceChar c = true) :
    trimWs (collapseWs s) = [] := by
  rw [trimWs_collapseWs, wordsOf_all_space h]
  rfl

theorem normLine_nomatch (ctx : NormCtx) (st : NormState) {line : List Char}
    (h : taskLineMatch line = none) : normLine ctx st line = (none, st) := by
  unfold normLine
  rw [h]

theorem normLine_match (ctx : NormCtx) (st : NormState) {line : List Char} {lm : LineMatch}
    (h : taskLineMatch line = some lm) :
    normLine ctx st line =
      (if (stripAndCollectMeta lm.body).1.isEmpty then (none, st)
       else
         (if lm.pfx ++ prioRender lm.priority ++ (stripAndCollectMeta lm.body).1 ++
              buildMetaSuffix (normAssign ctx st (stripAndCollectMeta lm.body).2
                (decide (lc lm.box = 'x'))).1 = line
          then none
          else some (lm.pfx ++ prioRender lm.priority ++ (stripAndCollectMeta lm.body).1 ++
            buildMetaSuffix (normAssign ctx st (stripAndCollectMeta lm.body).2
              (decide (lc lm.box = 'x'))).1),
          (normAssign ctx st (stripAndCollectMeta lm.body).2
            (decide (lc lm.box = 'x'))).2)) := by
  unfold normLine
  rw [h]

/-- The document line after one normalization step is always the rebuilt
line, whether or not an edit was emitted. -/
theorem norm_out_getD {normalized L : List Char} :
    ((if normalized = L then none else some normalized) : Option (List Char)).getD L
      = normalized := by
  split
  · rename_i h
    simp [h]
  · simp

/-- A truthy id field makes the rendered parts nonempty. -/
theorem metaParts_ne_of_truthy_id {m : TaskMeta} (hid : truthy m.id = true) :
    metaParts m ≠ [] := by
  rcases hidv : m.id with _ | v
  · rw [hidv] at hid
    simp [truthy] at hid
  · have hvne : v.isEmpty = false := by
      rw [hidv] at hid
      simpa [truthy] using hid
    unfold metaParts
    rw [hidv]
    simp [hvne]

theorem metaParts_map_ne {m : TaskMeta} (hid : truthy m.id = true) :
    (metaParts m).map (fun t => renderTok t.1 t.2) ≠ [] := by
  simp [metaParts_ne_of_truthy_id hid]

/-- With a truthy id the metadata suffix is one space followed by the
joined rendered parts. -/
theorem buildMetaSuffix_shape {m : TaskMeta} (hid : truthy m.id = true) :
    ∃ J, buildMetaSuffix m = ' ' :: J ∧
      J = joinWith ' ' ((metaParts m).map (fun t => renderTok t.1 t.2)) := by
  unfold buildMetaSuffix
  simp only []
  rw [if_neg (by simpa [List.isEmpty_iff] using metaParts_map_ne hid)]
  exact ⟨_, rfl, rfl⟩

/-- A line in rebuilt shape whose stripped body and metadata already
satisfy the laws is left unedited with the state untouched. -/
theorem normLine_fixpoint (ctx2 : NormCtx) (st2 : NormState) {line : List Char}
    {lm2 : LineMatch} (hm2 : taskLineMatch line = some lm2)
    {X2 : List Char} {m3 : TaskMeta}
    (hstrip2 : stripAndCollectMeta lm2.body = (X2, m3))
    (hXne : X2.isEmpty = false)
    (hid : truthy m3.id = true) (hcd : truthy m3.cd = true)
    (hdd : truthy m3.dd = decide (lc lm2.box = 'x'))
    (heqn : lm2.pfx ++ prioRender lm2.priority ++ X2 ++ buildMetaSuffix m3 = line) :
    normLine ctx2 st2 line = (none, st2) := by
  rw [normLine_match ctx2 st2 hm2]
  rw [hstrip2]
  simp only []
  rw [if_neg (by simp [hXne])]
  rw [normAssign_fixed ctx2 st2 hid hcd hdd]
  simp only []
  rw [if_pos heqn]

theorem norm_out_getD_pair {normalized L : List Char} {s : NormState} :
    (((if normalized = L then none else some normalized : Option (List Char)), s).1).getD L
      = normalized := norm_out_getD

/-- One normalization pass is idempotent per line: whatever the contexts
and states of the two passes, the second pass leaves the rebuilt line
unchanged and does not touch its state. -/
theorem normLine_idem (ctx ctx2 : NormCtx) (st st2 : NormState) (L : List Char)
    (hsd : ValueGood ctx.sourceDate) (htd : ValueGood ctx.today)
    (hfb : ∀ i, ValueGood (processFallback (ctx.fbs i))) :
    normLine ctx2 st2 ((normLine ctx st L).1.getD L) = (none, st2) := by
  cases hm : taskLineMatch L with
  | none =>
    rw [normLine_nomatch ctx st hm]
    show normLine ctx2 st2 L = (none, st2)
    exact normLine_nomatch ctx2 st2 hm
  | some lm =>
    rw [normLine_match ctx st hm]
    by_cases hemp : (stripAndCollectMeta lm.body).1.isEmpty = true
    · rw [if_pos hemp]
      show normLine ctx2 st2 L = (none, st2)
      rw [normLine_match ctx2 st2 hm, if_pos hemp]
    · rw [if_neg hemp]
      rw [norm_out_getD_pair]
      -- Facts about the cleaned text.
      have hkept := scanMeta_kept_clean false lm.body
      have hcdef : (stripAndCollectMeta lm.body).1 =
          trimWs (collapseWs ((scanMeta false lm.body).2)) := rfl
      have hwords : (stripAndCollectMeta lm.body).1 =
          joinWith ' ' (wordsOf ((scanMeta false lm.body).2)) := by
        rw [hcdef, trimWs_collapseWs]
      have hwf : ∀ w ∈ wordsOf ((scanMeta false lm.body).2),
          w ≠ [] ∧ ∀ c ∈ w, isSpaceChar c = false := fun w hw => wordsOf_wf hw
      have hcleanclean : scanMeta false ((stripAndCollectMeta lm.body).1) =
          ([], (stripAndCollectMeta lm.body).1) := by
        rw [hcdef]
        exact trimWs_collapseWs_clean hkept
      have hcleannorm : trimWs (collapseWs ((stripAndCollectMeta lm.body).1)) =
          (stripAndCollectMeta lm.body).1 := by
        rw [hwords]
        exact trimWs_collapseWs_join hwf
      have hwclean : ∀ w ∈ wordsOf ((scanMeta false lm.body).2),
          scanMeta false w = ([], w) :=
        scanMeta_clean_words _ hkept
      have hcne : (stripAndCollectMeta lm.body).1 ≠ [] := by
        intro hcon
        rw [hcon] at hemp
        simp at hemp
      have hWne : wordsOf ((scanMeta false lm.body).2) ≠ [] := by
        intro hcon
        apply hcne
        rw [hwords, hcon]
        rfl
      obtain ⟨c0, t0, hc0eq, hc0ns⟩ : ∃ c t, (stripAndCollectMeta lm.body).1 = c :: t ∧
          isSpaceChar c = false := by
        rw [hwords]
        exact joinWith_head_shape hwf hWne
      -- Facts about the normalized metadata.
      obtain ⟨hm3good, hid3, hcd3, hdd3⟩ :=
        normAssign_props ctx st (stripAndCollectMeta lm.body).2 (decide (lc lm.box = 'x'))
          (stripAndCollectMeta_good lm.body) hsd htd hfb
      obtain ⟨J, hsuf, hJdef⟩ := buildMetaSuffix_shape hid3
      have hJwf := metaParts_map_wf (metaParts_values_good hm3good)
      have hmapne := metaParts_map_ne hid3
      obtain ⟨cJ, tJ, hJc, hJcns⟩ : ∃ c t, J = c :: t ∧ isSpaceChar c = false := by
        rw [hJdef]
        exact joinWith_head_shape hJwf hmapne
      have hJtrim : trimRightWs J = J := by
        rw [hJdef]
        exact trimRightWs_joinWith hJwf
      have hXne : (stripAndCollectMeta lm.body).1.isEmpty = false := by
        simpa using hemp
      have hstripC := strip_clean_suffix hcleannorm hcleanclean hm3good
      have hrtC : rtrimBody ((stripAndCollectMeta lm.body).1 ++
          buildMetaSuffix (normAssign ctx st (stripAndCollectMeta lm.body).2
            (decide (lc lm.box = 'x'))).1) =
          (stripAndCollectMeta lm.body).1 ++
          buildMetaSuffix (normAssign ctx st (stripAndCollectMeta lm.body).2
            (decide (lc lm.box = 'x'))).1 := by
        apply rtrimBody_eq_self
        · apply trimRightWs_append_suffix (metaParts_values_good hm3good)
          rw [hwords]
          exact trimRightWs_joinWith hwf
        · simp [hcne]
      -- The shape of the original match.
      obtain ⟨ws1, ws2, ws3, hws1, hws2, hws2n, hws3, hbox, hpfx, hprange⟩ :=
        taskLineMatch_shape hm
      cases hprio : lm.priority with
      | some p =>
        have hpr := hprange p hprio
        have hTg : lm.pfx ++ prioRender (some p) ++ (stripAndCollectMeta lm.body).1 ++
            buildMetaSuffix (normAssign ctx st (stripAndCollectMeta lm.body).2
              (decide (lc lm.box = 'x'))).1 =
            ws1 ++ '-' :: (ws2 ++ '[' :: lm.box :: ']' :: (ws3 ++
              ('(' :: p :: ')' :: ' ' :: ((stripAndCollectMeta lm.body).1 ++
                buildMetaSuffix (normAssign ctx st (stripAndCollectMeta lm.body).2
                  (decide (lc lm.box = 'x'))).1)))) := by
          rw [hpfx]
          simp [prioRender]
        rw [hTg]
        have hbuild := taskLineMatch_build hws1 hws2 hws2n hws3 hbox
          (rfl : '(' :: p :: ')' :: ' ' :: ((stripAndCollectMeta lm.body).1 ++
            buildMetaSuffix (normAssign ctx st (stripAndCollectMeta lm.body).2
              (decide (lc lm.box = 'x'))).1) = '(' :: (p :: ')' :: ' ' ::
            ((stripAndCollectMeta lm.body).1 ++
            buildMetaSuffix (normAssign ctx st (stripAndCollectMeta lm.body).2
              (decide (lc lm.box = 'x'))).1))) (by decide)
        have htp := tryPriority_paren_more hpr.1 hpr.2
          (show (stripAndCollectMeta lm.body).1 ++
            buildMetaSuffix (normAssign ctx st (stripAndCollectMeta lm.body).2
              (decide (lc lm.box = 'x'))).1 = c0 :: (t0 ++
            buildMetaSuffix (normAssign ctx st (stripAndCollectMeta lm.body).2
              (decide (lc lm.box = 'x'))).1) by rw [hc0eq]; rfl) hc0ns
        rw [htp] at hbuild
        simp only [] at hbuild
        rw [hrtC] at hbuild
        apply normLine_fixpoint ctx2 st2 hbuild hstripC hXne hid3 hcd3 hdd3
        simp [prioRender]
      | none =>
        -- The word decomposition of the cleaned text decides the
        -- priority re-match.
        rcases hwsl : wordsOf ((scanMeta false lm.body).2) with _ | ⟨w1, wsrest⟩
        · exact absurd hwsl hWne
        have hw1wf : w1 ≠ [] ∧ ∀ c ∈ w1, isSpaceChar c = false := by
          apply hwf
          rw [hwsl]
          simp
        by_cases hP : ∃ p0, w1 = ['(', p0, ')'] ∧ 'A' ≤ p0 ∧ p0 ≤ 'Z'
        · obtain ⟨p0, hw1, hA, hZ⟩ := hP
          rcases wsrest with _ | ⟨w2, wsrest2⟩
          · -- cleaned is exactly the priority word: the tail is only
            -- metadata, whose re-strip is blank, so the line is skipped.
            have hCw1 : (stripAndCollectMeta lm.body).1 = ['(', p0, ')'] := by
              rw [hwords, hwsl, hw1]
              rfl
            have hTg : lm.pfx ++ prioRender none ++ (stripAndCollectMeta lm.body).1 ++
                buildMetaSuffix (normAssign ctx st (stripAndCollectMeta lm.body).2
                  (decide (lc lm.box = 'x'))).1 =
                ws1 ++ '-' :: (ws2 ++ '[' :: lm.box :: ']' :: (ws3 ++
                  ('(' :: p0 :: ')' :: ' ' :: J))) := by
              rw [hpfx, hCw1, hsuf]
              simp [prioRender]
            rw [hTg]
            have hbuild := taskLineMatch_build hws1 hws2 hws2n hws3 hbox
              (rfl : '(' :: p0 :: ')' :: ' ' :: J = '(' :: (p0 :: ')' :: ' ' :: J)) (by decide)
            have htp := tryPriority_paren_more hA hZ hJc hJcns
            rw [htp] at hbuild
            simp only [] at hbuild
            have hrtJ : rtrimBody J = J := by
              apply rtrimBody_eq_self hJtrim
              rw [hJc]
              simp
            rw [hrtJ] at hbuild
            rw [normLine_match ctx2 st2 hbuild]
            have hstripJ : (stripAndCollectMeta J).1 = [] := by
              unfold stripAndCollectMeta
              simp only []
              rw [hJdef, scanMeta_parts (metaParts_values_good hm3good)]
              apply trimWs_collapseWs_spaces
              intro c hc
              rw [List.eq_of_mem_replicate hc]
              rfl
            rw [if_pos (by simp only []; rw [hstripJ]; rfl)]
          · -- Priority word followed by more words: the re-match shifts
            -- the marker out of the body and rebuilds the same line.
            have hCsplit : (stripAndCollectMeta lm.body).1 =
                ['(', p0, ')'] ++ ' ' :: joinWith ' ' (w2 :: wsrest2) := by
              rw [hwords, hwsl, hw1]
              rfl
            have hwfrest : ∀ w ∈ w2 :: wsrest2,
                w ≠ [] ∧ ∀ c ∈ w, isSpaceChar c = false := by
              intro w hw
              apply hwf
              rw [hwsl]
              simp [hw]
            have hrestne : joinWith ' ' (w2 :: wsrest2) ≠ [] :=
              joinWith_ne_nil (by simp) (fun w hw => (hwfrest w hw).1)
            obtain ⟨cR, tR, hRc, hRcns⟩ : ∃ c t, joinWith ' ' (w2 :: wsrest2) = c :: t ∧
                isSpaceChar c = false := joinWith_head_shape hwfrest (by simp)
            have hTg : lm.pfx ++ prioRender none ++ (stripAndCollectMeta lm.body).1 ++
                buildMetaSuffix (normAssign ctx st (stripAndCollectMeta lm.body).2
                  (decide (lc lm.box = 'x'))).1 =
                ws1 ++ '-' :: (ws2 ++ '[' :: lm.box :: ']' :: (ws3 ++
                  ('(' :: p0 :: ')' :: ' ' :: (joinWith ' ' (w2 :: wsrest2) ++
                    buildMetaSuffix (normAssign ctx st (stripAndCollectMeta lm.body).2
                      (decide (lc lm.box = 'x'))).1)))) := by
              rw [hpfx, hCsplit]
              simp [prioRender]
            rw [hTg]
            have hbuild := taskLineMatch_build hws1 hws2 hws2n hws3 hbox
              (rfl : '(' :: p0 :: ')' :: ' ' :: (joinWith ' ' (w2 :: wsrest2) ++
                buildMetaSuffix (normAssign ctx st (stripAndCollectMeta lm.body).2
                  (decide (lc lm.box = 'x'))).1) = '(' :: (p0 :: ')' :: ' ' ::
                (joinWith ' ' (w2 :: wsrest2) ++
                buildMetaSuffix (normAssign ctx st (stripAndCollectMeta lm.body).2
                  (decide (lc lm.box = 'x'))).1))) (by decide)
            have htp := tryPriority_paren_more hA hZ
              (show joinWith ' ' (w2 :: wsrest2) ++
                buildMetaSuffix (normAssign ctx st (stripAndCollectMeta lm.body).2
                  (decide (lc lm.box = 'x'))).1 = cR :: (tR ++
                buildMetaSuffix (normAssign ctx st (stripAndCollectMeta lm.body).2
                  (decide (lc lm.box = 'x'))).1) by rw [hRc]; rfl) hRcns
            rw [htp] at hbuild
            simp only [] at hbuild
            have hrtR : rtrimBody (joinWith ' ' (w2 :: wsrest2) ++
                buildMetaSuffix (normAssign ctx st (stripAndCollectMeta lm.body).2
                  (decide (lc lm.box = 'x'))).1) =
                joinWith ' ' (w2 :: wsrest2) ++
                buildMetaSuffix (normAssign ctx st (stripAndCollectMeta lm.body).2
                  (decide (lc lm.box = 'x'))).1 := by
              apply rtrimBody_eq_self
              · exact trimRightWs_append_suffix (metaParts_values_good hm3good)
                  (trimRightWs_joinWith hwfrest)
              · simp [hrestne]
            rw [hrtR] at hbuild
            have hstripR := strip_clean_suffix (trimWs_collapseWs_join hwfrest)
              (scanMeta_joinWith_clean (fun w hw => ⟨(hwfrest w hw).1, (hwfrest w hw).2,
                hwclean w (by rw [hwsl]; simp [hw])⟩)) hm3good
            apply normLine_fixpoint ctx2 st2 hbuild hstripR
              (by simpa [List.isEmpty_iff] using hrestne) hid3 hcd3 hdd3
            simp [prioRender]
        · -- No in-range priority word: the re-match keeps the whole
          -- cleaned text as the body.
          have hshapeneg : ∀ p, w1 = ['(', p, ')'] → ¬('A' ≤ p ∧ p ≤ 'Z') :=
            fun p hw hr => hP ⟨p, hw, hr⟩
          have hTg : lm.pfx ++ prioRender none ++ (stripAndCollectMeta lm.body).1 ++
              buildMetaSuffix (normAssign ctx st (stripAndCollectMeta lm.body).2
                (decide (lc lm.box = 'x'))).1 =
              ws1 ++ '-' :: (ws2 ++ '[' :: lm.box :: ']' :: (ws3 ++
                ((stripAndCollectMeta lm.body).1 ++
                  buildMetaSuffix (normAssign ctx st (stripAndCollectMeta lm.body).2
                    (decide (lc lm.box = 'x'))).1))) := by
            rw [hpfx]
            simp [prioRender]
          rw [hTg]
          have hbuild := taskLineMatch_build hws1 hws2 hws2n hws3 hbox
            (show (stripAndCollectMeta lm.body).1 ++
              buildMetaSuffix (normAssign ctx st (stripAndCollectMeta lm.body).2
                (decide (lc lm.box = 'x'))).1 = c0 :: (t0 ++
              buildMetaSuffix (normAssign ctx st (stripAndCollectMeta lm.body).2
                (decide (lc lm.box = 'x'))).1) by rw [hc0eq]; rfl) hc0ns
          have htpn : tryPriority ((stripAndCollectMeta lm.body).1 ++
              buildMetaSuffix (normAssign ctx st (stripAndCollectMeta lm.body).2
                (decide (lc lm.box = 'x'))).1) = none := by
            rcases wsrest with _ | ⟨w2, wsrest2⟩
            · have hCw1 : (stripAndCollectMeta lm.body).1 = w1 := by
                rw [hwords, hwsl]
                rfl
              rw [hCw1, hsuf]
              exact tryPriority_none_word hw1wf.1 hw1wf.2 hshapeneg (Or.inr ⟨J, rfl⟩)
            · have hCsp : (stripAndCollectMeta lm.body).1 =
                  w1 ++ ' ' :: joinWith ' ' (w2 :: wsrest2) := by
                rw [hwords, hwsl]
                rfl
              rw [show (stripAndCollectMeta lm.body).1 ++
                  buildMetaSuffix (normAssign ctx st (stripAndCollectMeta lm.body).2
                    (decide (lc lm.box = 'x'))).1 =
                  w1 ++ (' ' :: (joinWith ' ' (w2 :: wsrest2) ++
                    buildMetaSuffix (normAssign ctx st (stripAndCollectMeta lm.body).2
                      (decide (lc lm.box = 'x'))).1)) by rw [hCsp]; simp]
              exact tryPriority_none_word hw1wf.1 hw1wf.2 hshapeneg
                (Or.inr ⟨joinWith ' ' (w2 :: wsrest2) ++
                  buildMetaSuffix (normAssign ctx st (stripAndCollectMeta lm.body).2
                    (decide (lc lm.box = 'x'))).1, rfl⟩)
          rw [htpn] at hbuild
          simp only [] at hbuild
          rw [hrtC] at hbuild
          apply normLine_fixpoint ctx2 st2 hbuild hstripC hXne hid3 hcd3 hdd3
          simp [prioRender]

theorem normLinesGo_nil (ctx : NormCtx) (st : NormState) :
    normLinesGo ctx st [] = ([], st) := rfl

theorem normLinesGo_cons (ctx : NormCtx) (st : NormState) (l : List Char)
    (ls : List (List Char)) :
    normLinesGo ctx st (l :: ls) =
      ((normLine ctx st l).1 :: (normLinesGo ctx (normLine ctx st l).2 ls).1,
       (normLinesGo ctx (normLine ctx st l).2 ls).2) := rfl

/-- A second pass over the rebuilt lines emits no replacement on any
line and leaves its state untouched. -/
theorem normLinesGo_idem (ctx ctx2 : NormCtx) (st2 : NormState)
    (hsd : ValueGood ctx.sourceDate) (htd : ValueGood ctx.today)
    (hfb : ∀ i, ValueGood (processFallback (ctx.fbs i))) :
    ∀ (ls : List (List Char)) (st : NormState),
      normLinesGo ctx2 st2
          (List.zipWith (fun l o => o.getD l) ls (normLinesGo ctx st ls).1)
        = (List.replicate ls.length none, st2) := by
  intro ls
  induction ls with
  | nil =>
    intro st
    simp [normLinesGo_nil]
  | cons l ls ih =>
    intro st
    rw [normLinesGo_cons ctx st l ls]
    simp only []
    rw [List.zipWith_cons_cons]
    rw [normLinesGo_cons ctx2 st2]
    rw [normLine_idem ctx ctx2 st st2 l hsd htd hfb]
    simp only []
    rw [ih (normLine ctx st l).2]
    simp [List.replicate_succ]

theorem collectEdits_replicate_none : ∀ (n i : Nat),
    collectEdits i (List.replicate n none) = [] := by
  intro n
  induction n with
  | zero =>
    intro i
    rfl
  | succ n ih =>
    intro i
    rw [List.replicate_succ]
    exact ih (i + 1)

theorem assignId_fst_of_truthy {ctx : NormCtx} {st : NormState} {m : TaskMeta}
    (h : truthy m.id = true) : (assignId ctx st m).1 = m := by
  unfold assignId
  rw [if_pos h]

theorem assignId_cd (ctx : NormCtx) (st : NormState) (m : TaskMeta) :
    (assignId ctx st m).1.cd = m.cd := by
  unfold assignId
  split <;> rfl

theorem assignId_due (ctx : NormCtx) (st : NormState) (m : TaskMeta) :
    (assignId ctx st m).1.due = m.due := by
  unfold assignId
  split <;> rfl

theorem assignCd_id (sd : List Char) (m : TaskMeta) : (assignCd sd m).id = m.id := by
  unfold assignCd
  split <;> rfl

theorem assignCd_due (sd : List Char) (m : TaskMeta) : (assignCd sd m).due = m.due := by
  unfold assignCd
  split <;> rfl

theorem assignCd_cd_of_truthy {sd : List Char} {m : TaskMeta}
    (h : truthy m.cd = true) : (assignCd sd m).cd = m.cd := by
  unfold assignCd
  rw [if_pos h]

theorem assignDd_id (td : List Char) (c : Bool) (m : TaskMeta) :
    (assignDd td c m).id = m.id := by
  unfold assignDd
  cases c <;> split <;> split <;> rfl

theorem assignDd_cd (td : List Char) (c : Bool) (m : TaskMeta) :
    (assignDd td c m).cd = m.cd := by
  unfold assignDd
  cases c <;> split <;> split <;> rfl

theorem assignDd_due (td : List Char) (c : Bool) (m : TaskMeta) :
    (assignDd td c m).due = m.due := by
  unfold assignDd
  cases c <;> split <;> split <;> rfl

/-- An existing id is never rewritten by the metadata-law step. -/
theorem normAssign_id_frame {ctx : NormCtx} {st : NormState} {m : TaskMeta} {c : Bool}
    (h : truthy m.id = true) : (normAssign ctx st m c).1.id = m.id := by
  unfold normAssign
  simp only []
  rw [assignDd_id, assignCd_id, assignId_fst_of_truthy h]

/-- An existing cd is never reassigned by the metadata-law step. -/
theorem normAssign_cd_frame {ctx : NormCtx} {st : NormState} {m : TaskMeta} {c : Bool}
    (h : truthy m.cd = true) : (normAssign ctx st m c).1.cd = m.cd := by
  unfold normAssign
  simp only []
  rw [assignDd_cd, assignCd_cd_of_truthy (by rw [assignId_cd]; exact h), assignId_cd]

/-- The due field passes through the metadata-law step untouched. -/
theorem normAssign_due_frame (ctx : NormCtx) (st : NormState) (m : TaskMeta) (c : Bool) :
    (normAssign ctx st m c).1.due = m.due := by
  unfold normAssign
  simp only []
  rw [assignDd_due, assignCd_due, assignId_due]

/-- The output line of one normalization step parses again as a task
line with the same checkbox, and the metadata it carries decodes to
exactly the record produced by the metadata-law step. -/
theorem normLine_out_reparse (ctx : NormCtx) (st : NormState) (L : List Char)
    (hsd : ValueGood ctx.sourceDate) (htd : ValueGood ctx.today)
    (hfb : ∀ i, ValueGood (processFallback (ctx.fbs i)))
    {lm : LineMatch} (hm : taskLineMatch L = some lm)
    (hcne : (stripAndCollectMeta lm.body).1 ≠ []) :
    ∃ lm2, taskLineMatch ((normLine ctx st L).1.getD L) = some lm2 ∧ lm2.box = lm.box ∧
      (stripAndCollectMeta lm2.body).2 =
        (normAssign ctx st (stripAndCollectMeta lm.body).2 (decide (lc lm.box = 'x'))).1 := by
  have hemp : ¬(stripAndCollectMeta lm.body).1.isEmpty = true :=
    fun h => hcne (List.isEmpty_iff.mp h)
  rw [normLine_match ctx st hm]
  rw [if_neg hemp]
  rw [norm_out_getD_pair]
  have hkept := scanMeta_kept_clean false lm.body
  have hcdef : (stripAndCollectMeta lm.body).1 =
      trimWs (collapseWs ((scanMeta false lm.body).2)) := rfl
  have hwords : (stripAndCollectMeta lm.body).1 =
      joinWith ' ' (wordsOf ((scanMeta false lm.body).2)) := by
    rw [hcdef, trimWs_collapseWs]
  have hwf : ∀ w ∈ wordsOf ((scanMeta false lm.body).2),
      w ≠ [] ∧ ∀ c ∈ w, isSpaceChar c = false := fun w hw => wordsOf_wf hw
  have hcleanclean : scanMeta false ((stripAndCollectMeta lm.body).1) =
      ([], (stripAndCollectMeta lm.body).1) := by
    rw [hcdef]
    exact trimWs_collapseWs_clean hkept
  have hcleannorm : trimWs (collapseWs ((stripAndCollectMeta lm.body).1)) =
      (stripAndCollectMeta lm.body).1 := by
    rw [hwords]
    exact trimWs_collapseWs_join hwf
  have hwclean : ∀ w ∈ wordsOf ((scanMeta false lm.body).2),
      scanMeta false w = ([], w) :=
    scanMeta_clean_words _ hkept
  have hWne : wordsOf ((scanMeta false lm.body).2) ≠ [] := by
    intro hcon
    apply hcne
    rw [hwords, hcon]
    rfl
  obtain ⟨c0, t0, hc0eq, hc0ns⟩ : ∃ c t, (stripAndCollectMeta lm.body).1 = c :: t ∧
      isSpaceChar c = false := by
    rw [hwords]
    exact joinWith_head_shape hwf hWne
  obtain ⟨hm3good, hid3, hcd3, hdd3⟩ :=
    normAssign_props ctx st (stripAndCollectMeta lm.body).2 (decide (lc lm.box = 'x'))
      (stripAndCollectMeta_good lm.body) hsd htd hfb
  obtain ⟨J, hsuf, hJdef⟩ := buildMetaSuffix_shape hid3
  have hJwf := metaParts_map_wf (metaParts_values_good hm3good)
  have hmapne := metaParts_map_ne hid3
  obtain ⟨cJ, tJ, hJc, hJcns⟩ : ∃ c t, J = c :: t ∧ isSpaceChar c = false := by
    rw [hJdef]
    exact joinWith_head_shape hJwf hmapne
  have hJtrim : trimRightWs J = J := by
    rw [hJdef]
    exact trimRightWs_joinWith hJwf
  have hstripC := strip_clean_suffix hcleannorm hcleanclean hm3good
  have hrtC : rtrimBody ((stripAndCollectMeta lm.body).1 ++
      buildMetaSuffix (normAssign ctx st (stripAndCollectMeta lm.body).2
        (decide (lc lm.box = 'x'))).1) =
      (stripAndCollectMeta lm.body).1 ++
      buildMetaSuffix (normAssign ctx st (stripAndCollectMeta lm.body).2
        (decide (lc lm.box = 'x'))).1 := by
    apply rtrimBody_eq_self
    · apply trimRightWs_append_suffix (metaParts_values_good hm3good)
      rw [hwords]
      exact trimRightWs_joinWith hwf
    · simp [hcne]
  obtain ⟨ws1, ws2, ws3, hws1, hws2, hws2n, hws3, hbox, hpfx, hprange⟩ :=
    taskLineMatch_shape hm
  cases hprio : lm.priority with
  | some p =>
    have hpr := hprange p hprio
    have hTg : lm.pfx ++ prioRender (some p) ++ (stripAndCollectMeta lm.body).1 ++
        buildMetaSuffix (normAssign ctx st (stripAndCollectMeta lm.body).2
          (decide (lc lm.box = 'x'))).1 =
        ws1 ++ '-' :: (ws2 ++ '[' :: lm.box :: ']' :: (ws3 ++
          ('(' :: p :: ')' :: ' ' :: ((stripAndCollectMeta lm.body).1 ++
            buildMetaSuffix (normAssign ctx st (stripAndCollectMeta lm.body).2
              (decide (lc lm.box = 'x'))).1)))) := by
      rw [hpfx]
      simp [prioRender]
    rw [hTg]
    have hbuild := taskLineMatch_build hws1 hws2 hws2n hws3 hbox
      (rfl : '(' :: p :: ')' :: ' ' :: ((stripAndCollectMeta lm.body).1 ++
        buildMetaSuffix (normAssign ctx st (stripAndCollectMeta lm.body).2
          (decide (lc lm.box = 'x'))).1) = '(' :: (p :: ')' :: ' ' ::
        ((stripAndCollectMeta lm.body).1 ++
        buildMetaSuffix (normAssign ctx st (stripAndCollectMeta lm.body).2
          (decide (lc lm.box = 'x'))).1))) (by decide)
    have htp := tryPriority_paren_more hpr.1 hpr.2
      (show (stripAndCollectMeta lm.body).1 ++
        buildMetaSuffix (normAssign ctx st (stripAndCollectMeta lm.body).2
          (decide (lc lm.box = 'x'))).1 = c0 :: (t0 ++
        buildMetaSuffix (normAssign ctx st (stripAndCollectMeta lm.body).2
          (decide (lc lm.box = 'x'))).1) by rw [hc0eq]; rfl) hc0ns
    rw [htp] at hbuild
    simp only [] at hbuild
    rw [hrtC] at hbuild
    refine ⟨_, hbuild, rfl, ?_⟩
    simp only []
    rw [hstripC]
  | none =>
    rcases hwsl : wordsOf ((scanMeta false lm.body).2) with _ | ⟨w1, wsrest⟩
    · exact absurd hwsl hWne
    have hw1wf : w1 ≠ [] ∧ ∀ c ∈ w1, isSpaceChar c = false := by
      apply hwf
      rw [hwsl]
      simp
    by_cases hP : ∃ p0, w1 = ['(', p0, ')'] ∧ 'A' ≤ p0 ∧ p0 ≤ 'Z'
    · obtain ⟨p0, hw1, hA, hZ⟩ := hP
      rcases wsrest with _ | ⟨w2, wsrest2⟩
      · have hCw1 : (stripAndCollectMeta lm.body).1 = ['(', p0, ')'] := by
          rw [hwords, hwsl, hw1]
          rfl
        have hTg : lm.pfx ++ prioRender none ++ (stripAndCollectMeta lm.body).1 ++
            buildMetaSuffix (normAssign ctx st (stripAndCollectMeta lm.body).2
              (decide (lc lm.box = 'x'))).1 =
            ws1 ++ '-' :: (ws2 ++ '[' :: lm.box :: ']' :: (ws3 ++
              ('(' :: p0 :: ')' :: ' ' :: J))) := by
          rw [hpfx, hCw1, hsuf]
          simp [prioRender]
        rw [hTg]
        have hbuild := taskLineMatch_build hws1 hws2 hws2n hws3 hbox
          (rfl : '(' :: p0 :: ')' :: ' ' :: J = '(' :: (p0 :: ')' :: ' ' :: J)) (by decide)
        have htp := tryPriority_paren_more hA hZ hJc hJcns
        rw [htp] at hbuild
        simp only [] at hbuild
        have hrtJ : rtrimBody J = J := by
          apply rtrimBody_eq_self hJtrim
          rw [hJc]
          simp
        rw [hrtJ] at hbuild
        refine ⟨_, hbuild, rfl, ?_⟩
        simp only []
        unfold stripAndCollectMeta
        simp only []
        rw [hJdef, scanMeta_parts (metaParts_values_good hm3good)]
        have hfield := MetaGood_ne_nilval hm3good
        exact metaParts_foldl hfield.1 hfield.2.1 hfield.2.2.1 hfield.2.2.2
      · have hCsplit : (stripAndCollectMeta lm.body).1 =
            ['(', p0, ')'] ++ ' ' :: joinWith ' ' (w2 :: wsrest2) := by
          rw [hwords, hwsl, hw1]
          rfl
        have hwfrest : ∀ w ∈ w2 :: wsrest2,
            w ≠ [] ∧ ∀ c ∈ w, isSpaceChar c = false := by
          intro w hw
          apply hwf
          rw [hwsl]
          simp [hw]
        have hrestne : joinWith ' ' (w2 :: wsrest2) ≠ [] :=
          joinWith_ne_nil (by simp) (fun w hw => (hwfrest w hw).1)
        obtain ⟨cR, tR, hRc, hRcns⟩ : ∃ c t, joinWith ' ' (w2 :: wsrest2) = c :: t ∧
            isSpaceChar c = false := joinWith_head_shape hwfrest (by simp)
        have hTg : lm.pfx ++ prioRender none ++ (stripAndCollectMeta lm.body).1 ++
            buildMetaSuffix (normAssign ctx st (stripAndCollectMeta lm.body).2
              (decide (lc lm.box = 'x'))).1 =
            ws1 ++ '-' :: (ws2 ++ '[' :: lm.box :: ']' :: (ws3 ++
              ('(' :: p0 :: ')' :: ' ' :: (joinWith ' ' (w2 :: wsrest2) ++
                buildMetaSuffix (normAssign ctx st (stripAndCollectMeta lm.body).2
                  (decide (lc lm.box = 'x'))).1)))) := by
          rw [hpfx, hCsplit]
          simp [prioRender]
        rw [hTg]
        have hbuild := taskLineMatch_build hws1 hws2 hws2n hws3 hbox
          (rfl : '(' :: p0 :: ')' :: ' ' :: (joinWith ' ' (w2 :: wsrest2) ++
            buildMetaSuffix (normAssign ctx st (stripAndCollectMeta lm.body).2
              (decide (lc lm.box = 'x'))).1) = '(' :: (p0 :: ')' :: ' ' ::
            (joinWith ' ' (w2 :: wsrest2) ++
            buildMetaSuffix (normAssign ctx st (stripAndCollectMeta lm.body).2
              (decide (lc lm.box = 'x'))).1))) (by decide)
        have htp := tryPriority_paren_more hA hZ
          (show joinWith ' ' (w2 :: wsrest2) ++
            buildMetaSuffix (normAssign ctx st (stripAndCollectMeta lm.body).2
              (decide (lc lm.box = 'x'))).1 = cR :: (tR ++
            buildMetaSuffix (normAssign ctx st (stripAndCollectMeta lm.body).2
              (decide (lc lm.box = 'x'))).1) by rw [hRc]; rfl) hRcns
        rw [htp] at hbuild
        simp only [] at hbuild
        have hrtR : rtrimBody (joinWith ' ' (w2 :: wsrest2) ++
            buildMetaSuffix (normAssign ctx st (stripAndCollectMeta lm.body).2
              (decide (lc lm.box = 'x'))).1) =
            joinWith ' ' (w2 :: wsrest2) ++
            buildMetaSuffix (normAssign ctx st (stripAndCollectMeta lm.body).2
              (decide (lc lm.box = 'x'))).1 := by
          apply rtrimBody_eq_self
          · exact trimRightWs_append_suffix (metaParts_values_good hm3good)
              (trimRightWs_joinWith hwfrest)
          · simp [hrestne]
        rw [hrtR] at hbuild
        have hstripR := strip_clean_suffix (trimWs_collapseWs_join hwfrest)
          (scanMeta_joinWith_clean (fun w hw => ⟨(hwfrest w hw).1, (hwfrest w hw).2,
            hwclean w (by rw [hwsl]; simp [hw])⟩)) hm3good
        refine ⟨_, hbuild, rfl, ?_⟩
        simp only []
        rw [hstripR]
    · have hshapeneg : ∀ p, w1 = ['(', p, ')'] → ¬('A' ≤ p ∧ p ≤ 'Z') :=
        fun p hw hr => hP ⟨p, hw, hr⟩
      have hTg : lm.pfx ++ prioRender none ++ (stripAndCollectMeta lm.body).1 ++
          buildMetaSuffix (normAssign ctx st (stripAndCollectMeta lm.body).2
            (decide (lc lm.box = 'x'))).1 =
          ws1 ++ '-' :: (ws2 ++ '[' :: lm.box :: ']' :: (ws3 ++
            ((stripAndCollectMeta lm.body).1 ++
              buildMetaSuffix (normAssign ctx st (stripAndCollectMeta lm.body).2
                (decide (lc lm.box = 'x'))).1))) := by
        rw [hpfx]
        simp [prioRender]
      rw [hTg]
      have hbuild := taskLineMatch_build hws1 hws2 hws2n hws3 hbox
        (show (stripAndCollectMeta lm.body).1 ++
          buildMetaSuffix (normAssign ctx st (stripAndCollectMeta lm.body).2
            (decide (lc lm.box = 'x'))).1 = c0 :: (t0 ++
          buildMetaSuffix (normAssign ctx st (stripAndCollectMeta lm.body).2
            (decide (lc lm.box = 'x'))).1) by rw [hc0eq]; rfl) hc0ns
      have htpn : tryPriority ((stripAndCollectMeta lm.body).1 ++
          buildMetaSuffix (normAssign ctx st (stripAndCollectMeta lm.body).2
            (decide (lc lm.box = 'x'))).1) = none := by
        rcases wsrest with _ | ⟨w2, wsrest2⟩
        · have hCw1 : (stripAndCollectMeta lm.body).1 = w1 := by
            rw [hwords, hwsl]
            rfl
          rw [hCw1, hsuf]
          exact tryPriority_none_word hw1wf.1 hw1wf.2 hshapeneg (Or.inr ⟨J, rfl⟩)
        · have hCsp : (stripAndCollectMeta lm.body).1 =
              w1 ++ ' ' :: joinWith ' ' (w2 :: wsrest2) := by
            rw [hwords, hwsl]
            rfl
          rw [show (stripAndCollectMeta lm.body).1 ++
              buildMetaSuffix (normAssign ctx st (stripAndCollectMeta lm.body).2
                (decide (lc lm.box = 'x'))).1 =
              w1 ++ (' ' :: (joinWith ' ' (w2 :: wsrest2) ++
                buildMetaSuffix (normAssign ctx st (stripAndCollectMeta lm.body).2
                  (decide (lc lm.box = 'x'))).1)) by rw [hCsp]; simp]
          exact tryPriority_none_word hw1wf.1 hw1wf.2 hshapeneg
            (Or.inr ⟨joinWith ' ' (w2 :: wsrest2) ++
              buildMetaSuffix (normAssign ctx st (stripAndCollectMeta lm.body).2
                (decide (lc lm.box = 'x'))).1, rfl⟩)
      rw [htpn] at hbuild
      simp only [] at hbuild
      rw [hrtC] at hbuild
      refine ⟨_, hbuild, rfl, ?_⟩
      simp only []
      rw [hstripC]

/-- The field of a metadata record selected by key. -/
def metaField (m : TaskMeta) : MetaKey → Option (List Char)
  | MetaKey.id => m.id
  | MetaKey.cd => m.cd
  | MetaKey.due => m.due
  | MetaKey.dd => m.dd

/-- The value of the last token with a given key in a token list. -/
def lastTokenValue (k : MetaKey) (toks : List (MetaKey × List Char)) :
    Option (List Char) :=
  ((toks.filter (fun t => t.1 = k)).map Prod.snd).getLast?

theorem applyToken_field (m : TaskMeta) (t : MetaKey × List Char) (k : MetaKey) :
    metaField (applyToken m t) k =
      if t.1 = k then some t.2 else metaField m k := by
  rcases t with ⟨tk, v⟩
  cases tk <;> cases k <;> simp [applyToken, metaField]

theorem foldl_applyToken_field : ∀ (toks : List (MetaKey × List Char)) (m : TaskMeta)
    (k : MetaKey), metaField (toks.foldl applyToken m) k =
      (match lastTokenValue k toks with
       | some v => some v
       | none => metaField m k) := by
  intro toks
  induction toks with
  | nil =>
    intro m k
    simp [lastTokenValue]
  | cons t ts ih =>
    intro m k
    rw [List.foldl_cons, ih]
    by_cases htk : t.1 = k
    · rw [show lastTokenValue k (t :: ts) =
        (t.2 :: (ts.filter (fun x => x.1 = k)).map Prod.snd).getLast? from by
          unfold lastTokenValue
          rw [List.filter_cons_of_pos (by simp [htk]), List.map_cons]]
      cases hlast : lastTokenValue k ts with
      | some v =>
        unfold lastTokenValue at hlast
        rcases hrest : (ts.filter (fun x => x.1 = k)).map Prod.snd with _ | ⟨x, xs⟩
        · rw [hrest] at hlast
          simp at hlast
        · rw [hrest] at hlast
          rw [hrest, List.getLast?_cons_cons, hlast]
      | none =>
        unfold lastTokenValue at hlast
        rw [List.getLast?_eq_none_iff] at hlast
        rw [hlast]
        simp only [List.getLast?_singleton]
        rw [applyToken_field, if_pos htk]
    · rw [show lastTokenValue k (t :: ts) = lastTokenValue k ts from by
        unfold lastTokenValue
        rw [List.filter_cons_of_neg (by simp [htk])]]
      cases hlast : lastTokenValue k ts with
      | some v =>
        rfl
      | none =>
        simp only []
        rw [applyToken_field, if_neg htk]

/-! ## Concrete evaluation helpers

The scan and the whitespace collapse are well-founded recursions, so
closed instances are evaluated once here through their unfolding
lemmas and shared by the concrete instantiations below. -/

theorem ship_clean : scanMeta false ("Ship".data) = ([], "Ship".data) := by
  rw [show ("Ship".data : List Char) = 'S' :: 'h' :: 'i' :: 'p' :: [] from rfl]
  rw [scanMeta_cons_none (by decide)]
  rw [show isWordChar 'S' = true from rfl, scanMeta_cons_true]
  rw [show isWordChar 'h' = true from rfl, scanMeta_cons_true]
  rw [show isWordChar 'i' = true from rfl, scanMeta_cons_true]
  rw [show isWordChar 'p' = true from rfl, scanMeta_nil]

theorem ship_norm : trimWs (collapseWs ("Ship".data)) = "Ship".data := by
  rw [show ("Ship".data : List Char) = 'S' :: 'h' :: 'i' :: 'p' :: [] from rfl]
  rw [collapseWs_cons_word (by decide), collapseWs_cons_word (by decide),
    collapseWs_cons_word (by decide), collapseWs_cons_word (by decide), collapseWs_nil]
  exact trimWs_nonspace (by decide) (by decide)

theorem meta_ab12_good : MetaGood { id := some ("ab12".data) } := by
  refine ⟨?_, ?_, ?_, ?_⟩ <;> intro v hv
  · simp only [Option.some.injEq] at hv
    rw [← hv]
    decide
  · exact Option.noConfusion hv
  · exact Option.noConfusion hv
  · exact Option.noConfusion hv

theorem strip_ship_id : stripAndCollectMeta ("Ship id:ab12".data) =
    ("Ship".data, { id := some ("ab12".data) }) := by
  rw [show ("Ship id:ab12".data : List Char) =
    "Ship".data ++ buildMetaSuffix { id := some ("ab12".data) } from by decide]
  exact strip_clean_suffix ship_norm ship_clean meta_ab12_good

theorem strip_ship_id_ne : (stripAndCollectMeta ("Ship id:ab12".data)).1 ≠ [] := by
  rw [strip_ship_id]
  decide

/-! ## The claims -/

/-- C1: Normalization is idempotent: for every document, running the
normalization pass on the result of a previous normalization pass
produces zero edits, whatever the second pass's context — provided the
first pass's context supplies well-formed dates and fallback
identifiers (nonempty, whitespace-free, ending in a word character, as
every real date string and UUID does). -/
theorem C1_normalization_idempotent (ctx ctx2 : NormCtx) (doc : List (List Char))
    (hsd : ValueGood ctx.sourceDate) (htd : ValueGood ctx.today)
    (hfb : ∀ i, ValueGood (processFallback (ctx.fbs i))) :
    computeTaskNormalizationEdits ctx2 (applyNormalize ctx doc) = [] := by
  unfold computeTaskNormalizationEdits applyNormalize
  rw [normLinesGo_idem ctx ctx2 _ hsd htd hfb doc (initState doc)]
  exact collectEdits_replicate_none doc.length 0

theorem C1_normalization_idempotent_witness :
    computeTaskNormalizationEdits
      { rand := fun _ => 1, fbs := fun _ => [], sourceDate := [], today := [] }
      (applyNormalize
        { rand := fun k => k + 7,
          fbs := fun _ => "0123e4af-9c2b-4d6e-8f1a-2b3c4d5e6f70".data,
          sourceDate := "2026-01-15".data, today := "2026-02-21".data }
        ["# Tasks".data, "- [x] Fix the parser cd:2026-01-10".data,
         "- [ ] (B) Review id:ab12 due:2026-03-01".data]) = [] :=
  C1_normalization_idempotent _ _ _ (by decide) (by decide) (fun _ => by
    show ValueGood (processFallback "0123e4af-9c2b-4d6e-8f1a-2b3c4d5e6f70".data)
    decide)

/-- C9: Frame property on existing metadata: for every task line that
the pass processes (a TASK_LINE_REGEX match with nonempty stripped
body), the rebuilt output line parses again, and its decoded metadata
keeps an existing id unchanged, keeps an existing cd unchanged, and
carries exactly the input's due value — due is only ever copied
through, never written, altered, or removed. -/
theorem C9_metadata_frame (ctx : NormCtx) (st : NormState) (L : List Char)
    (hsd : ValueGood ctx.sourceDate) (htd : ValueGood ctx.today)
    (hfb : ∀ i, ValueGood (processFallback (ctx.fbs i)))
    {lm : LineMatch} (hm : taskLineMatch L = some lm)
    (hcne : (stripAndCollectMeta lm.body).1 ≠ []) :
    ∃ lm2, taskLineMatch ((normLine ctx st L).1.getD L) = some lm2 ∧
      (truthy (stripAndCollectMeta lm.body).2.id = true →
        (stripAndCollectMeta lm2.body).2.id = (stripAndCollectMeta lm.body).2.id) ∧
      (truthy (stripAndCollectMeta lm.body).2.cd = true →
        (stripAndCollectMeta lm2.body).2.cd = (stripAndCollectMeta lm.body).2.cd) ∧
      (stripAndCollectMeta lm2.body).2.due = (stripAndCollectMeta lm.body).2.due := by
  obtain ⟨lm2, hparse, hbox2, hmeta⟩ := normLine_out_reparse ctx st L hsd htd hfb hm hcne
  refine ⟨lm2, hparse, ?_, ?_, ?_⟩
  · intro hid
    rw [hmeta]
    exact normAssign_id_frame hid
  · intro hcd
    rw [hmeta]
    exact normAssign_cd_frame hcd
  · rw [hmeta]
    exact normAssign_due_frame ctx st _ _

theorem C9_metadata_frame_witness :
    ∃ lm2, taskLineMatch
        ((normLine
          { rand := fun _ => 0, fbs := fun _ => "11111111-2222-3333-4444-555555555555".data,
            sourceDate := "2026-01-15".data, today := "2026-02-21".data }
          { existing := [], chunkIdx := 0, fbIdx := 0 }
          "- [x] Ship id:ab12".data).1.getD "- [x] Ship id:ab12".data) = some lm2 ∧
      (truthy (stripAndCollectMeta ("Ship id:ab12".data)).2.id = true →
        (stripAndCollectMeta lm2.body).2.id =
          (stripAndCollectMeta ("Ship id:ab12".data)).2.id) ∧
      (truthy (stripAndCollectMeta ("Ship id:ab12".data)).2.cd = true →
        (stripAndCollectMeta lm2.body).2.cd =
          (stripAndCollectMeta ("Ship id:ab12".data)).2.cd) ∧
      (stripAndCollectMeta lm2.body).2.due =
        (stripAndCollectMeta ("Ship id:ab12".data)).2.due :=
  @C9_metadata_frame
    { rand := fun _ => 0, fbs := fun _ => "11111111-2222-3333-4444-555555555555".data,
      sourceDate := "2026-01-15".data, today := "2026-02-21".data }
    { existing := [], chunkIdx := 0, fbIdx := 0 }
    ("- [x] Ship id:ab12".data) (by decide) (by decide)
    (fun _ => by
      show ValueGood (processFallback "11111111-2222-3333-4444-555555555555".data)
      decide)
    { pfx := "- [x] ".data, box := 'x', priority := none, body := "Ship id:ab12".data }
    (by decide) strip_ship_id_ne

theorem scan_dup_tokens_line : scanMeta false ("id:abc cd:2026-01-01".data) =
    ([(MetaKey.id, "abc".data), (MetaKey.cd, "2026-01-01".data)], [' ']) := by
  rw [show ("id:abc cd:2026-01-01".data : List Char) =
    joinWith ' ' (([((MetaKey.id : MetaKey), "abc".data),
      (MetaKey.cd, "2026-01-01".data)]).map (fun t => renderTok t.1 t.2)) from by decide]
  rw [scanMeta_parts (by
    intro p hp
    simp at hp
    rcases hp with rfl | rfl <;> decide)]
  decide

theorem strip_tokens_only : stripAndCollectMeta ("id:abc cd:2026-01-01".data) =
    ([], { id := some ("abc".data), cd := some ("2026-01-01".data) }) := by
  unfold stripAndCollectMeta
  rw [scan_dup_tokens_line]
  simp only []
  have hcol : collapseWs [' '] = [' '] := by
    rw [collapseWs_cons_space (by decide)]
    rw [show List.dropWhile isSpaceChar ([] : List Char) = [] from rfl]
    rw [collapseWs_nil]
  rw [hcol]
  decide

/-- C2 (counterexample): a completed task line whose body consists only
of metadata tokens strips to an empty cleaned text, so the pass skips
it; the normalized document still contains a completed task carrying no
dd token, refuting the claimed invariant over every task line of the
result. -/
theorem C2_counterexample :
    applyNormalize
      { rand := fun _ => 0, fbs := fun _ => [], sourceDate := [], today := [] }
      ["- [x] id:abc cd:2026-01-01".data] = ["- [x] id:abc cd:2026-01-01".data] ∧
    ∃ lm, taskLineMatch ("- [x] id:abc cd:2026-01-01".data) = some lm ∧
      lc lm.box = 'x' ∧ (stripAndCollectMeta lm.body).2.dd = none := by
  constructor
  · have hskip : ∀ st : NormState, normLine
        { rand := fun _ => 0, fbs := fun _ => [], sourceDate := [], today := [] }
        st ("- [x] id:abc cd:2026-01-01".data) = (none, st) := by
      intro st
      rw [normLine_match _ st (show taskLineMatch ("- [x] id:abc cd:2026-01-01".data) =
        some { pfx := "- [x] ".data, box := 'x', priority := none,
               body := "id:abc cd:2026-01-01".data } from by decide)]
      rw [if_pos (show (stripAndCollectMeta ("id:abc cd:2026-01-01".data)).1.isEmpty = true
        from by rw [strip_tokens_only]; rfl)]
    unfold applyNormalize
    rw [normLinesGo_cons]
    rw [hskip]
    simp [normLinesGo_nil]
  · refine ⟨{ pfx := "- [x] ".data, box := 'x', priority := none,
              body := "id:abc cd:2026-01-01".data }, by decide, by decide, ?_⟩
    show (stripAndCollectMeta ("id:abc cd:2026-01-01".data)).2.dd = none
    rw [strip_tokens_only]

/-- C2 (amended): restricted to the task lines the pass actually
processes — those whose stripped body is nonempty — the invariant
holds: the output line parses again and is completed exactly when its
decoded metadata carries a truthy dd. -/
theorem C2_completed_iff_dd (ctx : NormCtx) (st : NormState) (L : List Char)
    (hsd : ValueGood ctx.sourceDate) (htd : ValueGood ctx.today)
    (hfb : ∀ i, ValueGood (processFallback (ctx.fbs i)))
    {lm : LineMatch} (hm : taskLineMatch L = some lm)
    (hcne : (stripAndCollectMeta lm.body).1 ≠ []) :
    ∃ lm2, taskLineMatch ((normLine ctx st L).1.getD L) = some lm2 ∧
      (lc lm2.box = 'x' ↔ truthy (stripAndCollectMeta lm2.body).2.dd = true) := by
  obtain ⟨lm2, hparse, hbox2, hmeta⟩ := normLine_out_reparse ctx st L hsd htd hfb hm hcne
  obtain ⟨_, _, _, hdd3⟩ := normAssign_props ctx st (stripAndCollectMeta lm.body).2
    (decide (lc lm.box = 'x')) (stripAndCollectMeta_good lm.body) hsd htd hfb
  refine ⟨lm2, hparse, ?_⟩
  rw [hmeta, hdd3, hbox2]
  simp [decide_eq_true_eq]

theorem C2_completed_iff_dd_witness :
    ∃ lm2, taskLineMatch
        ((normLine
          { rand := fun _ => 3, fbs := fun _ => "aaaaaaaa-bbbb-cccc-dddd-eeeeeeeeeeee".data,
            sourceDate := "2026-01-15".data, today := "2026-02-21".data }
          { existing := [], chunkIdx := 0, fbIdx := 0 }
          "- [x] Ship id:ab12".data).1.getD "- [x] Ship id:ab12".data) = some lm2 ∧
      (lc lm2.box = 'x' ↔ truthy (stripAndCollectMeta lm2.body).2.dd = true) :=
  @C2_completed_iff_dd
    { rand := fun _ => 3, fbs := fun _ => "aaaaaaaa-bbbb-cccc-dddd-eeeeeeeeeeee".data,
      sourceDate := "2026-01-15".data, today := "2026-02-21".data }
    { existing := [], chunkIdx := 0, fbIdx := 0 }
    ("- [x] Ship id:ab12".data) (by decide) (by decide)
    (fun _ => by
      show ValueGood (processFallback "aaaaaaaa-bbbb-cccc-dddd-eeeeeeeeeeee".data)
      decide)
    { pfx := "- [x] ".data, box := 'x', priority := none, body := "Ship id:ab12".data }
    (by decide) strip_ship_id_ne

/-- C3 (counterexample): the round-trip law fails for a whitespace-free
value ending in a non-word character: encoding id "x." and decoding the
concatenation with text "a" moves the trailing dot into the cleaned
text and truncates the stored value to "x". -/
theorem C3_counterexample :
    (∀ c ∈ ("x.".data : List Char), isSpaceChar c = false) ∧
    stripAndCollectMeta ("a".data ++ buildMetaSuffix { id := some ("x.".data) }) =
      ("a .".data, { id := some ("x".data) }) ∧
    ("a .".data, ({ id := some ("x".data) } : TaskMeta)) ≠
      ("a".data, { id := some ("x.".data) }) := by
  refine ⟨by decide, ?_, by decide⟩
  rw [show ("a".data ++ buildMetaSuffix { id := some ("x.".data) } : List Char) =
    'a' :: ' ' :: 'i' :: 'd' :: ':' :: 'x' :: '.' :: [] from by decide]
  unfold stripAndCollectMeta
  rw [scanMeta_cons_none (by decide)]
  rw [show isWordChar 'a' = true from rfl, scanMeta_cons_true]
  rw [show isWordChar ' ' = false from rfl]
  rw [scanMeta_cons_some (show matchToken ('i' :: 'd' :: ':' :: 'x' :: '.' :: []) =
    some (MetaKey.id, "x".data, '.' :: []) from by decide)]
  rw [scanMeta_cons_true]
  rw [show isWordChar '.' = false from rfl, scanMeta_nil]
  simp only []
  have hcol : collapseWs ('a' :: ' ' :: '.' :: []) = 'a' :: ' ' :: '.' :: [] := by
    rw [collapseWs_cons_word (by decide)]
    rw [collapseWs_cons_space (by decide)]
    rw [show List.dropWhile isSpaceChar ('.' :: []) = '.' :: [] from by decide]
    rw [collapseWs_cons_word (by decide), collapseWs_nil]
  rw [hcol]
  decide

/-- C3 (amended): the codec round-trip law holds for every text that is
whitespace-normal (fixed by collapse-and-trim) and token-free, and
every record whose field values are well formed — nonempty,
whitespace-free and ending in a word character: decoding the text with
its encoded suffix recovers the text and the record exactly. -/
theorem C3_codec_roundtrip (text : List Char) (m : TaskMeta)
    (hnorm : trimWs (collapseWs text) = text)
    (hclean : scanMeta false text = ([], text)) (hm : MetaGood m) :
    stripAndCollectMeta (text ++ buildMetaSuffix m) = (text, m) :=
  strip_clean_suffix hnorm hclean hm

theorem C3_codec_roundtrip_witness :
    stripAndCollectMeta ("Ship".data ++ buildMetaSuffix { id := some ("ab12".data) }) =
      ("Ship".data, { id := some ("ab12".data) }) :=
  C3_codec_roundtrip ("Ship".data) { id := some ("ab12".data) }
    ship_norm ship_clean meta_ab12_good

/-- Every identifier the retry loop returns is outside the in-use set. -/
theorem genGo_fresh (rand : Nat → Nat) (existing : List (List Char)) :
    ∀ (fuel len attempt k : Nat), (11 - len) * 26 + (25 - attempt) ≤ fuel →
      ∀ {cand : List Char} {k2 : Nat},
      genGo rand existing len attempt k = some (cand, k2) → cand ∉ existing := by
  intro fuel
  induction fuel with
  | zero =>
    intro len attempt k hf cand k2 hg
    unfold genGo at hg
    rw [if_pos (by omega)] at hg
    simp at hg
  | succ fuel ih =>
    intro len attempt k hf cand k2 hg
    unfold genGo at hg
    by_cases h10 : 10 < len
    · rw [if_pos h10] at hg
      simp at hg
    · rw [if_neg h10] at hg
      by_cases h25 : 25 ≤ attempt
      · rw [if_pos h25] at hg
        exact ih (len + 1) 0 k (by omega) hg
      · rw [if_neg h25] at hg
        simp only [] at hg
        by_cases hcont : existing.contains (buildCandidate rand k [] len).1 = true
        · rw [if_pos hcont] at hg
          exact ih len (attempt + 1) _ (by omega) hg
        · rw [if_neg hcont] at hg
          simp only [Option.some.injEq] at hg
          have hc : (buildCandidate rand k [] len).1 = cand := by
            rw [hg]
          rw [← hc]
          simp at hcont
          exact hcont

set_option maxRecDepth 10000 in
set_option maxHeartbeats 3200000 in
/-- With an all-constant random oracle whose chunk renders as aaaa,
every candidate of every length from 3 to 10 is a run of letters a;
when all of those are already in use, every attempt collides. -/
theorem genGo_collides : genGo (fun _ => 479890)
    ["aaa".data, "aaaa".data, "aaaaa".data, "aaaaaa".data, "aaaaaaa".data,
     "aaaaaaaa".data, "aaaaaaaaa".data, "aaaaaaaaaa".data] 3 0 0 = none := by
  simp [genGo, buildCandidate, chunk36, toBase36, base36Char, base36Digits, lc]

/-- When the retry loop gives up, the allocator returns the processed
fallback identifier without any membership check. -/
theorem generateShortId_of_none (rand : Nat → Nat) (fb : List Char)
    (existing : List (List Char)) (k : Nat)
    (hg : genGo rand existing 3 0 k = none) :
    generateShortId rand fb existing k =
      (processFallback fb, processFallback fb :: existing, k, true) := by
  unfold generateShortId
  rw [hg]

/-- C4 (counterexample): when the retry loop exhausts every attempt,
the UUID fallback is returned without a membership check: with the
collision-forcing oracle and a fallback whose processed form is already
in use, the allocator returns an identifier that is in the in-use
set. -/
theorem C4_counterexample :
    (generateShortId (fun _ => 479890) ("aaaaaaaa-bbbb".data)
      ["aaa".data, "aaaa".data, "aaaaa".data, "aaaaaa".data, "aaaaaaa".data,
       "aaaaaaaa".data, "aaaaaaaaa".data, "aaaaaaaaaa".data] 0).1 ∈
    ["aaa".data, "aaaa".data, "aaaaa".data, "aaaaaa".data, "aaaaaaa".data,
     "aaaaaaaa".data, "aaaaaaaaa".data, "aaaaaaaaaa".data] := by
  rw [generateShortId_of_none (fun _ => 479890) ("aaaaaaaa-bbbb".data)
    ["aaa".data, "aaaa".data, "aaaaa".data, "aaaaaa".data, "aaaaaaa".data,
     "aaaaaaaa".data, "aaaaaaaaa".data, "aaaaaaaaaa".data] 0 genGo_collides]
  decide

/-- C4 (amended): the allocator contract holds whenever the processed
fallback identifier is itself outside the in-use set: the returned
identifier is not in the set, and the updated set is exactly the
returned identifier consed onto it (the reservation). -/
theorem C4_alloc_fresh (rand : Nat → Nat) (fb : List Char)
    (existing : List (List Char)) (k : Nat)
    (hfb : processFallback fb ∉ existing) :
    (generateShortId rand fb existing k).1 ∉ existing ∧
    (generateShortId rand fb existing k).2.1 =
      (generateShortId rand fb existing k).1 :: existing := by
  unfold generateShortId
  cases hg : genGo rand existing 3 0 k with
  | some bc =>
    rcases bc with ⟨cand, k2⟩
    exact ⟨genGo_fresh rand existing 233 3 0 k (by omega) hg, rfl⟩
  | none =>
    exact ⟨hfb, rfl⟩

theorem C4_alloc_fresh_witness :
    (processFallback ("aaaaaaaa-bbbb".data) ∉ (["zzz".data] : List (List Char))) ∧
    ((generateShortId (fun _ => 479890) ("aaaaaaaa-bbbb".data) ["zzz".data] 0).1 ∉
        (["zzz".data] : List (List Char)) ∧
      (generateShortId (fun _ => 479890) ("aaaaaaaa-bbbb".data) ["zzz".data] 0).2.1 =
        (generateShortId (fun _ => 479890) ("aaaaaaaa-bbbb".data) ["zzz".data] 0).1 ::
          ["zzz".data]) :=
  ⟨by decide, C4_alloc_fresh (fun _ => 479890) ("aaaaaaaa-bbbb".data) ["zzz".data] 0
    (by decide)⟩

/-! ## Lemmas: the insertion sort -/

theorem orderedInsert_perm {α : Type} (le : α → α → Bool) (x : α) (l : List α) :
    (orderedInsert le x l).Perm (x :: l) := by
  induction l with
  | nil => exact List.Perm.refl _
  | cons y ys ih =>
    rw [orderedInsert]
    split
    · exact List.Perm.refl _
    · exact (ih.cons y).trans (List.Perm.swap x y ys)

theorem stableSort_perm {α : Type} (le : α → α → Bool) (l : List α) :
    (stableSort le l).Perm l := by
  induction l with
  | nil => exact List.Perm.refl _
  | cons x xs ih => exact (orderedInsert_perm le x (stableSort le xs)).trans (ih.cons x)

theorem orderedInsert_all_false {α : Type} (le : α → α → Bool) (x : α) (l : List α)
    (h : ∀ y ∈ l, le x y = false) : orderedInsert le x l = l ++ [x] := by
  induction l with
  | nil => rfl
  | cons y ys ih =>
    rw [orderedInsert, if_neg (by simp [h y (by simp)])]
    rw [ih (fun z hz => h z (by simp [hz]))]
    rfl

theorem orderedInsert_last {α : Type} (le : α → α → Bool) (x z : α) (l : List α)
    (h : le x z = true) : ∃ pre, orderedInsert le x (l ++ [z]) = pre ++ [z] := by
  induction l with
  | nil => exact ⟨[x], by simp [orderedInsert, h]⟩
  | cons y ys ih =>
    by_cases hxy : le x y = true
    · refine ⟨x :: y :: ys, ?_⟩
      rw [List.cons_append, orderedInsert, if_pos hxy]
      rfl
    · obtain ⟨pre, hpre⟩ := ih
      refine ⟨y :: pre, ?_⟩
      rw [List.cons_append, orderedInsert, if_neg (by simp [hxy]), hpre]
      rfl

/-! ## Lemmas: stability and ordering of the priority sort -/

theorem filter_orderedInsert_rank {α : Type} (rank : α → Nat) (le : α → α → Bool)
    (x : α) (l : List α) (hle : ∀ b ∈ l, (le x b = true ↔ rank x ≤ rank b)) (r : Nat) :
    (orderedInsert le x l).filter (fun a => rank a = r) =
      if rank x = r then x :: l.filter (fun a => rank a = r)
      else l.filter (fun a => rank a = r) := by
  induction l with
  | nil =>
    by_cases hx : rank x = r <;> simp [orderedInsert, hx]
  | cons y ys ih =>
    by_cases hxy : le x y = true
    · rw [orderedInsert, if_pos hxy]
      by_cases hx : rank x = r <;> simp [List.filter_cons, hx]
    · have hyx : rank y < rank x := by
        have h2 := hle y (by simp)
        have h3 : ¬(rank x ≤ rank y) := fun hr => by simp [h2.mpr hr] at hxy
        omega
      rw [orderedInsert, if_neg (by simp [hxy])]
      rw [List.filter_cons]
      rw [ih (fun b hb => hle b (by simp [hb]))]
      by_cases hy : rank y = r
      · have hx : ¬(rank x = r) := by omega
        simp [hy, hx, List.filter_cons]
      · by_cases hx : rank x = r <;> simp [hy, hx, List.filter_cons]

theorem filter_stableSort_rank {α : Type} (rank : α → Nat) (le : α → α → Bool)
    (l : List α) (hle : ∀ a ∈ l, ∀ b ∈ l, (le a b = true ↔ rank a ≤ rank b)) (r : Nat) :
    (stableSort le l).filter (fun a => rank a = r) = l.filter (fun a => rank a = r) := by
  induction l with
  | nil => rfl
  | cons x xs ih =>
    rw [stableSort]
    rw [filter_orderedInsert_rank rank le x (stableSort le xs)
      (fun b hb => hle x (by simp) b
        (by simp [(stableSort_perm le xs).mem_iff.mp hb])) r]
    rw [ih (fun a ha b hb => hle a (by simp [ha]) b (by simp [hb]))]
    rw [List.filter_cons]
    by_cases hx : rank x = r <;> simp [hx]

theorem pairwise_orderedInsert_rank {α : Type} (rank : α → Nat) (le : α → α → Bool)
    (x : α) (l : List α) (hle : ∀ b ∈ l, (le x b = true ↔ rank x ≤ rank b))
    (hl : l.Pairwise (fun a b => rank a ≤ rank b)) :
    (orderedInsert le x l).Pairwise (fun a b => rank a ≤ rank b) := by
  induction l with
  | nil => simp [orderedInsert]
  | cons y ys ih =>
    rw [List.pairwise_cons] at hl
    obtain ⟨hy, hys⟩ := hl
    by_cases hxy : le x y = true
    · rw [orderedInsert, if_pos hxy]
      have hxyr : rank x ≤ rank y := (hle y (by simp)).mp hxy
      refine List.Pairwise.cons ?_ (List.Pairwise.cons hy hys)
      intro z hz
      rcases List.mem_cons.mp hz with rfl | hz2
      · exact hxyr
      · exact le_trans hxyr (hy z hz2)
    · rw [orderedInsert, if_neg (by simp [hxy])]
      have hyx : rank y ≤ rank x := by
        have h2 := hle y (by simp)
        have h3 : ¬(rank x ≤ rank y) := fun hr => by simp [h2.mpr hr] at hxy
        omega
      refine List.Pairwise.cons ?_ (ih (fun b hb => hle b (by simp [hb])) hys)
      intro z hz
      have hz2 : z ∈ x :: ys := (orderedInsert_perm le x ys).mem_iff.mp hz
      rcases List.mem_cons.mp hz2 with rfl | hz3
      · exact hyx
      · exact hy z hz3

theorem pairwise_stableSort_rank {α : Type} (rank : α → Nat) (le : α → α → Bool)
    (l : List α) (hle : ∀ a ∈ l, ∀ b ∈ l, (le a b = true ↔ rank a ≤ rank b)) :
    (stableSort le l).Pairwise (fun a b => rank a ≤ rank b) := by
  induction l with
  | nil => simp [stableSort]
  | cons x xs ih =>
    rw [stableSort]
    refine pairwise_orderedInsert_rank rank le x (stableSort le xs)
      (fun b hb => hle x (by simp) b
        (by simp [(stableSort_perm le xs).mem_iff.mp hb]))
      (ih (fun a ha b hb => hle a (by simp [ha]) b (by simp [hb])))

/-! ## Lemmas: the priority comparator against its numeric key -/

theorem charFold_le_of_ok {t : Task} {p : Char} (h : prioOk t = true)
    (hp : t.priority = some p) : 97 ≤ charFold p ∧ charFold p ≤ 122 := by
  unfold prioOk at h
  rw [hp] at h
  simp only [Bool.and_eq_true, decide_eq_true_eq] at h
  have g1 : (65 : Nat) ≤ p.toNat := h.1
  have g2 : p.toNat ≤ (90 : Nat) := h.2
  unfold charFold
  rw [if_pos (by simp [h.1, h.2])]
  omega

theorem lexCmp_single_ZZZ {p : Char} (h : charFold p ≤ 122) :
    lexCmp [p] ['Z', 'Z', 'Z'] ≤ 0 := by
  rw [lexCmp]
  rw [show charFold 'Z' = 122 from by decide]
  by_cases hlt : charFold p < 122
  · rw [if_pos hlt]
    decide
  · rw [if_neg hlt, if_neg (by omega)]
    decide

theorem lexCmp_ZZZ_single {q : Char} (h : charFold q ≤ 122) :
    ¬(lexCmp ['Z', 'Z', 'Z'] [q] ≤ 0) := by
  rw [lexCmp]
  rw [show charFold 'Z' = 122 from by decide]
  by_cases hlt : charFold q < 122
  · rw [if_neg (by omega), if_pos hlt]
    decide
  · rw [if_neg (by omega), if_neg (by omega)]
    decide

theorem lexCmp_single_single (p q : Char) :
    (lexCmp [p] [q] ≤ 0) ↔ charFold p ≤ charFold q := by
  rw [lexCmp]
  by_cases h1 : charFold p < charFold q
  · rw [if_pos h1]
    exact iff_of_true (by decide) (by omega)
  · by_cases h2 : charFold q < charFold p
    · rw [if_neg h1, if_pos h2]
      exact iff_of_false (by decide) (by omega)
    · rw [if_neg h1, if_neg h2]
      exact iff_of_true (by decide) (by omega)

theorem cmpTasks_le_iff {a b : Task} (ha : prioOk a = true) (hb : prioOk b = true) :
    (cmpTasks a b ≤ 0) ↔ prioRank a ≤ prioRank b := by
  unfold cmpTasks prioKey prioRank
  cases hpa : a.priority with
  | none =>
    cases hpb : b.priority with
    | none =>
      simp only []
      decide
    | some q =>
      have hq := charFold_le_of_ok hb hpb
      simp only []
      exact iff_of_false (lexCmp_ZZZ_single hq.2) (by omega)
  | some p =>
    have hp := charFold_le_of_ok ha hpa
    cases hpb : b.priority with
    | none =>
      simp only []
      exact iff_of_true (lexCmp_single_ZZZ hp.2) (by omega)
    | some q =>
      simp only []
      exact lexCmp_single_single p q

/-! ## Lemmas: the project grouping map -/

theorem getGroup_setGroup (gs : List (List Char × List Task)) (k : List Char)
    (v : List Task) (key : List Char) :
    getGroup (setGroup gs k v) key = if k = key then some v else getGroup gs key := by
  induction gs with
  | nil =>
    by_cases h : k = key <;> simp [setGroup, getGroup, h]
  | cons g gs ih =>
    rw [setGroup]
    by_cases hg : g.1 = k
    · rw [if_pos hg]
      by_cases h : k = key <;> simp [getGroup, h, hg]
    · rw [if_neg hg]
      by_cases h : k = key
      · subst h
        simp [getGroup, ih, hg]
      · by_cases h2 : g.1 = key <;> simp [getGroup, ih, h, h2]

theorem c6_foldl_push (K : List (List Char)) (gs : List (List Char × List Task))
    (t : Task) (key : List Char) :
    (getGroup (K.foldl (fun gs2 k => setGroup gs2 k ((getGroup gs2 k).getD [] ++ [t])) gs)
        key).getD [] =
    (getGroup gs key).getD [] ++ List.replicate (K.count key) t := by
  induction K generalizing gs with
  | nil => simp
  | cons k K ih =>
    rw [List.foldl_cons, ih]
    rw [getGroup_setGroup]
    by_cases h : k = key
    · subst h
      rw [if_pos rfl, Option.getD_some, List.count_cons]
      simp [List.replicate_succ, List.append_assoc]
    · rw [if_neg h, List.count_cons]
      have hbe : (k == key) = false := by
        simp [h]
      rw [hbe]
      simp

theorem c6_group_go (ts : List Task) (gs : List (List Char × List Task))
    (q : List Char) :
    (getGroup (ts.foldl
        (fun gs t =>
          let keys := if t.projects.isEmpty then [ungroupedKey] else t.projects
          keys.foldl (fun gs2 key => setGroup gs2 key ((getGroup gs2 key).getD [] ++ [t])) gs)
        gs) q).getD [] =
    (getGroup gs q).getD [] ++
      ts.flatMap (fun t => List.replicate
        ((if t.projects.isEmpty then [ungroupedKey] else t.projects).count q) t) := by
  induction ts generalizing gs with
  | nil => simp
  | cons t ts ih =>
    rw [List.foldl_cons, ih]
    simp only []
    rw [c6_foldl_push]
    simp [List.append_assoc]

theorem stableSort_U_last (ks : List (List Char)) (hU : ungroupedKey ∈ ks) :
    ∃ pre, stableSort (fun a b => cmpProject a b ≤ 0) ks = pre ++ [ungroupedKey] := by
  induction ks with
  | nil => simp at hU
  | cons k ks ih =>
    rw [stableSort]
    by_cases hk : k = ungroupedKey
    · subst hk
      exact ⟨stableSort _ ks,
        orderedInsert_all_false _ _ _ (fun y _ => by simp [cmpProject])⟩
    · have hmem : ungroupedKey ∈ ks := by
        rcases List.mem_cons.mp hU with h | h
        · exact absurd h.symm hk
        · exact h
      obtain ⟨pre, hpre⟩ := ih hmem
      rw [hpre]
      refine orderedInsert_last _ k ungroupedKey pre ?_
      simp [cmpProject, hk]

/-! ## The remaining claims -/

/-- C5 (counterexample): the rollover engine writes metadata tokens
into the target document: a task carrying an id is rendered with its
id token, which decodes back to the same identifier. -/
theorem C5_counterexample :
    buildRolloverSection [rolloverTaskEx] = "- [ ] (A) Ship id:ab12\n".data ∧
    (stripAndCollectMeta ("Ship id:ab12".data)).2.id = some ("ab12".data) := by
  refine ⟨by decide, ?_⟩
  rw [strip_ship_id]

/-- C5 (amended): each line the rollover engine writes is a full copy
of the task — checkbox, priority marker, body text and the complete
metadata suffix —, the emitted tasks are a permutation of the input in
priority-sorted order, and decoding a written body recovers exactly
the task's text and metadata record. -/
theorem C5_rollover_full_copies (ts : List Task) (hne : ts.isEmpty = false)
    (hx : ∀ t ∈ ts, trimWs (collapseWs t.text) = t.text ∧
      scanMeta false t.text = ([], t.text))
    (hm : ∀ t ∈ ts, MetaGood (taskMetaOf t)) :
    buildRolloverSection ts =
      joinWith '\n' ((sortTasksByPriority ts).map (fun t => formatTaskLine t false)) ++
        ['\n'] ∧
    (sortTasksByPriority ts).Perm ts ∧
    ∀ t ∈ ts,
      formatTaskLine t false =
        '-' :: ' ' :: ((if t.completed then "[x]".data else "[ ]".data) ++ ' ' ::
          (prioRender t.priority ++ (t.text ++ buildMetaSuffix (taskMetaOf t)))) ∧
      stripAndCollectMeta (t.text ++ buildMetaSuffix (taskMetaOf t)) =
        (t.text, taskMetaOf t) := by
  refine ⟨?_, stableSort_perm _ ts, ?_⟩
  · rw [buildRolloverSection, if_neg (by simp [hne])]
  · intro t ht
    refine ⟨?_, strip_clean_suffix (hx t ht).1 (hx t ht).2 (hm t ht)⟩
    cases hp : t.priority <;> simp [formatTaskLine, prioRender, hp]

theorem C5_rollover_full_copies_witness :
    (([rolloverTaskEx] : List Task).isEmpty = false) ∧
    (∀ t ∈ [rolloverTaskEx], trimWs (collapseWs t.text) = t.text ∧
        scanMeta false t.text = ([], t.text)) ∧
    (∀ t ∈ [rolloverTaskEx], MetaGood (taskMetaOf t)) ∧
    (buildRolloverSection [rolloverTaskEx] =
        joinWith '\n' ((sortTasksByPriority [rolloverTaskEx]).map
          (fun t => formatTaskLine t false)) ++ ['\n'] ∧
      (sortTasksByPriority [rolloverTaskEx]).Perm [rolloverTaskEx] ∧
      ∀ t ∈ [rolloverTaskEx],
        formatTaskLine t false =
          '-' :: ' ' :: ((if t.completed then "[x]".data else "[ ]".data) ++ ' ' ::
            (prioRender t.priority ++ (t.text ++ buildMetaSuffix (taskMetaOf t)))) ∧
        stripAndCollectMeta (t.text ++ buildMetaSuffix (taskMetaOf t)) =
          (t.text, taskMetaOf t)) := by
  have hx : ∀ t ∈ [rolloverTaskEx], trimWs (collapseWs t.text) = t.text ∧
      scanMeta false t.text = ([], t.text) := by
    intro t ht
    rw [List.mem_singleton] at ht
    subst ht
    exact ⟨ship_norm, ship_clean⟩
  have hm : ∀ t ∈ [rolloverTaskEx], MetaGood (taskMetaOf t) := by
    intro t ht
    rw [List.mem_singleton] at ht
    subst ht
    exact meta_ab12_good
  exact ⟨rfl, hx, hm, C5_rollover_full_copies [rolloverTaskEx] rfl hx hm⟩

/-- C6 (counterexample): a task whose project list carries the tag
Alpha twice — exactly what the tag scan produces for a body naming
+Alpha twice — appears twice in the Alpha group and its line is
rendered twice inside the +Alpha section. -/
theorem C6_counterexample :
    extractTags '+' ("x +Alpha +Alpha +Beta".data) =
      ["Alpha".data, "Alpha".data, "Beta".data] ∧
    (getGroup (groupTasksByProject [dupTagTask]) ("Alpha".data)).getD [] =
      [dupTagTask, dupTagTask] ∧
    ((sortTasksByPriority ((getGroup (groupTasksByProject [dupTagTask])
        ("Alpha".data)).getD [])).map (fun u => formatTaskLine u true)).count
      (formatTaskLine dupTagTask true) = 2 := by
  refine ⟨?_, by decide, by decide⟩
  simp [extractTags, isSpaceChar]

/-- C6 (amended): the group of a key holds, in encounter order, one
occurrence of each task per occurrence of the key among its project
tags — so a task tagged +Alpha +Beta appears once under each, but a
duplicated tag duplicates the task —, a task with no project tag is
counted exactly in the Ungrouped bucket, and the Ungrouped key sorts
to the last position of the section order whenever it is present. -/
theorem C6_grouping (ts : List Task) (q : List Char) (ks : List (List Char))
    (hU : ungroupedKey ∈ ks) :
    (getGroup (groupTasksByProject ts) q).getD [] =
      ts.flatMap (fun t => List.replicate
        ((if t.projects.isEmpty then [ungroupedKey] else t.projects).count q) t) ∧
    ∃ pre, sortKeys ks = pre ++ [ungroupedKey] := by
  constructor
  · rw [groupTasksByProject, c6_group_go]
    simp [getGroup]
  · exact stableSort_U_last ks hU

theorem C6_grouping_witness :
    ungroupedKey ∈ [ungroupedKey, "Alpha".data] ∧
    ((getGroup (groupTasksByProject [dupTagTask]) ("Beta".data)).getD [] =
      [dupTagTask].flatMap (fun t => List.replicate
        ((if t.projects.isEmpty then [ungroupedKey] else t.projects).count
          ("Beta".data)) t) ∧
    ∃ pre, sortKeys [ungroupedKey, "Alpha".data] = pre ++ [ungroupedKey]) := by
  have hU : ungroupedKey ∈ [ungroupedKey, "Alpha".data] := by simp
  exact ⟨hU, C6_grouping [dupTagTask] ("Beta".data) [ungroupedKey, "Alpha".data] hU⟩

/-- C7: the priority sort is exactly ascending stable ordering by the
priority key: the output is pairwise ordered by the numeric rank —
letters ascending A before B before Z, the absent priority ranking
after every letter — and for every rank the subsequence of tasks of
that rank is preserved from the input (stability); in particular
priorities C, none, A, B in that order sort to A, B, C, none. -/
theorem C7_priority_order (ts : List Task) (hok : ∀ t ∈ ts, prioOk t = true) :
    (sortTasksByPriority ts).Pairwise (fun a b => prioRank a ≤ prioRank b) ∧
    (∀ r, (sortTasksByPriority ts).filter (fun t => prioRank t = r) =
      ts.filter (fun t => prioRank t = r)) ∧
    sortTasksByPriority [taskC, taskN, taskA, taskB] = [taskA, taskB, taskC, taskN] := by
  have hle : ∀ a ∈ ts, ∀ b ∈ ts,
      ((fun a b => decide (cmpTasks a b ≤ 0)) a b = true ↔ prioRank a ≤ prioRank b) := by
    intro a ha b hb
    simp only [decide_eq_true_eq]
    exact cmpTasks_le_iff (hok a ha) (hok b hb)
  refine ⟨?_, ?_, by decide⟩
  · exact pairwise_stableSort_rank prioRank (fun a b => decide (cmpTasks a b ≤ 0)) ts hle
  · intro r
    exact filter_stableSort_rank prioRank (fun a b => decide (cmpTasks a b ≤ 0)) ts hle r

theorem C7_priority_order_witness :
    (∀ t ∈ [taskC, taskN, taskA, taskB], prioOk t = true) ∧
    ((sortTasksByPriority [taskC, taskN, taskA, taskB]).Pairwise
        (fun a b => prioRank a ≤ prioRank b) ∧
      (∀ r, (sortTasksByPriority [taskC, taskN, taskA, taskB]).filter
          (fun t => prioRank t = r) =
        ([taskC, taskN, taskA, taskB] : List Task).filter (fun t => prioRank t = r)) ∧
      sortTasksByPriority [taskC, taskN, taskA, taskB] =
        [taskA, taskB, taskC, taskN]) := by
  have hok : ∀ t ∈ [taskC, taskN, taskA, taskB], prioOk t = true := by decide
  exact ⟨hok, C7_priority_order [taskC, taskN, taskA, taskB] hok⟩

/-- C8: Modelled from the spec: the first save of a not yet monitored
document mirrors nothing and records the identifiers present as the
baseline; a second save whose only change is one new identifier
mirrors exactly that identifier. -/
theorem C8_copy_on_create (st0 : SyncState) (doc : List Char)
    (base : List (List Char)) (addedId : List Char)
    (hdoc : st0.initializedFiles.contains doc = false)
    (hnew : (st0.copiedTaskIds ++ base).contains addedId = false) :
    (copyOnCreateSave st0 doc base).1 = [] ∧
    (copyOnCreateSave (copyOnCreateSave st0 doc base).2 doc (base ++ [addedId])).1 =
      [addedId] := by
  have hdoc2 : doc ∉ st0.initializedFiles := by simpa using hdoc
  constructor
  · rw [copyOnCreateSave, if_neg (by simp [hdoc2])]
  · have hst1 : (copyOnCreateSave st0 doc base).2 =
        { initializedFiles := doc :: st0.initializedFiles,
          copiedTaskIds := st0.copiedTaskIds ++ base } := by
      rw [copyOnCreateSave, if_neg (by simp [hdoc2])]
    rw [hst1]
    rw [copyOnCreateSave, if_pos (by simp)]
    simp only []
    rw [List.filter_append]
    have h1 : base.filter (fun i => !(st0.copiedTaskIds ++ base).contains i) = [] := by
      rw [List.filter_eq_nil_iff]
      intro b hb
      simp [List.mem_append, hb]
    have h2 : [addedId].filter (fun i => !(st0.copiedTaskIds ++ base).contains i) =
        [addedId] := by
      simp only [List.filter_cons, List.filter_nil]
      rw [if_pos (by simpa using hnew)]
    rw [h1, h2]
    rfl

theorem C8_copy_on_create_witness :
    ((⟨[], []⟩ : SyncState).initializedFiles.contains ("d".data) = false) ∧
    (((⟨[], []⟩ : SyncState).copiedTaskIds ++ ["aa".data]).contains ("bb".data) = false) ∧
    ((copyOnCreateSave ⟨[], []⟩ ("d".data) ["aa".data]).1 = [] ∧
      (copyOnCreateSave (copyOnCreateSave ⟨[], []⟩ ("d".data) ["aa".data]).2 ("d".data)
        (["aa".data] ++ ["bb".data])).1 = ["bb".data]) :=
  ⟨by decide, by decide,
    C8_copy_on_create ⟨[], []⟩ ("d".data) ["aa".data] ("bb".data) (by decide) (by decide)⟩

theorem metaParts_key_once (m : TaskMeta) (k : MetaKey) :
    ((metaParts m).filter (fun t => t.1 = k)).length ≤ 1 := by
  obtain ⟨f1, f2, f3, f4⟩ := m
  rcases f1 with _ | v1 <;> rcases f2 with _ | v2 <;> rcases f3 with _ | v3 <;>
    rcases f4 with _ | v4 <;> cases k <;>
    simp [metaParts] <;> split_ifs <;> simp

/-- C10: duplicate metadata tokens collapse to the last occurrence:
decoding a body yields, for every key, exactly the value of the
rightmost scanned token carrying that key; every token occurrence is
removed from the cleaned text, which rescans to itself with no token
found; and the record the canonical line is re-encoded from renders
each key at most once. -/
theorem C10_duplicate_tokens_last_wins (s : List Char) (k : MetaKey) :
    metaField (stripAndCollectMeta s).2 k = lastTokenValue k (scanMeta false s).1 ∧
    scanMeta false (stripAndCollectMeta s).1 = ([], (stripAndCollectMeta s).1) ∧
    ((metaParts (stripAndCollectMeta s).2).filter (fun t => t.1 = k)).length ≤ 1 := by
  refine ⟨?_, ?_, metaParts_key_once _ k⟩
  · unfold stripAndCollectMeta
    simp only []
    rw [foldl_applyToken_field]
    cases hl : lastTokenValue k (scanMeta false s).1 with
    | some v => rfl
    | none => cases k <;> rfl
  · unfold stripAndCollectMeta
    simp only []
    exact trimWs_collapseWs_clean (scanMeta_kept_clean false s)

end DailyNotes
